import Mathlib

/-! # Kaleidoscope front end: tokenizer, parser and top-level driver

A shallow embedding of `src/toy.cpp` (tokenizer `gettok`, the recursive-descent
parser, the driver `MainLoop`) and of the second tokenizer in `src/lexer.h`.

Conventions of the embedding

* C `int` values (characters returned by `getchar`, token codes) are `Int`.
* Standard input is the list of characters not yet read; `getchar` on the empty
  list returns `EOF` and keeps doing so.
* C++ `std::string` values are lists of characters.
* The global variables (`LastChar`, `IdentifierStr`, `NumVal`, `CurTok`) are fields of
  an explicit state that every procedure takes and returns.
* `stderr` is recorded as the list of messages passed to `Error`; the prompt `"> "`
  written by the driver is not recorded.
* Floating point is not embedded: the double produced by `strtod` is represented by
  the numeral text it is converted from.
* Recursive procedures and loops whose termination depends on the input take a
  fuel argument; running out of fuel is a separate outcome, never a result.
-/

namespace Kaleidoscope

/-! ## Characters -/

/-- The value `getchar` returns at end of input. -/
def EOF : Int := -1

/-- C `isspace` in the "C" locale. -/
def isspace (c : Int) : Bool := decide ((9 ≤ c ∧ c ≤ 13) ∨ c = 32)

/-- C `isdigit`. -/
def isdigit (c : Int) : Bool := decide (48 ≤ c ∧ c ≤ 57)

/-- C `isalpha` in the "C" locale. -/
def isalpha (c : Int) : Bool := decide ((65 ≤ c ∧ c ≤ 90) ∨ (97 ≤ c ∧ c ≤ 122))

/-- C `isalnum`. -/
def isalnum (c : Int) : Bool := isalpha c || isdigit c

/-- C `isascii`. -/
def isascii (c : Int) : Bool := decide (0 ≤ c ∧ c ≤ 127)

/-- Conversion of an `int` holding a character value to `char`. -/
def toChar (c : Int) : Char := Char.ofNat c.toNat

/-- The `int` value of a character. -/
def ord (c : Char) : Int := (c.toNat : Int)

/-- One call of `getchar` on the unread input. -/
def getchar : List Char → Int × List Char
  | [] => (EOF, [])
  | c :: cs => (ord c, cs)

/-! ## Token codes -/

def TOK_EOF : Int := -1
def TOK_DEF : Int := -2
def TOK_EXTERN : Int := -3
def TOK_IDENT : Int := -4
def TOK_NUMBER : Int := -5
def TOK_OP : Int := -6

/-- A double obtained from `strtod`, represented by the text that was converted. -/
structure Double where
  text : List Char
  deriving DecidableEq, Repr

/-- The call `strtod(NumStr.c_str(), 0)`. -/
def strtod (NumStr : List Char) : Double := ⟨NumStr⟩

/-- The tokenizer's globals together with the unread input. `OpStr` exists only in
`lexer.h`; the tokenizer of `toy.cpp` never touches it. -/
structure LexState where
  LastChar : Int
  input : List Char
  IdentifierStr : List Char
  NumVal : Double
  OpStr : List Char
  deriving DecidableEq, Repr

/-- The state before the first call of `gettok` on the given input:
`static int LastChar = ' '`, empty strings. -/
def LexState.init (input : List Char) : LexState :=
  { LastChar := 32, input := input, IdentifierStr := [], NumVal := ⟨[]⟩, OpStr := [] }

/-! ## The loops of `gettok` (identical text in `toy.cpp` and `lexer.h`) -/

/-- The loop `while (isspace(LastChar)) LastChar = getchar();`. -/
def skipSpace : Int → List Char → Int × List Char
  | last, [] => if isspace last then (EOF, []) else (last, [])
  | last, c :: cs => if isspace last then skipSpace (ord c) cs else (last, c :: cs)

/-- The loop `while (isalnum((LastChar = getchar()))) IdentifierStr += LastChar;`,
returning the identifier text, the new `LastChar` and the unread input. -/
def identLoop : List Char → List Char → List Char × Int × List Char
  | id, [] => (id, EOF, [])
  | id, c :: cs => if isalnum (ord c) then identLoop (id ++ [c]) cs else (id, ord c, cs)

/-- The loop `do { NumStr += LastChar; LastChar = getchar(); } while (cond(LastChar));`. -/
def digitLoop (cond : Int → Bool) : List Char → Int → List Char → List Char × Int × List Char
  | num, last, [] => (num ++ [toChar last], EOF, [])
  | num, last, c :: cs =>
    if cond (ord c) then digitLoop cond (num ++ [toChar last]) (ord c) cs
    else (num ++ [toChar last], ord c, cs)

/-- The loop
`do LastChar = getchar(); while (LastChar != EOF && LastChar != '\n' && LastChar != '\r');`. -/
def commentLoop : List Char → Int × List Char
  | [] => (EOF, [])
  | c :: cs => if ord c ≠ EOF ∧ ord c ≠ 10 ∧ ord c ≠ 13 then commentLoop cs else (ord c, cs)

/-- The numeral branch of `gettok`, from `string NumStr;` to the assignment of `NumVal`;
it is entered with `isdigit(LastChar)`. -/
def lexNumber (s : LexState) (last : Int) (inp : List Char) : LexState :=
  let r := digitLoop (fun c => isdigit c && decide (c ≠ 46)) [] last inp
  if r.2.1 = 46 then
    let NumStr := r.1 ++ [toChar r.2.1]
    let g := getchar r.2.2
    if isdigit g.1 then
      let r2 := digitLoop isdigit NumStr g.1 g.2
      { s with LastChar := r2.2.1, input := r2.2.2, NumVal := strtod r2.1 }
    else
      { s with LastChar := g.1, input := g.2, NumVal := strtod (NumStr ++ ['0']) }
  else
    { s with LastChar := r.2.1, input := r.2.2, NumVal := strtod r.1 }

/-! ## `gettok` of `toy.cpp` -/

namespace Toy

/-- In `toy.cpp` the parentheses are their own character codes. -/
def TOK_LP : Int := 40
def TOK_RP : Int := 41

/-- Body of `gettok` in `toy.cpp`; the fuel bounds the recursion `return gettok();`
after a comment. Returns the token code and the new tokenizer state. -/
def gettokFuel : Nat → LexState → Option (Int × LexState)
  | 0, _ => none
  | fuel + 1, s =>
    let w := skipSpace s.LastChar s.input
    if isalpha w.1 then
      let r := identLoop [toChar w.1] w.2
      let s1 := { s with LastChar := r.2.1, input := r.2.2, IdentifierStr := r.1 }
      if r.1 = ['d', 'e', 'f'] then some (TOK_DEF, s1)
      else if r.1 = ['e', 'x', 't', 'e', 'r', 'n'] then some (TOK_EXTERN, s1)
      else some (TOK_IDENT, s1)
    else if isdigit w.1 then
      some (TOK_NUMBER, lexNumber s w.1 w.2)
    else
      let c := if w.1 = 35 then commentLoop w.2 else w
      if w.1 = 35 ∧ c.1 ≠ EOF then
        gettokFuel fuel { s with LastChar := c.1, input := c.2 }
      else if c.1 = EOF then
        some (TOK_EOF, { s with LastChar := c.1, input := c.2 })
      else
        let g := getchar c.2
        some (c.1, { s with LastChar := g.1, input := g.2 })

/-- The function `gettok` of `toy.cpp`. Every recursive call happens after at least the
`#` of a comment was consumed, so fuel beyond the length of the unread input is never
used up (`gettokFuel_isSome`); the `none` branch below is unreachable. -/
def gettok (s : LexState) : Int × LexState :=
  match gettokFuel (s.input.length + 1) s with
  | some r => r
  | none => (TOK_EOF, s)

end Toy

/-! ## `gettok` of `lexer.h` -/

namespace LexerH

/-- In `lexer.h` the parentheses have token codes of their own. -/
def TOK_LP : Int := -7
def TOK_RP : Int := -8

/-- Outcome of one call of `gettok` in `lexer.h`: a token code, or the exception
`UndefinedTokenException(LastChar)`. -/
inductive LexResult where
  | tok (code : Int) (s : LexState)
  | undefinedToken (Token : Int) (s : LexState)
  deriving DecidableEq, Repr

/-- Body of `gettok` in `lexer.h`, with fuel for the recursion after a comment. -/
def gettokFuel : Nat → LexState → Option LexResult
  | 0, _ => none
  | fuel + 1, s =>
    let w := skipSpace s.LastChar s.input
    if isalpha w.1 then
      let r := identLoop [toChar w.1] w.2
      let s1 := { s with LastChar := r.2.1, input := r.2.2, IdentifierStr := r.1 }
      if r.1 = ['d', 'e', 'f'] then some (.tok TOK_DEF s1)
      else if r.1 = ['e', 'x', 't', 'e', 'r', 'n'] then some (.tok TOK_EXTERN s1)
      else some (.tok TOK_IDENT s1)
    else if isdigit w.1 then
      some (.tok TOK_NUMBER (lexNumber s w.1 w.2))
    else
      let c := if w.1 = 35 then commentLoop w.2 else w
      if w.1 = 35 ∧ c.1 ≠ EOF then
        gettokFuel fuel { s with LastChar := c.1, input := c.2 }
      else if c.1 = 43 ∨ c.1 = 45 ∨ c.1 = 42 ∨ c.1 = 47 then
        let g := getchar c.2
        some (.tok TOK_OP { s with LastChar := g.1, input := g.2, OpStr := [toChar c.1] })
      else if c.1 = 40 then
        let g := getchar c.2
        some (.tok TOK_LP { s with LastChar := g.1, input := g.2 })
      else if c.1 = 41 then
        let g := getchar c.2
        some (.tok TOK_RP { s with LastChar := g.1, input := g.2 })
      else if c.1 = EOF then
        some (.tok TOK_EOF { s with LastChar := c.1, input := c.2 })
      else
        some (.undefinedToken c.1 { s with LastChar := c.1, input := c.2 })

/-- The function `gettok` of `lexer.h`; the `none` branch is unreachable
(`gettokFuel_isSome_h`). -/
def gettok (s : LexState) : LexResult :=
  match gettokFuel (s.input.length + 1) s with
  | some r => r
  | none => .tok TOK_EOF s

end LexerH

/-! ## AST (`toy.cpp`) -/

/-- The expression classes `NumberExprAST`, `VariableExprAST`, `BinaryExprAST` and
`CallExprAST`. -/
inductive ExprAST where
  | Number (Val : Double)
  | Variable (Name : List Char)
  | Binary (Op : Char) (LHS RHS : ExprAST)
  | Call (Callee : List Char) (Args : List ExprAST)
  deriving Repr

/-- The class `PrototypeAST`. -/
structure PrototypeAST where
  Name : List Char
  Args : List (List Char)
  deriving DecidableEq, Repr

/-- The class `FunctionAST`. -/
structure FunctionAST where
  Proto : PrototypeAST
  Body : ExprAST
  deriving Repr

/-! ## Parser (`toy.cpp`) -/

namespace Toy

/-- The `map<char, int>` read through `operator[]`: a key that was never assigned
reads as `0`. -/
abbrev PrecMap := Int → Int

/-- The map before `initBinopPrecedence`. -/
def PrecMap.empty : PrecMap := fun _ => 0

/-- The assignment `m[k] = v`. -/
def PrecMap.set (m : PrecMap) (k v : Int) : PrecMap := fun c => if c = k then v else m c

/-- The procedure `initBinopPrecedence`. -/
def initBinopPrecedence (m : PrecMap) : PrecMap :=
  (((m.set 60 10).set 43 20).set 45 20).set 42 40

/-- The global `BinopPrecedence` as `main` leaves it before the first token is read. -/
def BinopPrecedence : PrecMap := initBinopPrecedence PrecMap.empty

/-- Parser state: the tokenizer state, the current token `CurTok`, and the messages
written through `Error` so far. -/
structure PState where
  lex : LexState
  CurTok : Int
  errs : List String
  deriving DecidableEq, Repr

/-- The function `getNextToken`: `CurTok = gettok()`. -/
def getNextToken (s : PState) : PState :=
  let r := gettok s.lex
  { s with lex := r.2, CurTok := r.1 }

/-- The function `GetTokPrecedence`. -/
def GetTokPrecedence (s : PState) : Int :=
  if !isascii s.CurTok then -1
  else
    let TokPrec := BinopPrecedence s.CurTok
    if TokPrec ≤ 0 then -1 else TokPrec

/-- Outcome of a parse procedure: a node, the null pointer, or fuel exhausted. -/
inductive Res (α : Type) where
  | ok (v : α) (s : PState)
  | null (s : PState)
  | oof
  deriving Repr

/-- The helpers `Error` and `ErrorP`: write the message to `stderr`, return null. -/
def Error {α : Type} (Str : String) (s : PState) : Res α :=
  .null { s with errs := s.errs ++ [Str] }

/-- The function `ParseNumberExpr`. -/
def ParseNumberExpr (s : PState) : Res ExprAST :=
  .ok (.Number s.lex.NumVal) (getNextToken s)

mutual

/-- The function `ParsePrimary`. -/
def ParsePrimary : Nat → PState → Res ExprAST
  | 0, _ => .oof
  | n + 1, s =>
    if s.CurTok = TOK_IDENT then ParseIdentExpr n s
    else if s.CurTok = TOK_NUMBER then ParseNumberExpr s
    else if s.CurTok = TOK_LP then ParseParenExpr n s
    else Error "unknown token when expecting an expression" s

/-- The function `ParseParenExpr`. -/
def ParseParenExpr : Nat → PState → Res ExprAST
  | 0, _ => .oof
  | n + 1, s =>
    match ParseExpression n (getNextToken s) with
    | .ok V s1 =>
      if s1.CurTok ≠ TOK_RP then Error "expected ')'" s1
      else .ok V (getNextToken s1)
    | .null s1 => .null s1
    | .oof => .oof

/-- The loop `while (1)` of `ParseIdentExpr`, one iteration per unit of fuel; `Args` is
the vector built so far. It returns with `CurTok == ')'`. -/
def ParseArgs : Nat → List ExprAST → PState → Res (List ExprAST)
  | 0, _, _ => .oof
  | n + 1, Args, s =>
    match ParseExpression n s with
    | .ok Arg s1 =>
      if s1.CurTok = TOK_RP then .ok (Args ++ [Arg]) s1
      else if s1.CurTok ≠ 44 then Error "Expected ')' or ',' in argument list" s1
      else ParseArgs n (Args ++ [Arg]) (getNextToken s1)
    | .null s1 => .null s1
    | .oof => .oof

/-- The function `ParseIdentExpr`. -/
def ParseIdentExpr : Nat → PState → Res ExprAST
  | 0, _ => .oof
  | n + 1, s =>
    let IdName := s.lex.IdentifierStr
    let s1 := getNextToken s
    if s1.CurTok ≠ TOK_LP then .ok (.Variable IdName) s1
    else
      let s2 := getNextToken s1
      if s2.CurTok ≠ TOK_RP then
        match ParseArgs n [] s2 with
        | .ok Args s3 => .ok (.Call IdName Args) (getNextToken s3)
        | .null s3 => .null s3
        | .oof => .oof
      else .ok (.Call IdName []) (getNextToken s2)

/-- The function `ParseBinOpRHS`; the next iteration of its `while (1)` is the last
call in each branch. -/
def ParseBinOpRHS : Nat → Int → ExprAST → PState → Res ExprAST
  | 0, _, _, _ => .oof
  | n + 1, ParentPrec, LHS, s =>
    let CurPrec := GetTokPrecedence s
    if CurPrec < ParentPrec then .ok LHS s
    else
      let BinOp := s.CurTok
      match ParsePrimary n (getNextToken s) with
      | .ok RHS s1 =>
        let NextPrec := GetTokPrecedence s1
        if CurPrec < NextPrec then
          match ParseBinOpRHS n (CurPrec + 1) RHS s1 with
          | .ok RHS2 s2 => ParseBinOpRHS n ParentPrec (.Binary (toChar BinOp) LHS RHS2) s2
          | .null s2 => .null s2
          | .oof => .oof
        else ParseBinOpRHS n ParentPrec (.Binary (toChar BinOp) LHS RHS) s1
      | .null s1 => .null s1
      | .oof => .oof

/-- The function `ParseExpression`. -/
def ParseExpression : Nat → PState → Res ExprAST
  | 0, _ => .oof
  | n + 1, s =>
    match ParsePrimary n s with
    | .ok LHS s1 => ParseBinOpRHS n 0 LHS s1
    | .null s1 => .null s1
    | .oof => .oof

end

/-- The loop `while (getNextToken() == TOK_IDENT) ArgNames.push_back(IdentifierStr);` of
`ParsePrototype`; `none` when the fuel runs out. -/
def protoArgs : Nat → List (List Char) → PState → Option (List (List Char) × PState)
  | 0, _, _ => none
  | n + 1, ArgNames, s =>
    let s1 := getNextToken s
    if s1.CurTok = TOK_IDENT then protoArgs n (ArgNames ++ [s1.lex.IdentifierStr]) s1
    else some (ArgNames, s1)

/-- The function `ParsePrototype`. -/
def ParsePrototype (fuel : Nat) (s : PState) : Res PrototypeAST :=
  if s.CurTok ≠ TOK_IDENT then Error "Expected function name in prototype" s
  else
    let FuncName := s.lex.IdentifierStr
    let s1 := getNextToken s
    if s1.CurTok ≠ TOK_LP then Error "Expected '(' in prototype" s1
    else
      match protoArgs fuel [] s1 with
      | none => .oof
      | some (ArgNames, s2) =>
        if s2.CurTok ≠ TOK_RP then Error "Expected ')' in prototype" s2
        else .ok ⟨FuncName, ArgNames⟩ (getNextToken s2)

/-- The function `ParseDefinition`. -/
def ParseDefinition (fuel : Nat) (s : PState) : Res FunctionAST :=
  match ParsePrototype fuel (getNextToken s) with
  | .ok Proto s1 =>
    match ParseExpression fuel s1 with
    | .ok E s2 => .ok ⟨Proto, E⟩ s2
    | .null s2 => .null s2
    | .oof => .oof
  | .null s1 => .null s1
  | .oof => .oof

/-- The function `ParseExtern`. -/
def ParseExtern (fuel : Nat) (s : PState) : Res PrototypeAST :=
  ParsePrototype fuel (getNextToken s)

/-- The function `ParseTopLevelExpr`. -/
def ParseTopLevelExpr (fuel : Nat) (s : PState) : Res FunctionAST :=
  match ParseExpression fuel s with
  | .ok E s1 => .ok ⟨⟨[], []⟩, E⟩ s1
  | .null s1 => .null s1
  | .oof => .oof

/-! ## Top-level driver (`toy.cpp`) -/

/-- A node on which the driver calls `codegen()`: this call is the hand-over to the
backend, which is outside the embedding. -/
inductive TopNode where
  | function (f : FunctionAST)
  | prototype (p : PrototypeAST)
  deriving Repr

/-- Driver state: the parser state and the nodes handed to the backend so far. -/
structure DState where
  p : PState
  handed : List TopNode
  deriving Repr

/-- The procedure `HandleDefinition`; `none` when the fuel runs out. -/
def HandleDefinition (fuel : Nat) (d : DState) : Option DState :=
  match ParseDefinition fuel d.p with
  | .ok FnAST s => some { p := s, handed := d.handed ++ [.function FnAST] }
  | .null s => some { d with p := getNextToken s }
  | .oof => none

/-- The procedure `HandleExtern`. -/
def HandleExtern (fuel : Nat) (d : DState) : Option DState :=
  match ParseExtern fuel d.p with
  | .ok ProtoAST s => some { p := s, handed := d.handed ++ [.prototype ProtoAST] }
  | .null s => some { d with p := getNextToken s }
  | .oof => none

/-- The procedure `HandleTopLevelExpression`. -/
def HandleTopLevelExpression (fuel : Nat) (d : DState) : Option DState :=
  match ParseTopLevelExpr fuel d.p with
  | .ok FnAST s => some { p := s, handed := d.handed ++ [.function FnAST] }
  | .null s => some { d with p := getNextToken s }
  | .oof => none

/-- The procedure `MainLoop`: one iteration of `while (1)` per unit of fuel; the state at
`return`, or `none` when the fuel runs out. -/
def MainLoop : Nat → DState → Option DState
  | 0, _ => none
  | n + 1, d =>
    if d.p.CurTok = TOK_EOF then some d
    else if d.p.CurTok = 59 then MainLoop n { d with p := getNextToken d.p }
    else if d.p.CurTok = TOK_DEF then (HandleDefinition n d).bind (MainLoop n)
    else if d.p.CurTok = TOK_EXTERN then (HandleExtern n d).bind (MainLoop n)
    else (HandleTopLevelExpression n d).bind (MainLoop n)

/-- The parser state on entry to `MainLoop` in `main`: the first `getNextToken()` was
executed on the given standard input. -/
def start (input : List Char) : PState :=
  getNextToken { lex := LexState.init input, CurTok := 0, errs := [] }

/-- The function `main` up to the return of `MainLoop`. -/
def run (fuel : Nat) (input : List Char) : Option DState :=
  MainLoop fuel { p := start input, handed := [] }

end Toy

/-! ## Definitions used to state the properties -/

/-- The value of a decimal digit character. -/
def digitVal (c : Char) : Nat := c.toNat - 48

/-- The natural number denoted by a string of decimal digits. -/
def natOfDigits (ds : List Char) : Nat := ds.foldl (fun a c => 10 * a + digitVal c) 0

/-- The exact value denoted by a numeral text `digits` or `digits.digits`; `strtod` rounds
this value to a double. -/
def decimalValue (t : List Char) : ℚ :=
  (natOfDigits (t.takeWhile (fun c => c ≠ '.')) : ℚ)
    + (natOfDigits ((t.dropWhile (fun c => c ≠ '.')).drop 1) : ℚ)
      / 10 ^ ((t.dropWhile (fun c => c ≠ '.')).drop 1).length

/-- The condition under which `gettok` reaches `return gettok();`. -/
def recurses (s : LexState) : Prop :=
  isalpha (skipSpace s.LastChar s.input).1 = false ∧
  isdigit (skipSpace s.LastChar s.input).1 = false ∧
  (skipSpace s.LastChar s.input).1 = 35 ∧
  (commentLoop (skipSpace s.LastChar s.input).2).1 ≠ EOF

/-- The state with which `gettok` calls itself after a comment. -/
def afterComment (s : LexState) : LexState :=
  { s with LastChar := (commentLoop (skipSpace s.LastChar s.input).2).1,
           input := (commentLoop (skipSpace s.LastChar s.input).2).2 }

/-- The number of characters that the tokenizer has not consumed yet, the lookahead
`LastChar` included. -/
def pending (l : LexState) : Nat := l.input.length + (if l.LastChar = EOF then 0 else 1)

namespace Toy

/-- The token and tokenizer state `rb` agree with `ra` in everything the parser can
observe: the token code, the lookahead and unread input, the identifier text when the
token is an identifier, and the number when the token is a number. -/
def TokSim (ra rb : Int × LexState) : Prop :=
  rb.1 = ra.1 ∧ rb.2.LastChar = ra.2.LastChar ∧ rb.2.input = ra.2.input ∧
  -1 ≤ ra.2.LastChar ∧
  (ra.1 = TOK_IDENT → rb.2.IdentifierStr = ra.2.IdentifierStr) ∧
  (ra.1 = TOK_NUMBER → rb.2.NumVal = ra.2.NumVal)

/-- Parser state `b` is parser state `a` up to stale values of `IdentifierStr` and
`NumVal` (values that belong to an earlier token), with the messages `e` written before
those of `a`. -/
def Sim (e : List String) (a b : PState) : Prop :=
  b.lex.LastChar = a.lex.LastChar ∧ b.lex.input = a.lex.input ∧ -1 ≤ a.lex.LastChar ∧
  b.CurTok = a.CurTok ∧
  (a.CurTok = TOK_IDENT → b.lex.IdentifierStr = a.lex.IdentifierStr) ∧
  (a.CurTok = TOK_NUMBER → b.lex.NumVal = a.lex.NumVal) ∧
  b.errs = e ++ a.errs

/-- The relation `Sim` lifted to outcomes of parse procedures: same kind of outcome, same
node, related states. -/
def ResSim {α : Type} (e : List String) : Res α → Res α → Prop
  | .ok v s, .ok w t => v = w ∧ Sim e s t
  | .null s, .null t => Sim e s t
  | .oof, .oof => True
  | _, _ => False

/-- Driver state `d2` is driver state `d1` up to stale tokenizer variables, with the
messages `e` written and the nodes `h` handed over before those of `d1`. -/
def DSim (e : List String) (h : List TopNode) (d1 d2 : DState) : Prop :=
  Sim e d1.p d2.p ∧ d2.handed = h ++ d1.handed

/-- The relation `DSim` lifted to the outcome of the driver. -/
def OptDSim (e : List String) (h : List TopNode) : Option DState → Option DState → Prop
  | some d1, some d2 => DSim e h d1 d2
  | none, none => True
  | _, _ => False

/-- A character that the tokenizer of `toy.cpp` returns as a token of its own and with
which no top-level construct starts: anything but white space, letters, digits, `#`,
`;` and `(`. -/
def StartsNothing (c : Char) : Prop :=
  isspace (ord c) = false ∧ isalpha (ord c) = false ∧ isdigit (ord c) = false ∧
  ord c ≠ 35 ∧ ord c ≠ 59 ∧ ord c ≠ 40

/-- The number of tokens other than end of input that can still be read is at most
`remaining`: the unconsumed characters, plus one when the current token is not the end of
input. -/
def remaining (s : PState) : Nat := pending s.lex + (if s.CurTok = TOK_EOF then 0 else 1)

/-- The tokens at which a parse procedure calls `getNextToken`: numbers, identifiers, `(`,
`)`, `,` and the binary operators of the table. (`ParseDefinition` and `ParseExtern`
also consume the token they are entered with, which the driver guarantees to be `def`
resp. `extern`.) -/
def Consumable (t : Int) : Prop :=
  t = TOK_NUMBER ∨ t = TOK_IDENT ∨ t = TOK_LP ∨ t = TOK_RP ∨ t = 44 ∨
  (isascii t = true ∧ 0 < BinopPrecedence t)

/-- State `s1` is reached from state `s` by calls of `getNextToken`, each at a consumable
current token, and by writing error messages. -/
inductive Consumed : PState → PState → Prop where
  | refl (s : PState) : Consumed s s
  | next {s s1 : PState} : Consumable s.CurTok → Consumed (getNextToken s) s1 → Consumed s s1
  | error {s s1 : PState} (msg : String) :
      Consumed { s with errs := s.errs ++ [msg] } s1 → Consumed s s1

/-- The state of an outcome is reached from `s` by consuming consumable tokens only. -/
def ResConsumed {α : Type} (s : PState) : Res α → Prop
  | .ok _ s1 => Consumed s s1
  | .null s1 => Consumed s s1
  | .oof => True

/-- The messages of an outcome: a node comes with no new message, a failure with exactly
one new message, written after those of the entry state `s`. -/
def ResErrs {α : Type} (s : PState) : Res α → Prop
  | .ok _ s1 => s1.errs = s.errs
  | .null s1 => ∃ msg : String, s1.errs = s.errs ++ [msg]
  | .oof => True

/-- A well-formed top-level construct starts at state `s`: the parse procedure that the
driver dispatches on the current token (`ParseDefinition` at `def`, `ParseExtern` at
`extern`, `ParseTopLevelExpr` otherwise) returns, with some fuel, the node `node` and
leaves state `s1`. -/
def ParsesAs (s : PState) (node : TopNode) (s1 : PState) : Prop :=
  (s.CurTok = TOK_DEF ∧ ∃ (n : Nat) (f : FunctionAST),
    ParseDefinition n s = .ok f s1 ∧ node = .function f) ∨
  (s.CurTok = TOK_EXTERN ∧ ∃ (n : Nat) (p : PrototypeAST),
    ParseExtern n s = .ok p s1 ∧ node = .prototype p) ∨
  (s.CurTok ≠ TOK_DEF ∧ s.CurTok ≠ TOK_EXTERN ∧ ∃ (n : Nat) (f : FunctionAST),
    ParseTopLevelExpr n s = .ok f s1 ∧ node = .function f)

/-- From state `s` on the input is a list of well-formed top-level constructs with the
nodes `ns`, each followed by `;`, and then ends. -/
inductive Constructs : PState → List TopNode → Prop where
  | eof {s : PState} : s.CurTok = TOK_EOF → Constructs s []
  | cons {s s1 : PState} {node : TopNode} {ns : List TopNode} :
      ParsesAs s node s1 → s1.CurTok = 59 → Constructs (getNextToken s1) ns →
      Constructs s (node :: ns)

/-- The first `j` tokens from state `p` on are tokens that parse procedures consume, the
first one possibly being the keyword `def` or `extern` that `ParseDefinition` resp.
`ParseExtern` consumes on entry. -/
def Passed (p : PState) (j : Nat) : Prop :=
  ∀ i, i < j → Consumable (getNextToken^[i] p).CurTok ∨
    (i = 0 ∧ (p.CurTok = TOK_DEF ∨ p.CurTok = TOK_EXTERN))

/-- The state in which a parse procedure returned, if it did. -/
def Res.state {α : Type} : Res α → Option PState
  | .ok _ s => some s
  | .null s => some s
  | .oof => none

/-- One iteration of the driver loop takes `d` to `d2`: it passes `j ≥ 1` tokens (and may
write messages); either nothing is handed over and all tokens passed but the last are
tokens that parse procedures consume (the last one is skipped by the separator case or by
the recovery), or one node is handed over and all tokens passed are such tokens. -/
def IterStep (d d2 : DState) : Prop :=
  ∃ (j : Nat) (e : List String), 1 ≤ j ∧
    d2.p = { getNextToken^[j] d.p with errs := d.p.errs ++ e } ∧
    ((d2.handed = d.handed ∧ Passed d.p (j - 1)) ∨
     (∃ node : TopNode, d2.handed = d.handed ++ [node] ∧ Passed d.p j))

/-- The current token as the parser reads it: a numeric literal with `NumVal`, an
identifier with `IdentifierStr`, or any other token by its code `CurTok`. -/
inductive Tok where
  | number (Val : Double)
  | ident (Name : List Char)
  | code (c : Int)
  deriving DecidableEq, Repr

/-- The token that is current in a parser state. -/
def curTok (s : PState) : Tok :=
  if s.CurTok = TOK_NUMBER then .number s.lex.NumVal
  else if s.CurTok = TOK_IDENT then .ident s.lex.IdentifierStr
  else .code s.CurTok

/-- The current token followed by the next `n - 1` tokens that `getNextToken` delivers. -/
def tokens : Nat → PState → List Tok
  | 0, _ => []
  | n + 1, s => curTok s :: tokens n (getNextToken s)

/-- An entry of the in-order traversal of an expression tree: an operand (a node that is
not a `BinaryExprAST`) or the operator of a `BinaryExprAST`. -/
inductive Item where
  | leaf (e : ExprAST)
  | op (c : Char)

/-- In-order (left, operator, right) traversal of the `BinaryExprAST` nodes of a tree. -/
def inorder : ExprAST → List Item
  | .Binary op l r => inorder l ++ [.op op] ++ inorder r
  | e => [.leaf e]

/-- The operator of the root when the root is a `BinaryExprAST`. -/
def rootOp : ExprAST → Option Char
  | .Binary op _ _ => some op
  | _ => none

/-- The precedence of an operator character in the table `BinopPrecedence`. -/
def opPrec (c : Char) : Int := BinopPrecedence (ord c)

mutual

/-- Every `BinaryExprAST` node of the tree has a right child whose root operator, if any,
binds strictly tighter and a left child whose root operator, if any, binds at least as
tightly. -/
def PrecShape : ExprAST → Prop
  | .Number _ => True
  | .Variable _ => True
  | .Binary op l r =>
    (∀ c, rootOp r = some c → opPrec op < opPrec c) ∧
    (∀ c, rootOp l = some c → opPrec op ≤ opPrec c) ∧ PrecShape l ∧ PrecShape r
  | .Call _ args => PrecShapeList args

/-- The same for every tree of a list. -/
def PrecShapeList : List ExprAST → Prop
  | [] => True
  | a :: as => PrecShape a ∧ PrecShapeList as

end

/-- The character is a binary operator of the table. -/
def IsBinop (c : Char) : Prop := isascii (ord c) = true ∧ 0 < opPrec c

/-- The token sequence `op1 n1 ... opk nk` (operator characters and numeric literals) read
from state `s` on, followed by a token that is not a binary operator. -/
def OpNumSeq : PState → List (Char × Double) → Prop
  | s, [] => GetTokPrecedence s = -1
  | s, (op, v) :: rest =>
    s.CurTok = ord op ∧ (getNextToken s).CurTok = TOK_NUMBER ∧
    (getNextToken s).lex.NumVal = v ∧ OpNumSeq (getNextToken (getNextToken s)) rest

/-- From state `s`, `ParseExpression` returns the tree `t` and leaves state `s1`. -/
def Yields (s : PState) (t : ExprAST) (s1 : PState) : Prop :=
  ∃ fuel, ParseExpression fuel s = .ok t s1

/-- From state `s` on the tokens are a non-empty list of argument expressions separated by
`,` and closed by `)`: the expressions parse to the trees `ts`, and `s1` is the state in
which the closing `)` is the current token. -/
def ArgsAt : PState → List ExprAST → PState → Prop
  | _, [], _ => False
  | s, [t], s1 => Yields s t s1 ∧ s1.CurTok = TOK_RP
  | s, t :: t2 :: ts, s1 =>
    ∃ s0, Yields s t s0 ∧ s0.CurTok = 44 ∧ ArgsAt (getNextToken s0) (t2 :: ts) s1

/-- The tokens `f ( p1 ... pn` followed by the token `c`. -/
def protoToks (f : List Char) (ps : List (List Char)) (c : Tok) : List Tok :=
  .ident f :: .code TOK_LP :: ps.map .ident ++ [c]

/-- The tokens of `op1 n1 ... opk nk`. -/
def opNumToks (rest : List (Char × Double)) : List Tok :=
  rest.flatMap fun p => [.code (ord p.1), .number p.2]

/-- The in-order traversal entries of `op1 n1 ... opk nk`. -/
def opNumItems (rest : List (Char × Double)) : List Item :=
  rest.flatMap fun p => [.op p.1, .leaf (.Number p.2)]

end Toy

end Kaleidoscope

namespace Kaleidoscope

/-! ## Facts about the tokenizer loops -/

theorem skipSpace_length (last : Int) (inp : List Char) :
    (skipSpace last inp).2.length ≤ inp.length := by
  induction inp generalizing last with
  | nil => simp only [skipSpace]; split <;> simp
  | cons c cs ih =>
    simp only [skipSpace]; split
    · exact Nat.le_succ_of_le (ih _)
    · simp

theorem commentLoop_length (inp : List Char) (h : (commentLoop inp).1 ≠ EOF) :
    (commentLoop inp).2.length < inp.length := by
  induction inp with
  | nil => simp [commentLoop] at h
  | cons c cs ih =>
    simp only [commentLoop] at h ⊢
    split
    · rename_i hc
      rw [if_pos hc] at h
      exact Nat.lt_succ_of_lt (ih h)
    · simp

namespace Toy

theorem gettokFuel_rec (n : Nat) (s : LexState) (h : recurses s) :
    gettokFuel (n + 1) s = gettokFuel n (afterComment s) := by
  obtain ⟨h1, h2, h3, h4⟩ := h
  rw [gettokFuel]
  simp only [h1, h2, if_false, Bool.false_eq_true, afterComment]
  simp only [if_pos h3]
  rw [if_pos ⟨h3, h4⟩]

theorem gettokFuel_norec (n : Nat) (s : LexState) (h : ¬ recurses s) :
    gettokFuel (n + 1) s = gettokFuel 1 s := by
  rw [gettokFuel, gettokFuel]
  dsimp only
  by_cases h1 : isalpha (skipSpace s.LastChar s.input).1 = true
  · rw [if_pos h1, if_pos h1]
  · rw [if_neg h1, if_neg h1]
    by_cases h2 : isdigit (skipSpace s.LastChar s.input).1 = true
    · rw [if_pos h2, if_pos h2]
    · rw [if_neg h2, if_neg h2]
      by_cases h3 : (skipSpace s.LastChar s.input).1 = 35
      · have h4 : ¬ ((skipSpace s.LastChar s.input).1 = 35 ∧
            (commentLoop (skipSpace s.LastChar s.input).2).1 ≠ EOF) := by
          intro h4
          exact h ⟨by simpa using h1, by simpa using h2, h3, h4.2⟩
        simp only [if_pos h3]
        rw [if_neg h4, if_neg h4]
      · have h4 : ¬ ((skipSpace s.LastChar s.input).1 = 35 ∧
            (skipSpace s.LastChar s.input).1 ≠ EOF) := fun h4 => h3 h4.1
        simp only [if_neg h3]
        rw [if_neg h4, if_neg h4]

theorem afterComment_length (s : LexState) (h : recurses s) :
    (afterComment s).input.length < s.input.length := by
  have h1 := commentLoop_length _ h.2.2.2
  have h2 := skipSpace_length s.LastChar s.input
  simp only [afterComment]
  omega

theorem gettokFuel_one_isSome (s : LexState) (h : ¬ recurses s) :
    ∃ r, gettokFuel 1 s = some r := by
  rw [gettokFuel]
  dsimp only
  by_cases h1 : isalpha (skipSpace s.LastChar s.input).1 = true
  · rw [if_pos h1]
    split
    · exact ⟨_, rfl⟩
    · split <;> exact ⟨_, rfl⟩
  · rw [if_neg h1]
    by_cases h2 : isdigit (skipSpace s.LastChar s.input).1 = true
    · rw [if_pos h2]
      exact ⟨_, rfl⟩
    · rw [if_neg h2]
      by_cases h3 : (skipSpace s.LastChar s.input).1 = 35
      · have h4 : ¬ ((skipSpace s.LastChar s.input).1 = 35 ∧
            (commentLoop (skipSpace s.LastChar s.input).2).1 ≠ EOF) := by
          intro h4
          exact h ⟨by simpa using h1, by simpa using h2, h3, h4.2⟩
        simp only [if_pos h3]
        rw [if_neg h4]
        split <;> exact ⟨_, rfl⟩
      · have h4 : ¬ ((skipSpace s.LastChar s.input).1 = 35 ∧
            (skipSpace s.LastChar s.input).1 ≠ EOF) := fun h4 => h3 h4.1
        simp only [if_neg h3]
        rw [if_neg h4]
        split <;> exact ⟨_, rfl⟩

theorem gettokFuel_succ (n : Nat) (s : LexState) (r : Int × LexState)
    (h : gettokFuel n s = some r) : gettokFuel (n + 1) s = some r := by
  induction n generalizing s with
  | zero => simp [gettokFuel] at h
  | succ n ih =>
    by_cases hr : recurses s
    · rw [gettokFuel_rec _ _ hr] at h ⊢
      exact ih _ h
    · rw [gettokFuel_norec _ _ hr] at h ⊢
      exact h

theorem gettokFuel_mono {n m : Nat} (hnm : n ≤ m) (s : LexState) (r : Int × LexState)
    (h : gettokFuel n s = some r) : gettokFuel m s = some r := by
  induction hnm with
  | refl => exact h
  | step _ ih => exact gettokFuel_succ _ _ _ ih

theorem gettokFuel_isSome_aux (k : Nat) :
    ∀ s : LexState, s.input.length ≤ k → ∃ r, gettokFuel (k + 1) s = some r := by
  induction k with
  | zero =>
    intro s hs
    by_cases hr : recurses s
    · have := afterComment_length s hr
      omega
    · exact gettokFuel_one_isSome s hr
  | succ k ih =>
    intro s hs
    by_cases hr : recurses s
    · rw [gettokFuel_rec _ _ hr]
      have := afterComment_length s hr
      exact ih _ (by omega)
    · rw [gettokFuel_norec _ _ hr]
      exact gettokFuel_one_isSome s hr

/-- The fuel given by `gettok` is never used up. -/
theorem gettokFuel_isSome (s : LexState) : ∃ r, gettokFuel (s.input.length + 1) s = some r :=
  gettokFuel_isSome_aux _ s (Nat.le_refl _)

/-- Any amount of fuel that yields a result yields the result of `gettok`. -/
theorem gettok_eq_of_fuel {n : Nat} {s : LexState} {r : Int × LexState}
    (h : gettokFuel n s = some r) : gettok s = r := by
  obtain ⟨r', hr'⟩ := gettokFuel_isSome s
  have h1 := gettokFuel_mono (Nat.le_max_left n (s.input.length + 1)) s r h
  have h2 := gettokFuel_mono (Nat.le_max_right n (s.input.length + 1)) s r' hr'
  rw [h1] at h2
  cases h2
  simp [gettok, hr']

/-- After a comment that does not end the input, `gettok` returns what the
recursive call returns. -/
theorem gettok_rec (s : LexState) (h : recurses s) : gettok s = gettok (afterComment s) := by
  obtain ⟨r, hr⟩ := gettokFuel_isSome (afterComment s)
  rw [gettok_eq_of_fuel hr]
  apply gettok_eq_of_fuel (n := (afterComment s).input.length + 1 + 1)
  rw [gettokFuel_rec _ _ h]
  exact hr

/-- Without a recursive call, `gettok` is one pass through its body. -/
theorem gettok_norec (s : LexState) (h : ¬ recurses s) :
    gettokFuel 1 s = some (gettok s) := by
  obtain ⟨r, hr⟩ := gettokFuel_one_isSome s h
  rw [hr, gettok_eq_of_fuel hr]

end Toy

/-! ## More fuel never changes a result -/

namespace Toy

theorem parse_succ (n : Nat) :
    (∀ s, ParsePrimary n s ≠ .oof → ParsePrimary (n + 1) s = ParsePrimary n s) ∧
    (∀ s, ParseParenExpr n s ≠ .oof → ParseParenExpr (n + 1) s = ParseParenExpr n s) ∧
    (∀ Args s, ParseArgs n Args s ≠ .oof → ParseArgs (n + 1) Args s = ParseArgs n Args s) ∧
    (∀ s, ParseIdentExpr n s ≠ .oof → ParseIdentExpr (n + 1) s = ParseIdentExpr n s) ∧
    (∀ P L s, ParseBinOpRHS n P L s ≠ .oof →
      ParseBinOpRHS (n + 1) P L s = ParseBinOpRHS n P L s) ∧
    (∀ s, ParseExpression n s ≠ .oof → ParseExpression (n + 1) s = ParseExpression n s) := by
  induction n with
  | zero =>
    refine ⟨?_, ?_, ?_, ?_, ?_, ?_⟩
    · intro s h; exact absurd (by rw [ParsePrimary]) h
    · intro s h; exact absurd (by rw [ParseParenExpr]) h
    · intro A s h; exact absurd (by rw [ParseArgs]) h
    · intro s h; exact absurd (by rw [ParseIdentExpr]) h
    · intro P L s h; exact absurd (by rw [ParseBinOpRHS]) h
    · intro s h; exact absurd (by rw [ParseExpression]) h
  | succ n ih =>
    obtain ⟨ihP, ihPar, ihA, ihI, ihB, ihE⟩ := ih
    refine ⟨?_, ?_, ?_, ?_, ?_, ?_⟩
    · intro s h
      rw [ParsePrimary.eq_2 _ (n + 1), ParsePrimary.eq_2 _ n]
      rw [ParsePrimary.eq_2 _ n] at h
      by_cases h1 : s.CurTok = TOK_IDENT
      · simp only [if_pos h1] at h ⊢; exact ihI s h
      · simp only [if_neg h1] at h ⊢
        by_cases h2 : s.CurTok = TOK_NUMBER
        · simp only [if_pos h2]
        · simp only [if_neg h2] at h ⊢
          by_cases h3 : s.CurTok = TOK_LP
          · simp only [if_pos h3] at h ⊢; exact ihPar s h
          · simp only [if_neg h3]
    · intro s h
      rw [ParseParenExpr.eq_2 _ (n + 1), ParseParenExpr.eq_2 _ n]
      rw [ParseParenExpr.eq_2 _ n] at h
      have hE : ParseExpression n (getNextToken s) ≠ .oof := by
        intro hE; rw [hE] at h; exact h rfl
      rw [ihE _ hE]
    · intro A s h
      rw [ParseArgs.eq_2 _ _ (n + 1), ParseArgs.eq_2 _ _ n]
      rw [ParseArgs.eq_2 _ _ n] at h
      have hE : ParseExpression n s ≠ .oof := by
        intro hE; rw [hE] at h; exact h rfl
      rw [ihE _ hE]
      cases hr : ParseExpression n s with
      | oof => exact absurd hr hE
      | null s1 => rfl
      | ok Arg s1 =>
        rw [hr] at h
        dsimp only at h ⊢
        by_cases h1 : s1.CurTok = TOK_RP
        · simp only [if_pos h1]
        · simp only [if_neg h1] at h ⊢
          by_cases h2 : s1.CurTok ≠ 44
          · simp only [if_pos h2]
          · simp only [if_neg h2] at h ⊢
            exact ihA _ _ h
    · intro s h
      rw [ParseIdentExpr.eq_2 _ (n + 1), ParseIdentExpr.eq_2 _ n]
      rw [ParseIdentExpr.eq_2 _ n] at h
      dsimp only at h ⊢
      by_cases h1 : (getNextToken s).CurTok ≠ TOK_LP
      · simp only [if_pos h1]
      · simp only [if_neg h1] at h ⊢
        by_cases h2 : (getNextToken (getNextToken s)).CurTok ≠ TOK_RP
        · simp only [if_pos h2] at h ⊢
          have hA : ParseArgs n [] (getNextToken (getNextToken s)) ≠ .oof := by
            intro hA; rw [hA] at h; exact h rfl
          rw [ihA _ _ hA]
        · simp only [if_neg h2]
    · intro P L s h
      rw [ParseBinOpRHS.eq_2 _ _ _ (n + 1), ParseBinOpRHS.eq_2 _ _ _ n]
      rw [ParseBinOpRHS.eq_2 _ _ _ n] at h
      dsimp only at h ⊢
      by_cases h1 : GetTokPrecedence s < P
      · simp only [if_pos h1]
      · simp only [if_neg h1] at h ⊢
        have hP : ParsePrimary n (getNextToken s) ≠ .oof := by
          intro hP; rw [hP] at h; exact h rfl
        rw [ihP _ hP]
        cases hr : ParsePrimary n (getNextToken s) with
        | oof => exact absurd hr hP
        | null s1 => rfl
        | ok RHS s1 =>
          rw [hr] at h
          dsimp only at h ⊢
          by_cases h2 : GetTokPrecedence s < GetTokPrecedence s1
          · simp only [if_pos h2] at h ⊢
            have hB : ParseBinOpRHS n (GetTokPrecedence s + 1) RHS s1 ≠ .oof := by
              intro hB; rw [hB] at h; exact h rfl
            rw [ihB _ _ _ hB]
            cases hr2 : ParseBinOpRHS n (GetTokPrecedence s + 1) RHS s1 with
            | oof => exact absurd hr2 hB
            | null s2 => rfl
            | ok RHS2 s2 =>
              rw [hr2] at h
              exact ihB _ _ _ h
          · simp only [if_neg h2] at h ⊢
            exact ihB _ _ _ h
    · intro s h
      rw [ParseExpression.eq_2 _ (n + 1), ParseExpression.eq_2 _ n]
      rw [ParseExpression.eq_2 _ n] at h
      have hP : ParsePrimary n s ≠ .oof := by
        intro hP; rw [hP] at h; exact h rfl
      rw [ihP _ hP]
      cases hr : ParsePrimary n s with
      | oof => exact absurd hr hP
      | null s1 => rfl
      | ok LHS s1 =>
        rw [hr] at h
        exact ihB _ _ _ h

end Toy

/-! ## Precedence climbing on a sequence of operators and numeric literals -/

namespace Toy

theorem toChar_ord (c : Char) : toChar (ord c) = c := by
  simp [toChar, ord]

theorem GetTokPrecedence_of_binop {s : PState} {c : Char} (h : s.CurTok = ord c)
    (hb : IsBinop c) : GetTokPrecedence s = opPrec c := by
  obtain ⟨h1, h2⟩ := hb
  simp only [GetTokPrecedence, h, h1, opPrec] at *
  simp [not_le.mpr h2]

theorem ParsePrimary_number (n : Nat) (s : PState) (h : s.CurTok = TOK_NUMBER) :
    ParsePrimary (n + 1) s = .ok (.Number s.lex.NumVal) (getNextToken s) := by
  rw [ParsePrimary.eq_2]
  have h1 : s.CurTok ≠ TOK_IDENT := by rw [h]; decide
  rw [if_neg h1, if_pos h]
  rfl

theorem iterate_two_mul_succ (f : PState → PState) (a : Nat) (s : PState) :
    f^[2 * (a + 1)] s = f^[2 * a] (f (f s)) := by
  have : 2 * (a + 1) = 2 * a + 2 := by ring
  rw [this, Function.iterate_add_apply]
  rfl

theorem iterate_two_mul_add (f : PState → PState) (a b : Nat) (s : PState) :
    f^[2 * (a + b)] s = f^[2 * b] (f^[2 * a] s) := by
  have : 2 * (a + b) = 2 * b + 2 * a := by ring
  rw [this, Function.iterate_add_apply]

theorem opNumItems_cons (p : Char × Double) (r : List (Char × Double)) :
    opNumItems (p :: r) = .op p.1 :: .leaf (.Number p.2) :: opNumItems r := by
  simp [opNumItems]

theorem opNumItems_append (a b : List (Char × Double)) :
    opNumItems (a ++ b) = opNumItems a ++ opNumItems b := by
  simp [opNumItems]

theorem binop_seq_nil (s : PState) (P : Int) (LHS : ExprAST) (hP : 0 ≤ P)
    (h : GetTokPrecedence s = -1) (n : Nat) :
    ParseBinOpRHS (n + 1) P LHS s = .ok LHS s := by
  rw [ParseBinOpRHS.eq_2]
  have : GetTokPrecedence s < P := by rw [h]; omega
  rw [if_pos this]

/-- Precedence climbing over `op1 n1 ... opk nk`: `ParseBinOpRHS` consumes the longest
prefix up to the first operator that binds less tightly than `ParentPrec`. -/
theorem binop_seq (k : Nat) : ∀ (rest : List (Char × Double)), rest.length ≤ k →
    ∀ (s : PState) (P : Int) (LHS : ExprAST), 0 ≤ P →
    (∀ p ∈ rest, IsBinop p.1) → OpNumSeq s rest →
    ∃ r1 r2 t N, rest = r1 ++ r2 ∧
      (∀ fuel, N ≤ fuel →
        ParseBinOpRHS fuel P LHS s = .ok t (getNextToken^[2 * r1.length] s)) ∧
      OpNumSeq (getNextToken^[2 * r1.length] s) r2 ∧
      (∀ p, r2.head? = some p → opPrec p.1 < P) ∧
      inorder t = inorder LHS ++ opNumItems r1 ∧
      (∀ c, rootOp t = some c → (r1 = [] ∧ t = LHS) ∨ P ≤ opPrec c) ∧
      (PrecShape LHS →
        (∀ c, rootOp LHS = some c → ∀ p, rest.head? = some p → opPrec p.1 ≤ opPrec c) →
        PrecShape t) := by
  induction k with
  | zero =>
    intro rest hlen s P LHS hP _ hseq
    have hnil : rest = [] := List.length_eq_zero.mp (Nat.le_zero.mp hlen)
    subst hnil
    refine ⟨[], [], LHS, 1, rfl, ?_, hseq, ?_, by simp [opNumItems], ?_, fun h _ => h⟩
    · intro fuel hf
      obtain ⟨m, rfl⟩ := Nat.exists_eq_add_of_le hf
      rw [Nat.add_comm]
      exact binop_seq_nil s P LHS hP hseq m
    · intro p hp; simp at hp
    · intro c _; exact Or.inl ⟨rfl, rfl⟩
  | succ k ih =>
    intro rest hlen s P LHS hP hops hseq
    cases rest with
    | nil =>
      refine ⟨[], [], LHS, 1, rfl, ?_, hseq, ?_, by simp [opNumItems], ?_, fun h _ => h⟩
      · intro fuel hf
        obtain ⟨m, rfl⟩ := Nat.exists_eq_add_of_le hf
        rw [Nat.add_comm]
        exact binop_seq_nil s P LHS hP hseq m
      · intro p hp; simp at hp
      · intro c _; exact Or.inl ⟨rfl, rfl⟩
    | cons p rest' =>
      obtain ⟨op, v⟩ := p
      obtain ⟨hop, hnum, hval, hrest⟩ := hseq
      have hb : IsBinop op := hops (op, v) (List.mem_cons_self _ _)
      have hops' : ∀ p ∈ rest', IsBinop p.1 := fun p hp => hops p (List.mem_cons_of_mem _ hp)
      have hprec : GetTokPrecedence s = opPrec op := GetTokPrecedence_of_binop hop hb
      have hlen' : rest'.length ≤ k := by simpa using hlen
      by_cases hlt : opPrec op < P
      · refine ⟨[], (op, v) :: rest', LHS, 1, rfl, ?_, ⟨hop, hnum, hval, hrest⟩, ?_,
          by simp [opNumItems], ?_, fun h _ => h⟩
        · intro fuel hf
          obtain ⟨m, rfl⟩ := Nat.exists_eq_add_of_le hf
          rw [Nat.add_comm, ParseBinOpRHS.eq_2, hprec, if_pos hlt]
          rfl
        · intro p hp
          simp only [List.head?_cons, Option.some.injEq] at hp
          subst hp; exact hlt
        · intro c _; exact Or.inl ⟨rfl, rfl⟩
      · have hPle : P ≤ opPrec op := not_lt.mp hlt
        by_cases hnext : opPrec op < GetTokPrecedence (getNextToken (getNextToken s))
        · -- the right operand absorbs the tighter operators first
          obtain ⟨r1a, r2a, ta, Na, hsplit, hrun, hseqa, hstop, hin, hroot, hshape⟩ :=
            ih rest' hlen' (getNextToken (getNextToken s)) (opPrec op + 1) (.Number v)
              (by have := hb.2; omega) hops' hrest
          have hlen2 : r2a.length ≤ k := by
            have : rest'.length = r1a.length + r2a.length := by rw [hsplit]; simp
            omega
          have hops2 : ∀ p ∈ r2a, IsBinop p.1 := fun p hp =>
            hops' p (by rw [hsplit]; exact List.mem_append_right _ hp)
          obtain ⟨r1b, r2b, tb, Nb, hsplitb, hrunb, hseqb, hstopb, hinb, hrootb, hshapeb⟩ :=
            ih r2a hlen2 (getNextToken^[2 * r1a.length] (getNextToken (getNextToken s))) P
              (.Binary op LHS ta) hP hops2 hseqa
          refine ⟨(op, v) :: r1a ++ r1b, r2b, tb, max Na Nb + 2, ?_, ?_, ?_, hstopb, ?_, ?_, ?_⟩
          · rw [hsplit, hsplitb]; simp
          · intro fuel hf
            obtain ⟨m, rfl⟩ : ∃ m, fuel = m + 2 := ⟨fuel - 2, by omega⟩
            have hm1 : Na ≤ m + 1 := by have := Nat.le_max_left Na Nb; omega
            have hm2 : Nb ≤ m + 1 := by have := Nat.le_max_right Na Nb; omega
            rw [ParseBinOpRHS.eq_2, hprec, if_neg hlt]
            dsimp only
            rw [ParsePrimary_number m _ hnum]
            dsimp only
            rw [if_pos hnext, hval, hrun (m + 1) hm1]
            dsimp only
            rw [hop, toChar_ord, hrunb (m + 1) hm2]
            congr 1
            have : ((op, v) :: r1a ++ r1b).length = (r1a.length + r1b.length) + 1 := by
              simp
            rw [this, iterate_two_mul_succ, iterate_two_mul_add]
          · have : ((op, v) :: r1a ++ r1b).length = (r1a.length + r1b.length) + 1 := by
              simp
            rw [this, iterate_two_mul_succ, iterate_two_mul_add]
            exact hseqb
          · rw [hinb]
            simp only [inorder, hin, List.cons_append, opNumItems_cons, opNumItems_append,
              List.append_assoc, List.singleton_append, List.nil_append]
          · intro c hc
            rcases hrootb c hc with ⟨_, htb⟩ | h
            · right
              rw [htb] at hc
              simp only [rootOp, Option.some.injEq] at hc
              subst hc; exact hPle
            · exact Or.inr h
          · intro hL hLroot
            apply hshapeb
            · refine ⟨?_, ?_, hL, hshape trivial (by intro c hc; simp [rootOp] at hc)⟩
              · intro c hc
                rcases hroot c hc with ⟨_, hta⟩ | h
                · rw [hta] at hc; simp [rootOp] at hc
                · omega
              · intro c hc
                exact hLroot c hc (op, v) rfl
            · intro c hc p hp
              simp only [rootOp, Option.some.injEq] at hc
              subst hc
              have := hstop p hp
              omega
        · -- the next operator does not bind tighter: fold to the left
          obtain ⟨r1b, r2b, tb, Nb, hsplitb, hrunb, hseqb, hstopb, hinb, hrootb, hshapeb⟩ :=
            ih rest' hlen' (getNextToken (getNextToken s)) P
              (.Binary op LHS (.Number v)) hP hops' hrest
          refine ⟨(op, v) :: r1b, r2b, tb, Nb + 2, ?_, ?_, ?_, hstopb, ?_, ?_, ?_⟩
          · rw [hsplitb]; simp
          · intro fuel hf
            obtain ⟨m, rfl⟩ : ∃ m, fuel = m + 2 := ⟨fuel - 2, by omega⟩
            rw [ParseBinOpRHS.eq_2, hprec, if_neg hlt]
            dsimp only
            rw [ParsePrimary_number m _ hnum]
            dsimp only
            rw [if_neg hnext, hval, hop, toChar_ord, hrunb (m + 1) (by omega)]
            rw [List.length_cons, iterate_two_mul_succ]
          · rw [List.length_cons, iterate_two_mul_succ]
            exact hseqb
          · rw [hinb]
            simp only [inorder, List.cons_append, opNumItems_cons,
              List.append_assoc, List.singleton_append, List.nil_append]
          · intro c hc
            rcases hrootb c hc with ⟨_, htb⟩ | h
            · right
              rw [htb] at hc
              simp only [rootOp, Option.some.injEq] at hc
              subst hc; exact hPle
            · exact Or.inr h
          · intro hL hLroot
            apply hshapeb
            · refine ⟨?_, ?_, hL, trivial⟩
              · intro c hc; simp [rootOp] at hc
              · intro c hc
                exact hLroot c hc (op, v) rfl
            · intro c hc p hp
              simp only [rootOp, Option.some.injEq] at hc
              subst hc
              cases rest' with
              | nil => simp at hp
              | cons q rest'' =>
                simp only [List.head?_cons, Option.some.injEq] at hp
                subst hp
                obtain ⟨hq, _⟩ := hrest
                have := GetTokPrecedence_of_binop hq (hops' _ (List.mem_cons_self _ _))
                rw [this] at hnext
                exact not_lt.mp hnext

theorem ParseExpression_mono {n m : Nat} (h : n ≤ m) (s : PState)
    (hne : ParseExpression n s ≠ .oof) : ParseExpression m s = ParseExpression n s := by
  induction h with
  | refl => rfl
  | step _ ih => rw [(parse_succ _).2.2.2.2.2 s (by rw [ih]; exact hne), ih]

theorem ParsePrimary_mono {n m : Nat} (h : n ≤ m) (s : PState)
    (hne : ParsePrimary n s ≠ .oof) : ParsePrimary m s = ParsePrimary n s := by
  induction h with
  | refl => rfl
  | step _ ih => rw [(parse_succ _).1 s (by rw [ih]; exact hne), ih]

theorem ParseArgs_mono {n m : Nat} (h : n ≤ m) (A : List ExprAST) (s : PState)
    (hne : ParseArgs n A s ≠ .oof) : ParseArgs m A s = ParseArgs n A s := by
  induction h with
  | refl => rfl
  | step _ ih => rw [(parse_succ _).2.2.1 A s (by rw [ih]; exact hne), ih]

theorem curTok_code {s : PState} {c : Int} (h : curTok s = .code c) : s.CurTok = c := by
  unfold curTok at h
  split at h
  · cases h
  · split at h
    · cases h
    · cases h; rfl

theorem curTok_number {s : PState} {v : Double} (h : curTok s = .number v) :
    s.CurTok = TOK_NUMBER ∧ s.lex.NumVal = v := by
  unfold curTok at h
  split at h
  · rename_i h1; cases h; exact ⟨h1, rfl⟩
  · split at h <;> cases h

theorem curTok_ident {s : PState} {x : List Char} (h : curTok s = .ident x) :
    s.CurTok = TOK_IDENT ∧ s.lex.IdentifierStr = x := by
  unfold curTok at h
  split at h
  · cases h
  · split at h
    · rename_i h1; cases h; exact ⟨h1, rfl⟩
    · cases h

theorem GetTokPrecedence_of_not_ascii {s : PState} (h : isascii s.CurTok = false) :
    GetTokPrecedence s = -1 := by
  simp [GetTokPrecedence, h]

theorem opNumToks_cons (p : Char × Double) (r : List (Char × Double)) :
    opNumToks (p :: r) = .code (ord p.1) :: .number p.2 :: opNumToks r := by
  simp [opNumToks]

theorem opNumToks_length (r : List (Char × Double)) :
    (opNumToks r).length = 2 * r.length := by
  induction r with
  | nil => rfl
  | cons p r ih => rw [opNumToks_cons]; simp only [List.length_cons, ih]; omega

theorem tokens_length (n : Nat) : ∀ u : PState, (tokens n u).length = n := by
  induction n with
  | zero => intro u; rfl
  | succ n ih => intro u; simp [tokens, ih]

theorem tokens_succ_last (n : Nat) : ∀ u : PState,
    tokens (n + 1) u = tokens n u ++ [curTok (getNextToken^[n] u)] := by
  induction n with
  | zero => intro u; rfl
  | succ n ih => intro u; rw [tokens, ih, tokens]; rfl

theorem OpNumSeq_of_tokens (term : PState → Prop)
    (hterm : ∀ s, term s → GetTokPrecedence s = -1) :
    ∀ (rest : List (Char × Double)) (s : PState),
      tokens (2 * rest.length) s = opNumToks rest → term (getNextToken^[2 * rest.length] s) →
      OpNumSeq s rest := by
  intro rest
  induction rest with
  | nil => intro s _ ht; exact hterm _ ht
  | cons p rest ih =>
    intro s h ht
    obtain ⟨op, v⟩ := p
    rw [List.length_cons, iterate_two_mul_succ] at ht
    have h2 : 2 * (rest.length + 1) = 2 * rest.length + 1 + 1 := by ring
    rw [List.length_cons, h2] at h
    rw [opNumToks_cons] at h
    simp only [tokens, List.cons.injEq] at h
    obtain ⟨h1, h2, h3⟩ := h
    obtain ⟨h2a, h2b⟩ := curTok_number h2
    exact ⟨curTok_code h1, h2a, h2b, ih _ h3 ht⟩

theorem isBinop_of_plus_minus_times {c : Char} (h : c = '+' ∨ c = '-' ∨ c = '*') :
    IsBinop c := by
  rcases h with h | h | h <;> subst h <;> exact ⟨by decide, by decide⟩

/-- The parse of `n0 op1 n1 ... opk nk` followed by a token that is not a binary operator:
all tokens are consumed, the traversal is the input and the shape follows precedence. -/
theorem expression_seq (s : PState) (rest : List (Char × Double))
    (hops : ∀ p ∈ rest, IsBinop p.1) (hnum : s.CurTok = TOK_NUMBER)
    (hseq : OpNumSeq (getNextToken s) rest) :
    ∃ t N, (∀ fuel, N ≤ fuel →
        ParseExpression fuel s = .ok t (getNextToken^[2 * rest.length + 1] s)) ∧
      inorder t = .leaf (.Number s.lex.NumVal) :: opNumItems rest ∧ PrecShape t := by
  obtain ⟨r1, r2, t, N, hsplit, hrun, _, hstop, hin, _, hshape⟩ :=
    binop_seq rest.length rest (Nat.le_refl _) (getNextToken s) 0 (.Number s.lex.NumVal)
      (Int.le_refl 0) hops hseq
  have hr2 : r2 = [] := by
    cases r2 with
    | nil => rfl
    | cons q r2 =>
      have h1 := hstop q rfl
      have h2 := (hops q (by rw [hsplit]; simp)).2
      omega
  subst hr2
  rw [List.append_nil] at hsplit
  subst hsplit
  refine ⟨t, N + 2, ?_, ?_, hshape trivial (by intro c hc; simp [rootOp] at hc)⟩
  · intro fuel hf
    obtain ⟨m, rfl⟩ : ∃ m, fuel = m + 2 := ⟨fuel - 2, by omega⟩
    rw [ParseExpression.eq_2, ParsePrimary_number m s hnum]
    dsimp only
    rw [hrun (m + 1) (by omega), Function.iterate_succ_apply]
  · rw [hin]; rfl

/-- C1: for every token sequence `n0 op1 n1 ... opk nk` of numeric literals separated by
operators among `+`, `-`, `*` and followed by end of input, `ParseExpression` succeeds (with
any sufficient fuel), consumes exactly the `2k+1` tokens, and the in-order traversal of the
tree is the input sequence. -/
theorem C1_inorder_is_input (s : PState) (n0 : Double) (rest : List (Char × Double))
    (hops : ∀ p ∈ rest, p.1 = '+' ∨ p.1 = '-' ∨ p.1 = '*')
    (htoks : tokens (2 * rest.length + 2) s
      = .number n0 :: opNumToks rest ++ [.code TOK_EOF]) :
    ∃ t N, (∀ fuel, N ≤ fuel →
        ParseExpression fuel s = .ok t (getNextToken^[2 * rest.length + 1] s)) ∧
      inorder t = .leaf (.Number n0) :: opNumItems rest ∧
      (getNextToken^[2 * rest.length + 1] s).CurTok = TOK_EOF := by
  have h1 : tokens (2 * rest.length + 2) s
      = curTok s :: tokens (2 * rest.length + 1) (getNextToken s) := rfl
  rw [h1] at htoks
  simp only [List.cons_append, List.cons.injEq] at htoks
  obtain ⟨hcur, hrest⟩ := htoks
  obtain ⟨hnum, hval⟩ := curTok_number hcur
  rw [tokens_succ_last] at hrest
  have hlen : (tokens (2 * rest.length) (getNextToken s)).length = (opNumToks rest).length := by
    rw [tokens_length, opNumToks_length]
  obtain ⟨ht1, ht2⟩ := List.append_inj hrest hlen
  have hend : (getNextToken^[2 * rest.length] (getNextToken s)).CurTok = TOK_EOF :=
    curTok_code (List.singleton_inj.mp ht2)
  have hseq : OpNumSeq (getNextToken s) rest :=
    OpNumSeq_of_tokens (fun u => u.CurTok = TOK_EOF)
      (fun u hu => GetTokPrecedence_of_not_ascii (by rw [hu]; decide)) rest _ ht1 hend
  obtain ⟨t, N, hrun, hin, _⟩ :=
    expression_seq s rest (fun p hp => isBinop_of_plus_minus_times (hops p hp)) hnum hseq
  refine ⟨t, N, hrun, by rw [hin, hval], ?_⟩
  rw [Function.iterate_succ_apply]
  exact hend

/-- C1, witness: on `3+4*5` the hypotheses hold, and the tree is
`BinaryOp('+', Number(3), BinaryOp('*', Number(4), Number(5)))`. -/
theorem C1_inorder_is_input_witness :
    (∃ t N, (∀ fuel, N ≤ fuel → ParseExpression fuel (start "3+4*5".toList)
        = .ok t (getNextToken^[2 * 2 + 1] (start "3+4*5".toList))) ∧
      inorder t = .leaf (.Number ⟨['3']⟩)
        :: opNumItems [('+', ⟨['4']⟩), ('*', ⟨['5']⟩)] ∧
      (getNextToken^[2 * 2 + 1] (start "3+4*5".toList)).CurTok = TOK_EOF) ∧
    ParseExpression 6 (start "3+4*5".toList)
      = .ok (.Binary '+' (.Number ⟨['3']⟩) (.Binary '*' (.Number ⟨['4']⟩) (.Number ⟨['5']⟩)))
          (getNextToken^[5] (start "3+4*5".toList)) :=
  ⟨C1_inorder_is_input (start "3+4*5".toList) ⟨['3']⟩ [('+', ⟨['4']⟩), ('*', ⟨['5']⟩)]
    (by simp) (by rfl), by rfl⟩

/-- C2: for every parenthesis-free, call-free expression `n0 op1 n1 ... opk nk` over
numeric literals and `+`, `-`, `*` (the token after it is not a binary operator) that
`ParseExpression` parses to a tree, every `BinaryExprAST` node of the tree has a right
child whose operator binds strictly tighter and a left child whose operator binds at
least as tightly. -/
theorem C2_precedence_shape (s : PState) (n0 : Double) (rest : List (Char × Double))
    (fuel : Nat) (t : ExprAST) (s' : PState)
    (hops : ∀ p ∈ rest, p.1 = '+' ∨ p.1 = '-' ∨ p.1 = '*')
    (htoks : tokens (2 * rest.length + 1) s = .number n0 :: opNumToks rest)
    (hend : GetTokPrecedence (getNextToken^[2 * rest.length + 1] s) = -1)
    (hparse : ParseExpression fuel s = .ok t s') : PrecShape t := by
  have h1 : tokens (2 * rest.length + 1) s
      = curTok s :: tokens (2 * rest.length) (getNextToken s) := rfl
  rw [h1] at htoks
  simp only [List.cons.injEq] at htoks
  obtain ⟨hcur, hrest⟩ := htoks
  obtain ⟨hnum, _⟩ := curTok_number hcur
  rw [Function.iterate_succ_apply] at hend
  have hseq : OpNumSeq (getNextToken s) rest :=
    OpNumSeq_of_tokens (fun u => GetTokPrecedence u = -1) (fun u hu => hu) rest _ hrest hend
  obtain ⟨t0, N, hrun, _, hshape⟩ :=
    expression_seq s rest (fun p hp => isBinop_of_plus_minus_times (hops p hp)) hnum hseq
  have h2 := hrun (max N fuel) (Nat.le_max_left _ _)
  have h3 := ParseExpression_mono (Nat.le_max_right N fuel) s (by rw [hparse]; simp)
  rw [h2, hparse] at h3
  cases h3
  exact hshape

/-- C2, witness: `1-2-3` parses to `BinaryOp('-', BinaryOp('-', Number(1), Number(2)),
Number(3))`, which has the stated shape. -/
theorem C2_precedence_shape_witness :
    ParseExpression 6 (start "1-2-3".toList)
      = .ok (.Binary '-' (.Binary '-' (.Number ⟨['1']⟩) (.Number ⟨['2']⟩)) (.Number ⟨['3']⟩))
          (getNextToken^[5] (start "1-2-3".toList)) ∧
    PrecShape (.Binary '-' (.Binary '-' (.Number ⟨['1']⟩) (.Number ⟨['2']⟩))
      (.Number ⟨['3']⟩)) :=
  ⟨by rfl, C2_precedence_shape (start "1-2-3".toList) ⟨['1']⟩
    [('-', ⟨['2']⟩), ('-', ⟨['3']⟩)] 6 _ _ (by simp) (by rfl) (by rfl) (by rfl)⟩

/-! ## Calls -/

theorem ParseExpression_ok_curTok {fuel : Nat} {s s1 : PState} {t : ExprAST}
    (h : ParseExpression fuel s = .ok t s1) :
    s.CurTok = TOK_IDENT ∨ s.CurTok = TOK_NUMBER ∨ s.CurTok = TOK_LP := by
  cases fuel with
  | zero => rw [ParseExpression] at h; cases h
  | succ n =>
    rw [ParseExpression.eq_2] at h
    cases n with
    | zero => rw [ParsePrimary] at h; cases h
    | succ m =>
      rw [ParsePrimary.eq_2] at h
      by_cases h1 : s.CurTok = TOK_IDENT
      · exact Or.inl h1
      · by_cases h2 : s.CurTok = TOK_NUMBER
        · exact Or.inr (Or.inl h2)
        · by_cases h3 : s.CurTok = TOK_LP
          · exact Or.inr (Or.inr h3)
          · rw [if_neg h1, if_neg h2, if_neg h3] at h
            cases h

theorem Yields_enough {s s1 : PState} {t : ExprAST} (h : Yields s t s1) :
    ∃ N, ∀ fuel, N ≤ fuel → ParseExpression fuel s = .ok t s1 := by
  obtain ⟨n, hn⟩ := h
  refine ⟨n, fun fuel hf => ?_⟩
  rw [ParseExpression_mono hf s (by rw [hn]; simp), hn]

theorem ParseArgs_of_ArgsAt : ∀ (ts : List ExprAST) (s s1 : PState) (Args : List ExprAST),
    ArgsAt s ts s1 →
    ∃ N, ∀ fuel, N ≤ fuel → ParseArgs fuel Args s = .ok (Args ++ ts) s1 := by
  intro ts
  induction ts with
  | nil => intro s s1 Args h; exact absurd h (by simp [ArgsAt])
  | cons t ts ih =>
    intro s s1 Args h
    cases ts with
    | nil =>
      obtain ⟨hy, hrp⟩ := h
      obtain ⟨N, hN⟩ := Yields_enough hy
      refine ⟨N + 1, fun fuel hf => ?_⟩
      obtain ⟨m, rfl⟩ : ∃ m, fuel = m + 1 := ⟨fuel - 1, by omega⟩
      rw [ParseArgs.eq_2, hN m (by omega)]
      dsimp only
      rw [if_pos hrp]
    | cons t2 ts =>
      obtain ⟨s0, hy, hcomma, hrest⟩ := h
      obtain ⟨N, hN⟩ := Yields_enough hy
      obtain ⟨M, hM⟩ := ih (getNextToken s0) s1 (Args ++ [t]) hrest
      refine ⟨max N M + 1, fun fuel hf => ?_⟩
      obtain ⟨m, rfl⟩ : ∃ m, fuel = m + 1 := ⟨fuel - 1, by omega⟩
      have hm1 : N ≤ m := by have := Nat.le_max_left N M; omega
      have hm2 : M ≤ m := by have := Nat.le_max_right N M; omega
      rw [ParseArgs.eq_2, hN m hm1]
      dsimp only
      have h1 : ¬ s0.CurTok = TOK_RP := by rw [hcomma]; decide
      have h2 : ¬ s0.CurTok ≠ 44 := by rw [hcomma]; simp
      rw [if_neg h1, if_neg h2, hM m hm2, List.append_assoc]
      rfl

/-- C3: for every identifier `f` and every list of `n ≥ 0` argument expressions, separated
by `,` inside `(` `)`, parsing the primary `f ( a1 , ... , an )` succeeds (with any
sufficient fuel) with `Call(f, [t1, ..., tn])`, where `ti` is the tree that
`ParseExpression` yields for `ai`, in source order; for `n = 0` the list is empty. The
token after `)` is current afterwards. Nothing but the token stream is consulted. -/
theorem C3_call_of_arguments (s : PState) (f : List Char) (ts : List ExprAST) (s1 : PState)
    (hid : curTok s = .ident f)
    (hlp : (getNextToken s).CurTok = TOK_LP)
    (hargs : (ts = [] ∧ (getNextToken (getNextToken s)).CurTok = TOK_RP ∧
        s1 = getNextToken (getNextToken s)) ∨
      ArgsAt (getNextToken (getNextToken s)) ts s1) :
    ∃ N, ∀ fuel, N ≤ fuel → ParsePrimary fuel s = .ok (.Call f ts) (getNextToken s1) := by
  obtain ⟨hid1, hid2⟩ := curTok_ident hid
  have hlp' : ¬ (getNextToken s).CurTok ≠ TOK_LP := by simp [hlp]
  rcases hargs with ⟨hts, hrp, hs1⟩ | hargs
  · subst hts hs1
    refine ⟨2, fun fuel hf => ?_⟩
    obtain ⟨m, rfl⟩ : ∃ m, fuel = m + 2 := ⟨fuel - 2, by omega⟩
    rw [ParsePrimary.eq_2, if_pos hid1, ParseIdentExpr.eq_2]
    dsimp only
    have hrp' : ¬ (getNextToken (getNextToken s)).CurTok ≠ TOK_RP := by simp [hrp]
    rw [if_neg hlp', if_neg hrp', hid2]
  · obtain ⟨N, hN⟩ := ParseArgs_of_ArgsAt ts _ s1 [] hargs
    refine ⟨N + 2, fun fuel hf => ?_⟩
    obtain ⟨m, rfl⟩ : ∃ m, fuel = m + 2 := ⟨fuel - 2, by omega⟩
    have hne : (getNextToken (getNextToken s)).CurTok ≠ TOK_RP := by
      cases ts with
      | nil => exact absurd hargs (by simp [ArgsAt])
      | cons t ts =>
        have hy : ∃ s0, Yields (getNextToken (getNextToken s)) t s0 := by
          cases ts with
          | nil => exact ⟨s1, hargs.1⟩
          | cons t2 ts => obtain ⟨s0, hy, _⟩ := hargs; exact ⟨s0, hy⟩
        obtain ⟨s0, n, hn⟩ := hy
        rcases ParseExpression_ok_curTok hn with h | h | h <;> rw [h] <;> decide
    rw [ParsePrimary.eq_2, if_pos hid1, ParseIdentExpr.eq_2]
    dsimp only
    rw [if_neg hlp', if_pos hne, hN m (by omega), hid2]
    rfl

/-- C3, witness: `foo(1,2)` yields `Call("foo", [Number(1), Number(2)])`. -/
theorem C3_call_of_arguments_witness :
    (∃ N, ∀ fuel, N ≤ fuel → ParsePrimary fuel (start "foo(1,2)".toList)
      = .ok (.Call "foo".toList [.Number ⟨['1']⟩, .Number ⟨['2']⟩])
          (getNextToken (getNextToken^[5] (start "foo(1,2)".toList)))) ∧
    (∃ N, ∀ fuel, N ≤ fuel → ParsePrimary fuel (start "f()".toList)
      = .ok (.Call "f".toList [])
          (getNextToken (getNextToken^[2] (start "f()".toList)))) :=
  ⟨C3_call_of_arguments (start "foo(1,2)".toList) "foo".toList
      [.Number ⟨['1']⟩, .Number ⟨['2']⟩] (getNextToken^[5] (start "foo(1,2)".toList))
      (by rfl) (by rfl)
      (Or.inr ⟨getNextToken^[3] (start "foo(1,2)".toList), ⟨3, by rfl⟩, by rfl,
        ⟨3, by rfl⟩, by rfl⟩),
   C3_call_of_arguments (start "f()".toList) "f".toList [] _ (by rfl) (by rfl)
      (Or.inl ⟨rfl, by rfl, rfl⟩)⟩

/-! ## Every token other than end of input consumes a character -/

theorem skipSpace_pending (last : Int) (inp : List Char) :
    (skipSpace last inp).2.length + (if (skipSpace last inp).1 = EOF then 0 else 1)
      ≤ inp.length + (if last = EOF then 0 else 1) := by
  induction inp generalizing last with
  | nil =>
    simp only [skipSpace]
    split
    · simp
    · exact Nat.le_refl _
  | cons c cs ih =>
    simp only [skipSpace]
    split
    · have := ih (ord c)
      have hb : (if ord c = EOF then 0 else 1) ≤ 1 := by split <;> omega
      simp only [List.length_cons]
      omega
    · exact Nat.le_refl _

theorem identLoop_pending (id inp : List Char) :
    (identLoop id inp).2.2.length + (if (identLoop id inp).2.1 = EOF then 0 else 1)
      ≤ inp.length := by
  induction inp generalizing id with
  | nil => simp [identLoop]
  | cons c cs ih =>
    simp only [identLoop]
    split
    · have := ih (id ++ [c])
      simp only [List.length_cons]
      omega
    · simp only [List.length_cons]
      split <;> omega

theorem digitLoop_pending (cond : Int → Bool) (num : List Char) (last : Int)
    (inp : List Char) :
    (digitLoop cond num last inp).2.2.length
      + (if (digitLoop cond num last inp).2.1 = EOF then 0 else 1) ≤ inp.length := by
  induction inp generalizing num last with
  | nil => simp [digitLoop]
  | cons c cs ih =>
    simp only [digitLoop]
    split
    · have := ih (num ++ [toChar last]) (ord c)
      simp only [List.length_cons]
      omega
    · simp only [List.length_cons]
      split <;> omega

theorem getchar_pending (inp : List Char) :
    (getchar inp).2.length + (if (getchar inp).1 = EOF then 0 else 1) ≤ inp.length := by
  cases inp with
  | nil => simp [getchar]
  | cons c cs =>
    simp only [getchar, List.length_cons]
    split <;> omega

theorem lexNumber_pending (s : LexState) (last : Int) (inp : List Char) :
    pending (lexNumber s last inp) ≤ inp.length := by
  have h1 := digitLoop_pending (fun c => isdigit c && decide (c ≠ 46)) [] last inp
  unfold lexNumber pending
  dsimp only
  split
  · have h2 := getchar_pending
      (digitLoop (fun c => isdigit c && decide (c ≠ 46)) [] last inp).2.2
    split
    · have h3 := digitLoop_pending isdigit
        ((digitLoop (fun c => isdigit c && decide (c ≠ 46)) [] last inp).1 ++
          [toChar (digitLoop (fun c => isdigit c && decide (c ≠ 46)) [] last inp).2.1])
        (getchar (digitLoop (fun c => isdigit c && decide (c ≠ 46)) [] last inp).2.2).1
        (getchar (digitLoop (fun c => isdigit c && decide (c ≠ 46)) [] last inp).2.2).2
      dsimp only
      omega
    · dsimp only
      omega
  · dsimp only
    omega

theorem gettokFuel_pending (n : Nat) : ∀ (l : LexState) (r : Int × LexState),
    gettokFuel n l = some r → r.1 ≠ TOK_EOF → pending r.2 < pending l := by
  induction n with
  | zero => intro l r h; simp [gettokFuel] at h
  | succ n ih =>
    intro l r h hne
    by_cases hr : recurses l
    · rw [gettokFuel_rec _ _ hr] at h
      have h1 := ih _ r h hne
      have h2 := afterComment_length l hr
      have h3 : pending (afterComment l) ≤ (afterComment l).input.length + 1 := by
        unfold pending; split <;> omega
      have h4 : l.input.length ≤ pending l := Nat.le_add_right _ _
      omega
    · rw [gettokFuel_norec _ _ hr, gettokFuel] at h
      dsimp only at h
      have hw := skipSpace_pending l.LastChar l.input
      have hpl : pending l = l.input.length + (if l.LastChar = EOF then 0 else 1) := rfl
      by_cases h1 : isalpha (skipSpace l.LastChar l.input).1 = true
      · rw [if_pos h1] at h
        have hw1 : (skipSpace l.LastChar l.input).1 ≠ EOF := by
          intro hE; rw [hE] at h1; exact absurd h1 (by decide)
        rw [if_neg hw1] at hw
        have hi := identLoop_pending [toChar (skipSpace l.LastChar l.input).1]
          (skipSpace l.LastChar l.input).2
        have hp : pending r.2 ≤ (skipSpace l.LastChar l.input).2.length := by
          split at h
          · cases h; exact hi
          · split at h <;> (cases h; exact hi)
        omega
      · rw [if_neg h1] at h
        by_cases h2 : isdigit (skipSpace l.LastChar l.input).1 = true
        · rw [if_pos h2] at h
          have hw1 : (skipSpace l.LastChar l.input).1 ≠ EOF := by
            intro hE; rw [hE] at h2; exact absurd h2 (by decide)
          rw [if_neg hw1] at hw
          cases h
          have := lexNumber_pending l (skipSpace l.LastChar l.input).1
            (skipSpace l.LastChar l.input).2
          dsimp only
          omega
        · rw [if_neg h2] at h
          by_cases h3 : (skipSpace l.LastChar l.input).1 = 35
          · have h4 : ¬ ((skipSpace l.LastChar l.input).1 = 35 ∧
                (commentLoop (skipSpace l.LastChar l.input).2).1 ≠ EOF) := by
              intro h4
              exact hr ⟨by simpa using h1, by simpa using h2, h3, h4.2⟩
            simp only [if_pos h3] at h
            rw [if_neg h4] at h
            have h5 : (commentLoop (skipSpace l.LastChar l.input).2).1 = EOF := by
              by_contra h5; exact h4 ⟨h3, h5⟩
            rw [if_pos h5] at h
            cases h
            exact absurd rfl hne
          · have h4 : ¬ ((skipSpace l.LastChar l.input).1 = 35 ∧
                (skipSpace l.LastChar l.input).1 ≠ EOF) := fun h4 => h3 h4.1
            simp only [if_neg h3] at h
            rw [if_neg h4] at h
            by_cases h5 : (skipSpace l.LastChar l.input).1 = EOF
            · rw [if_pos h5] at h
              cases h
              exact absurd rfl hne
            · rw [if_neg h5] at h
              cases h
              rw [if_neg h5] at hw
              have := getchar_pending (skipSpace l.LastChar l.input).2
              unfold pending
              dsimp only
              omega

theorem commentLoop_length_le (inp : List Char) :
    (commentLoop inp).2.length ≤ inp.length := by
  induction inp with
  | nil => simp [commentLoop]
  | cons c cs ih =>
    simp only [commentLoop]
    split
    · exact Nat.le_succ_of_le ih
    · simp

/-- No call of `gettok` gives characters back. -/
theorem gettokFuel_pending_le (n : Nat) : ∀ (l : LexState) (r : Int × LexState),
    gettokFuel n l = some r → pending r.2 ≤ pending l := by
  induction n with
  | zero => intro l r h; simp [gettokFuel] at h
  | succ n ih =>
    intro l r h
    by_cases hr : recurses l
    · rw [gettokFuel_rec _ _ hr] at h
      have h1 := ih _ r h
      have h2 := afterComment_length l hr
      have h3 : pending (afterComment l) ≤ (afterComment l).input.length + 1 := by
        unfold pending; split <;> omega
      have h4 : l.input.length ≤ pending l := Nat.le_add_right _ _
      omega
    · rw [gettokFuel_norec _ _ hr, gettokFuel] at h
      dsimp only at h
      have hw := skipSpace_pending l.LastChar l.input
      have hpl : pending l = l.input.length + (if l.LastChar = EOF then 0 else 1) := rfl
      have hw2 : (skipSpace l.LastChar l.input).2.length ≤ pending l := by omega
      by_cases h1 : isalpha (skipSpace l.LastChar l.input).1 = true
      · rw [if_pos h1] at h
        have hi := identLoop_pending [toChar (skipSpace l.LastChar l.input).1]
          (skipSpace l.LastChar l.input).2
        have hp : pending r.2 ≤ (skipSpace l.LastChar l.input).2.length := by
          split at h
          · cases h; exact hi
          · split at h <;> (cases h; exact hi)
        omega
      · rw [if_neg h1] at h
        by_cases h2 : isdigit (skipSpace l.LastChar l.input).1 = true
        · rw [if_pos h2] at h
          cases h
          have := lexNumber_pending l (skipSpace l.LastChar l.input).1
            (skipSpace l.LastChar l.input).2
          dsimp only
          omega
        · rw [if_neg h2] at h
          by_cases h3 : (skipSpace l.LastChar l.input).1 = 35
          · have h4 : ¬ ((skipSpace l.LastChar l.input).1 = 35 ∧
                (commentLoop (skipSpace l.LastChar l.input).2).1 ≠ EOF) := by
              intro h4
              exact hr ⟨by simpa using h1, by simpa using h2, h3, h4.2⟩
            simp only [if_pos h3] at h
            rw [if_neg h4] at h
            have h5 : (commentLoop (skipSpace l.LastChar l.input).2).1 = EOF := by
              by_contra h5; exact h4 ⟨h3, h5⟩
            rw [if_pos h5] at h
            cases h
            have := commentLoop_length_le (skipSpace l.LastChar l.input).2
            unfold pending
            dsimp only
            rw [if_pos h5]
            omega
          · have h4 : ¬ ((skipSpace l.LastChar l.input).1 = 35 ∧
                (skipSpace l.LastChar l.input).1 ≠ EOF) := fun h4 => h3 h4.1
            simp only [if_neg h3] at h
            rw [if_neg h4] at h
            by_cases h5 : (skipSpace l.LastChar l.input).1 = EOF
            · rw [if_pos h5] at h
              cases h
              unfold pending
              dsimp only
              rw [if_pos h5]
              omega
            · rw [if_neg h5] at h
              cases h
              rw [if_neg h5] at hw
              have := getchar_pending (skipSpace l.LastChar l.input).2
              unfold pending
              dsimp only
              omega

/-- Reading a token other than end of input consumes at least one character. -/
theorem getNextToken_pending (s : PState) (h : (getNextToken s).CurTok ≠ TOK_EOF) :
    pending (getNextToken s).lex < pending s.lex := by
  obtain ⟨r, hr⟩ := gettokFuel_isSome s.lex
  have hg : gettok s.lex = r := gettok_eq_of_fuel hr
  have h1 : (getNextToken s).CurTok = r.1 := by simp [getNextToken, hg]
  have h2 : (getNextToken s).lex = r.2 := by simp [getNextToken, hg]
  rw [h2]
  exact gettokFuel_pending _ _ _ hr (by rw [← h1]; exact h)

/-- Reading a token never gives characters back. -/
theorem getNextToken_pending_le (s : PState) :
    pending (getNextToken s).lex ≤ pending s.lex := by
  obtain ⟨r, hr⟩ := gettokFuel_isSome s.lex
  have hg : gettok s.lex = r := gettok_eq_of_fuel hr
  have h2 : (getNextToken s).lex = r.2 := by simp [getNextToken, hg]
  rw [h2]
  exact gettokFuel_pending_le _ _ _ hr

/-- After `getNextToken` the measure is bounded by the characters pending before. -/
theorem getNextToken_remaining (s : PState) :
    remaining (getNextToken s) ≤ pending s.lex := by
  unfold remaining
  by_cases h : (getNextToken s).CurTok = TOK_EOF
  · rw [if_pos h]; exact getNextToken_pending_le s
  · rw [if_neg h]; exact getNextToken_pending s h

theorem getNextToken_remaining_le (s : PState) :
    remaining (getNextToken s) ≤ remaining s :=
  Nat.le_trans (getNextToken_remaining s) (Nat.le_add_right _ _)

/-- Advancing from a token other than end of input decreases the measure. -/
theorem getNextToken_remaining_lt (s : PState) (h : s.CurTok ≠ TOK_EOF) :
    remaining (getNextToken s) < remaining s := by
  have h1 := getNextToken_remaining s
  have h2 : remaining s = pending s.lex + 1 := by unfold remaining; rw [if_neg h]
  omega

/-! ## Prototypes and definitions -/

theorem protoArgs_of_tokens : ∀ (ps : List (List Char)) (s : PState) (Acc : List (List Char)),
    tokens ps.length (getNextToken s) = ps.map .ident →
    (getNextToken^[ps.length + 1] s).CurTok ≠ TOK_IDENT →
    ∀ fuel, ps.length < fuel →
      protoArgs fuel Acc s = some (Acc ++ ps, getNextToken^[ps.length + 1] s) := by
  intro ps
  induction ps with
  | nil =>
    intro s Acc _ hne fuel hf
    obtain ⟨m, rfl⟩ : ∃ m, fuel = m + 1 := ⟨fuel - 1, by simp at hf; omega⟩
    rw [protoArgs]
    have hne' : ¬ (getNextToken s).CurTok = TOK_IDENT := hne
    rw [if_neg hne', List.append_nil]
    rfl
  | cons p ps ih =>
    intro s Acc ht hne fuel hf
    obtain ⟨m, rfl⟩ : ∃ m, fuel = m + 1 := ⟨fuel - 1, by omega⟩
    simp only [List.length_cons, tokens, List.map_cons, List.cons.injEq] at ht
    obtain ⟨h1, h2⟩ := ht
    obtain ⟨h1a, h1b⟩ := curTok_ident h1
    rw [protoArgs]
    rw [if_pos h1a, h1b]
    rw [List.length_cons, Function.iterate_succ_apply] at hne
    rw [ih (getNextToken s) (Acc ++ [p]) h2 hne m (by simp at hf; omega)]
    rw [List.append_assoc, List.length_cons, Function.iterate_succ_apply (n := ps.length + 1)]
    rfl

theorem protoArgs_inv (fuel : Nat) : ∀ (s : PState) (Acc A : List (List Char)) (s2 : PState),
    protoArgs fuel Acc s = some (A, s2) →
    ∃ ps, A = Acc ++ ps ∧ tokens ps.length (getNextToken s) = ps.map .ident ∧
      s2 = getNextToken^[ps.length + 1] s ∧ s2.CurTok ≠ TOK_IDENT ∧ ps.length < fuel := by
  induction fuel with
  | zero => intro s Acc A s2 h; simp [protoArgs] at h
  | succ n ih =>
    intro s Acc A s2 h
    rw [protoArgs] at h
    by_cases h1 : (getNextToken s).CurTok = TOK_IDENT
    · rw [if_pos h1] at h
      obtain ⟨ps, hA, ht, hs2, hne, hlt⟩ := ih _ _ _ _ h
      refine ⟨(getNextToken s).lex.IdentifierStr :: ps, ?_, ?_, ?_, hne, ?_⟩
      · rw [hA, List.append_assoc]; rfl
      · simp only [List.length_cons, tokens, List.map_cons, List.cons.injEq]
        refine ⟨?_, ht⟩
        simp [curTok, h1, TOK_IDENT, TOK_NUMBER]
      · rw [hs2, List.length_cons, Function.iterate_succ_apply (n := ps.length + 1)]
      · simp only [List.length_cons]; omega
    · rw [if_neg h1] at h
      simp only [Option.some.injEq, Prod.mk.injEq] at h
      obtain ⟨hA, hs2⟩ := h
      refine ⟨[], by simp [hA], rfl, ?_, ?_, by simp⟩
      · rw [← hs2]; rfl
      · rw [← hs2]; exact h1

theorem protoArgs_total (k : Nat) : ∀ (s : PState) (Acc : List (List Char)),
    pending s.lex ≤ k → ∃ r, protoArgs (k + 1) Acc s = some r := by
  induction k with
  | zero =>
    intro s Acc hk
    rw [protoArgs]
    by_cases h1 : (getNextToken s).CurTok = TOK_IDENT
    · have := getNextToken_pending s (by rw [h1]; decide)
      omega
    · rw [if_neg h1]; exact ⟨_, rfl⟩
  | succ k ih =>
    intro s Acc hk
    rw [protoArgs]
    by_cases h1 : (getNextToken s).CurTok = TOK_IDENT
    · have := getNextToken_pending s (by rw [h1]; decide)
      rw [if_pos h1]
      exact ih _ _ (by omega)
    · rw [if_neg h1]; exact ⟨_, rfl⟩

theorem protoArgs_succ (n : Nat) : ∀ (s : PState) (Acc : List (List Char))
    (r : List (List Char) × PState),
    protoArgs n Acc s = some r → protoArgs (n + 1) Acc s = some r := by
  induction n with
  | zero => intro s Acc r h; simp [protoArgs] at h
  | succ n ih =>
    intro s Acc r h
    rw [protoArgs] at h ⊢
    by_cases h1 : (getNextToken s).CurTok = TOK_IDENT
    · rw [if_pos h1] at h ⊢; exact ih _ _ _ h
    · rw [if_neg h1] at h ⊢; exact h

theorem protoArgs_mono {n m : Nat} (hnm : n ≤ m) (s : PState) (Acc : List (List Char))
    (r : List (List Char) × PState) (h : protoArgs n Acc s = some r) :
    protoArgs m Acc s = some r := by
  induction hnm with
  | refl => exact h
  | step _ ih => exact protoArgs_succ _ _ _ _ ih

theorem tokens_succ_iterate (n : Nat) (s : PState) :
    tokens (n + 1) s = curTok s :: tokens n (getNextToken s) := rfl

theorem curTok_of_ident {s : PState} (h : s.CurTok = TOK_IDENT) :
    curTok s = .ident s.lex.IdentifierStr := by
  simp [curTok, h, TOK_IDENT, TOK_NUMBER]

theorem curTok_of_code {s : PState} (h1 : s.CurTok ≠ TOK_NUMBER) (h2 : s.CurTok ≠ TOK_IDENT) :
    curTok s = .code s.CurTok := by
  simp [curTok, h1, h2]

theorem curTok_not_ident {s : PState} {c : Tok} (h : curTok s = c)
    (hc : ∀ x, c ≠ .ident x) : s.CurTok ≠ TOK_IDENT := by
  intro hi
  exact hc _ (by rw [← h, curTok_of_ident hi])

/-- On the tokens `f ( p1 ... pn` followed by a token `c` that is not an identifier, the
loop of `ParsePrototype` collects `p1 ... pn` and stops with `c` current. -/
theorem protoArgs_at (s : PState) (f : List Char) (ps : List (List Char)) (c : Tok)
    (h : tokens (ps.length + 3) s = protoToks f ps c) (hc : ∀ x, c ≠ .ident x) :
    s.CurTok = TOK_IDENT ∧ s.lex.IdentifierStr = f ∧ (getNextToken s).CurTok = TOK_LP ∧
    curTok (getNextToken^[ps.length + 2] s) = c ∧
    ∀ fuel, ps.length < fuel →
      protoArgs fuel [] (getNextToken s) = some (ps, getNextToken^[ps.length + 2] s) := by
  rw [tokens_succ_iterate, tokens_succ_iterate, tokens_succ_last] at h
  simp only [protoToks, List.cons_append, List.cons.injEq] at h
  obtain ⟨h1, h2, h3⟩ := h
  have hlen : (tokens ps.length (getNextToken (getNextToken s))).length
      = (List.map Tok.ident ps).length := by rw [tokens_length, List.length_map]
  obtain ⟨h3a, h3b⟩ := List.append_inj h3 hlen
  obtain ⟨h1a, h1b⟩ := curTok_ident h1
  have h3c := List.singleton_inj.mp h3b
  have hit : getNextToken^[ps.length + 2] s
      = getNextToken^[ps.length] (getNextToken (getNextToken s)) := by
    rw [Function.iterate_succ_apply (n := ps.length + 1),
      Function.iterate_succ_apply (n := ps.length)]
  have hit1 : getNextToken^[ps.length + 1] (getNextToken s)
      = getNextToken^[ps.length] (getNextToken (getNextToken s)) := by
    rw [Function.iterate_succ_apply (n := ps.length)]
  refine ⟨h1a, h1b, curTok_code h2, by rw [hit]; exact h3c, fun fuel hf => ?_⟩
  have hne : (getNextToken^[ps.length + 1] (getNextToken s)).CurTok ≠ TOK_IDENT := by
    rw [hit1]; exact curTok_not_ident h3c hc
  have hpa := protoArgs_of_tokens ps (getNextToken s) [] h3a hne fuel hf
  rw [hpa, List.nil_append, hit, hit1]

/-- On the tokens `f ( p1 ... pn )` the prototype is returned and the token after `)` becomes
current. -/
theorem ParsePrototype_of_tokens (s : PState) (f : List Char) (ps : List (List Char))
    (h : tokens (ps.length + 3) s = protoToks f ps (.code TOK_RP))
    (fuel : Nat) (hf : ps.length < fuel) :
    ParsePrototype fuel s = .ok ⟨f, ps⟩ (getNextToken^[ps.length + 3] s) := by
  obtain ⟨h1, h2, h3, h4, h5⟩ := protoArgs_at s f ps _ h (by intro x hx; cases hx)
  unfold ParsePrototype
  have h1' : ¬ s.CurTok ≠ TOK_IDENT := by simp [h1]
  have h3' : ¬ (getNextToken s).CurTok ≠ TOK_LP := by simp [h3]
  have h4' : ¬ (getNextToken^[ps.length + 2] s).CurTok ≠ TOK_RP :=
    fun hh => hh (curTok_code h4)
  rw [if_neg h1', if_neg h3', h5 fuel hf]
  dsimp only
  rw [if_neg h4', h2, Function.iterate_succ_apply' (n := ps.length + 2)]

/-- On the tokens `f ( p1 ... pn` followed by a token that is neither an identifier nor `)`,
`ParsePrototype` reports the missing `)` at that token. -/
theorem ParsePrototype_no_rparen (s : PState) (f : List Char) (ps : List (List Char))
    (c : Tok) (h : tokens (ps.length + 3) s = protoToks f ps c)
    (hc : ∀ x, c ≠ .ident x) (hrp : c ≠ .code TOK_RP) (fuel : Nat) (hf : ps.length < fuel) :
    ParsePrototype fuel s = .null { getNextToken^[ps.length + 2] s with
      errs := (getNextToken^[ps.length + 2] s).errs ++ ["Expected ')' in prototype"] } := by
  obtain ⟨h1, h2, h3, h4, h5⟩ := protoArgs_at s f ps c h hc
  unfold ParsePrototype
  have h1' : ¬ s.CurTok ≠ TOK_IDENT := by simp [h1]
  have h3' : ¬ (getNextToken s).CurTok ≠ TOK_LP := by simp [h3]
  have h4' : (getNextToken^[ps.length + 2] s).CurTok ≠ TOK_RP := by
    intro h6
    apply hrp
    rw [← h4, curTok_of_code (by rw [h6]; decide) (by rw [h6]; decide), h6]
  rw [if_neg h1', if_neg h3', h5 fuel hf]
  dsimp only
  rw [if_pos h4']
  rfl

/-- A prototype that is returned was read from tokens `f ( p1 ... pn )`. -/
theorem ParsePrototype_ok_inv {fuel : Nat} {s s1 : PState} {p : PrototypeAST}
    (h : ParsePrototype fuel s = .ok p s1) :
    ∃ f ps, tokens (ps.length + 3) s = protoToks f ps (.code TOK_RP) ∧ p = ⟨f, ps⟩ ∧
      s1 = getNextToken^[ps.length + 3] s := by
  unfold ParsePrototype at h
  by_cases h1 : s.CurTok ≠ TOK_IDENT
  · rw [if_pos h1] at h; cases h
  · rw [if_neg h1] at h
    by_cases h2 : (getNextToken s).CurTok ≠ TOK_LP
    · rw [if_pos h2] at h; cases h
    · rw [if_neg h2] at h
      cases hpa : protoArgs fuel [] (getNextToken s) with
      | none => rw [hpa] at h; cases h
      | some r =>
        obtain ⟨A, s2⟩ := r
        rw [hpa] at h
        dsimp only at h
        by_cases h3 : s2.CurTok ≠ TOK_RP
        · rw [if_pos h3] at h; cases h
        · rw [if_neg h3] at h
          obtain ⟨ps, hA, ht, hs2, _, _⟩ := protoArgs_inv _ _ _ _ _ hpa
          rw [List.nil_append] at hA
          subst hA
          have h1' : s.CurTok = TOK_IDENT := by simpa using h1
          have h2' : (getNextToken s).CurTok = TOK_LP := by simpa using h2
          have h3' : s2.CurTok = TOK_RP := by simpa using h3
          refine ⟨s.lex.IdentifierStr, A, ?_, ?_, ?_⟩
          · rw [tokens_succ_iterate, tokens_succ_iterate, tokens_succ_last, ht,
              curTok_of_ident h1',
              curTok_of_code (by rw [h2']; decide) (by rw [h2']; decide), h2']
            simp only [protoToks, List.cons_append, List.cons.injEq, true_and]
            congr 2
            rw [← Function.iterate_succ_apply (n := A.length), ← hs2,
              curTok_of_code (by rw [h3']; decide) (by rw [h3']; decide), h3']
          · cases h; rfl
          · cases h
            rw [hs2, Function.iterate_succ_apply' (n := A.length + 2),
              Function.iterate_succ_apply (n := A.length + 1)]

/-- The function `ParsePrototype` returns with any fuel beyond the number of characters that
are still to be read. -/
theorem ParsePrototype_total (s : PState) (fuel : Nat)
    (hf : pending (getNextToken s).lex < fuel) : ParsePrototype fuel s ≠ .oof := by
  unfold ParsePrototype
  by_cases h1 : s.CurTok ≠ TOK_IDENT
  · rw [if_pos h1]; intro h; cases h
  · rw [if_neg h1]
    by_cases h2 : (getNextToken s).CurTok ≠ TOK_LP
    · rw [if_pos h2]; intro h; cases h
    · rw [if_neg h2]
      obtain ⟨m, rfl⟩ : ∃ m, fuel = m + 1 := ⟨fuel - 1, by omega⟩
      obtain ⟨r, hr⟩ := protoArgs_total m (getNextToken s) [] (by omega)
      rw [hr]
      dsimp only
      split <;> (intro h; cases h)

/-- C4: for every function name `f`, every list of parameter identifiers `p1 .. pn`
(`n ≥ 0`) written back to back and every body on which `ParseExpression` yields a tree `t`,
`ParseDefinition` on `def f ( p1 ... pn ) body` succeeds (with any sufficient fuel) with
`Function(Prototype(f, [p1, ..., pn]), t)`; and `ParseDefinition` returns null whenever
`ParsePrototype` or, after it, `ParseExpression` returns null. -/
theorem C4_definition (s : PState) :
    (∀ (f : List Char) (ps : List (List Char)) (t : ExprAST) (s1 : PState),
      tokens (ps.length + 4) s = .code TOK_DEF :: protoToks f ps (.code TOK_RP) →
      Yields (getNextToken^[ps.length + 4] s) t s1 →
      ∃ N, ∀ fuel, N ≤ fuel → ParseDefinition fuel s = .ok ⟨⟨f, ps⟩, t⟩ s1) ∧
    (∀ (fuel : Nat) (s1 : PState), ParsePrototype fuel (getNextToken s) = .null s1 →
      ParseDefinition fuel s = .null s1) ∧
    (∀ (fuel : Nat) (p : PrototypeAST) (s1 s2 : PState),
      ParsePrototype fuel (getNextToken s) = .ok p s1 → ParseExpression fuel s1 = .null s2 →
      ParseDefinition fuel s = .null s2) := by
  refine ⟨?_, ?_, ?_⟩
  · intro f ps t s1 htoks hbody
    rw [tokens_succ_iterate] at htoks
    simp only [List.cons.injEq] at htoks
    obtain ⟨N, hN⟩ := Yields_enough hbody
    refine ⟨max N (ps.length + 1), fun fuel hf => ?_⟩
    have hf1 : N ≤ fuel := le_trans (Nat.le_max_left _ _) hf
    have hf2 : ps.length < fuel := lt_of_lt_of_le (Nat.lt_succ_self _)
      (le_trans (Nat.le_max_right _ _) hf)
    unfold ParseDefinition
    rw [ParsePrototype_of_tokens _ f ps htoks.2 fuel hf2]
    dsimp only
    rw [← Function.iterate_succ_apply (n := ps.length + 3), hN fuel hf1]
  · intro fuel s1 h
    unfold ParseDefinition
    rw [h]
  · intro fuel p s1 s2 h1 h2
    unfold ParseDefinition
    rw [h1]
    dsimp only
    rw [h2]

/-- C4, witness: `def foo(x y) x+y` yields
`Function(Prototype("foo", ["x","y"]), BinaryOp('+', VariableRef("x"), VariableRef("y")))`;
`def foo(x, y) x+y` and `def foo(x y) )` yield null. -/
theorem C4_definition_witness :
    (∃ N, ∀ fuel, N ≤ fuel → ParseDefinition fuel (start "def foo(x y) x+y".toList)
      = .ok ⟨⟨"foo".toList, ["x".toList, "y".toList]⟩,
          .Binary '+' (.Variable "x".toList) (.Variable "y".toList)⟩
          (getNextToken^[9] (start "def foo(x y) x+y".toList))) ∧
    ParseDefinition 5 (start "def foo(x, y) x+y".toList)
      = .null { getNextToken^[4] (start "def foo(x, y) x+y".toList) with
          errs := ["Expected ')' in prototype"] } ∧
    ParseDefinition 5 (start "def foo(x y) )".toList)
      = .null { getNextToken^[6] (start "def foo(x y) )".toList) with
          errs := ["unknown token when expecting an expression"] } :=
  ⟨(C4_definition (start "def foo(x y) x+y".toList)).1 "foo".toList ["x".toList, "y".toList]
      (.Binary '+' (.Variable "x".toList) (.Variable "y".toList))
      (getNextToken^[9] (start "def foo(x y) x+y".toList)) (by rfl) ⟨5, by rfl⟩,
   (C4_definition (start "def foo(x, y) x+y".toList)).2.1 5 _ (by rfl),
   (C4_definition (start "def foo(x y) )".toList)).2.2 5 ⟨"foo".toList, ["x".toList, "y".toList]⟩
      (getNextToken^[6] (start "def foo(x y) )".toList)) _ (by rfl) (by rfl)⟩

/-- C5: `ParsePrototype` returns a prototype if and only if the tokens from the current one
are an identifier, `(`, zero or more identifiers, `)`, and then it returns exactly that
prototype with the token after `)` current. Otherwise it returns null with the error
that names the first deviation; it always returns. -/
theorem C5_prototype (s : PState) :
    ((∃ fuel p s1, ParsePrototype fuel s = .ok p s1) ↔
      ∃ f ps, tokens (ps.length + 3) s = protoToks f ps (.code TOK_RP)) ∧
    (∀ f ps, tokens (ps.length + 3) s = protoToks f ps (.code TOK_RP) →
      ∀ fuel, ps.length < fuel →
        ParsePrototype fuel s = .ok ⟨f, ps⟩ (getNextToken^[ps.length + 3] s)) ∧
    (s.CurTok ≠ TOK_IDENT → ∀ fuel, ParsePrototype fuel s
      = .null { s with errs := s.errs ++ ["Expected function name in prototype"] }) ∧
    (s.CurTok = TOK_IDENT → (getNextToken s).CurTok ≠ TOK_LP → ∀ fuel, ParsePrototype fuel s
      = .null { getNextToken s with
          errs := (getNextToken s).errs ++ ["Expected '(' in prototype"] }) ∧
    (∀ f ps c, tokens (ps.length + 3) s = protoToks f ps c → (∀ x, c ≠ .ident x) →
      c ≠ .code TOK_RP → ∀ fuel, ps.length < fuel → ParsePrototype fuel s
      = .null { getNextToken^[ps.length + 2] s with
          errs := (getNextToken^[ps.length + 2] s).errs ++ ["Expected ')' in prototype"] }) ∧
    (∀ fuel, pending (getNextToken s).lex < fuel → ParsePrototype fuel s ≠ .oof) ∧
    ((¬ ∃ f ps, tokens (ps.length + 3) s = protoToks f ps (.code TOK_RP)) →
      ∀ fuel, pending (getNextToken s).lex < fuel →
      ∃ (s1 : PState) (msg : String),
        ParsePrototype fuel s = .null { s1 with errs := s1.errs ++ [msg] } ∧
        (msg = "Expected function name in prototype" ∨ msg = "Expected '(' in prototype" ∨
          msg = "Expected ')' in prototype")) := by
  refine ⟨⟨?_, ?_⟩, fun f ps h fuel hf => ParsePrototype_of_tokens s f ps h fuel hf, ?_, ?_,
    fun f ps c h hc hrp fuel hf => ParsePrototype_no_rparen s f ps c h hc hrp fuel hf,
    fun fuel hf => ParsePrototype_total s fuel hf, ?_⟩
  · rintro ⟨fuel, p, s1, h⟩
    obtain ⟨f, ps, ht, _, _⟩ := ParsePrototype_ok_inv h
    exact ⟨f, ps, ht⟩
  · rintro ⟨f, ps, h⟩
    exact ⟨ps.length + 1, _, _, ParsePrototype_of_tokens s f ps h _ (Nat.lt_succ_self _)⟩
  · intro h fuel
    unfold ParsePrototype
    rw [if_pos h]
    rfl
  · intro h1 h2 fuel
    unfold ParsePrototype
    have h1' : ¬ s.CurTok ≠ TOK_IDENT := by simp [h1]
    rw [if_neg h1', if_pos h2]
    rfl
  · intro hno fuel hf
    have htot := ParsePrototype_total s fuel hf
    unfold ParsePrototype at htot ⊢
    by_cases h1 : s.CurTok ≠ TOK_IDENT
    · rw [if_pos h1]; exact ⟨s, _, rfl, Or.inl rfl⟩
    · rw [if_neg h1] at htot ⊢
      by_cases h2 : (getNextToken s).CurTok ≠ TOK_LP
      · rw [if_pos h2]; exact ⟨_, _, rfl, Or.inr (Or.inl rfl)⟩
      · rw [if_neg h2] at htot ⊢
        cases hpa : protoArgs fuel [] (getNextToken s) with
        | none => rw [hpa] at htot; exact absurd rfl htot
        | some r =>
          obtain ⟨A, s2⟩ := r
          dsimp only
          by_cases h3 : s2.CurTok ≠ TOK_RP
          · rw [if_pos h3]; exact ⟨_, _, rfl, Or.inr (Or.inr rfl)⟩
          · exfalso
            apply hno
            have hok : ParsePrototype fuel s
                = .ok ⟨s.lex.IdentifierStr, A⟩ (getNextToken s2) := by
              unfold ParsePrototype
              rw [if_neg h1, if_neg h2, hpa]
              dsimp only
              rw [if_neg h3]
            obtain ⟨f, ps, ht, _, _⟩ := ParsePrototype_ok_inv hok
            exact ⟨f, ps, ht⟩

/-- C5, witness: `f(x y)` is accepted; `(x)`, `f x` and the comma-separated `f(x, y)` are
rejected with the three named errors. -/
theorem C5_prototype_witness :
    ParsePrototype 3 (start "f(x y)".toList)
      = .ok ⟨"f".toList, ["x".toList, "y".toList]⟩ (getNextToken^[5] (start "f(x y)".toList)) ∧
    ParsePrototype 3 (start "(x)".toList)
      = .null { start "(x)".toList with errs := ["Expected function name in prototype"] } ∧
    ParsePrototype 3 (start "f x".toList)
      = .null { getNextToken (start "f x".toList) with
          errs := ["Expected '(' in prototype"] } ∧
    ParsePrototype 3 (start "f(x, y)".toList)
      = .null { getNextToken^[3] (start "f(x, y)".toList) with
          errs := ["Expected ')' in prototype"] } :=
  ⟨(C5_prototype (start "f(x y)".toList)).2.1 "f".toList ["x".toList, "y".toList]
      (by rfl) 3 (by decide),
   (C5_prototype (start "(x)".toList)).2.2.1 (by decide) 3,
   (C5_prototype (start "f x".toList)).2.2.2.1 (by rfl) (by decide) 3,
   (C5_prototype (start "f(x, y)".toList)).2.2.2.2.1 "f".toList ["x".toList] (.code 44)
      (by rfl) (by intro x hx; cases hx) (by decide) 3 (by decide)⟩

/-! ## Stale tokenizer variables and earlier messages do not influence parsing -/

theorem ord_nonneg (c : Char) : 0 ≤ ord c := Int.ofNat_nonneg _

theorem skipSpace_ge (last : Int) (inp : List Char) (h : -1 ≤ last) :
    -1 ≤ (skipSpace last inp).1 := by
  induction inp generalizing last with
  | nil => simp only [skipSpace]; split <;> simp [EOF, h]
  | cons c cs ih =>
    simp only [skipSpace]; split
    · exact ih _ (by have := ord_nonneg c; omega)
    · exact h

theorem identLoop_ge (id inp : List Char) : -1 ≤ (identLoop id inp).2.1 := by
  induction inp generalizing id with
  | nil => simp [identLoop, EOF]
  | cons c cs ih =>
    simp only [identLoop]; split
    · exact ih _
    · have := ord_nonneg c; simp only; omega

theorem digitLoop_ge (cond : Int → Bool) (num : List Char) (last : Int) (inp : List Char) :
    -1 ≤ (digitLoop cond num last inp).2.1 := by
  induction inp generalizing num last with
  | nil => simp [digitLoop, EOF]
  | cons c cs ih =>
    simp only [digitLoop]; split
    · exact ih _ _
    · have := ord_nonneg c; simp only; omega

theorem getchar_ge (inp : List Char) : -1 ≤ (getchar inp).1 := by
  cases inp with
  | nil => simp [getchar, EOF]
  | cons c cs => have := ord_nonneg c; simp only [getchar]; omega

theorem commentLoop_ge (inp : List Char) : -1 ≤ (commentLoop inp).1 := by
  induction inp with
  | nil => simp [commentLoop, EOF]
  | cons c cs ih =>
    simp only [commentLoop]; split
    · exact ih
    · have := ord_nonneg c; simp only; omega

theorem lexNumber_ge (s : LexState) (last : Int) (inp : List Char) :
    -1 ≤ (lexNumber s last inp).LastChar := by
  unfold lexNumber
  dsimp only
  split
  · split
    · exact digitLoop_ge _ _ _ _
    · exact getchar_ge _
  · exact digitLoop_ge _ _ _ _

theorem lexNumber_frame (a b : LexState) (last : Int) (inp : List Char) :
    (lexNumber b last inp).LastChar = (lexNumber a last inp).LastChar ∧
    (lexNumber b last inp).input = (lexNumber a last inp).input ∧
    (lexNumber b last inp).NumVal = (lexNumber a last inp).NumVal := by
  unfold lexNumber
  dsimp only
  split
  · split <;> exact ⟨rfl, rfl, rfl⟩
  · exact ⟨rfl, rfl, rfl⟩

theorem gettokFuel_one_sim (a b : LexState)
    (hw : skipSpace b.LastChar b.input = skipSpace a.LastChar a.input)
    (hge : -1 ≤ (skipSpace a.LastChar a.input).1) (hr : ¬ recurses a)
    (ra : Int × LexState) (h : gettokFuel 1 a = some ra) :
    ∃ rb, gettokFuel 1 b = some rb ∧ TokSim ra rb := by
  rw [gettokFuel] at h ⊢
  dsimp only at h ⊢
  rw [hw]
  by_cases h1 : isalpha (skipSpace a.LastChar a.input).1 = true
  · rw [if_pos h1] at h ⊢
    by_cases h2 : (identLoop [toChar (skipSpace a.LastChar a.input).1]
        (skipSpace a.LastChar a.input).2).1 = ['d', 'e', 'f']
    · rw [if_pos h2] at h ⊢
      cases h
      refine ⟨_, rfl, rfl, rfl, rfl, identLoop_ge _ _, fun _ => rfl, ?_⟩
      intro h6; dsimp only at h6; exact absurd h6 (by decide)
    · rw [if_neg h2] at h ⊢
      by_cases h3 : (identLoop [toChar (skipSpace a.LastChar a.input).1]
          (skipSpace a.LastChar a.input).2).1 = ['e', 'x', 't', 'e', 'r', 'n']
      · rw [if_pos h3] at h ⊢
        cases h
        refine ⟨_, rfl, rfl, rfl, rfl, identLoop_ge _ _, fun _ => rfl, ?_⟩
        intro h6; dsimp only at h6; exact absurd h6 (by decide)
      · rw [if_neg h3] at h ⊢
        cases h
        refine ⟨_, rfl, rfl, rfl, rfl, identLoop_ge _ _, fun _ => rfl, ?_⟩
        intro h6; dsimp only at h6; exact absurd h6 (by decide)
  · rw [if_neg h1] at h ⊢
    by_cases h2 : isdigit (skipSpace a.LastChar a.input).1 = true
    · rw [if_pos h2] at h ⊢
      cases h
      obtain ⟨f1, f2, f3⟩ := lexNumber_frame a b (skipSpace a.LastChar a.input).1
        (skipSpace a.LastChar a.input).2
      refine ⟨_, rfl, rfl, f1, f2, lexNumber_ge _ _ _, ?_, fun _ => f3⟩
      intro h6; dsimp only at h6; exact absurd h6 (by decide)
    · rw [if_neg h2] at h ⊢
      by_cases h3 : (skipSpace a.LastChar a.input).1 = 35
      · have h4 : ¬ ((skipSpace a.LastChar a.input).1 = 35 ∧
            (commentLoop (skipSpace a.LastChar a.input).2).1 ≠ EOF) := by
          intro h4
          exact hr ⟨by simpa using h1, by simpa using h2, h3, h4.2⟩
        simp only [if_pos h3] at h ⊢
        rw [if_neg h4] at h ⊢
        have h5 : (commentLoop (skipSpace a.LastChar a.input).2).1 = EOF := by
          by_contra h5; exact h4 ⟨h3, h5⟩
        rw [if_pos h5] at h ⊢
        cases h
        refine ⟨_, rfl, rfl, rfl, rfl, commentLoop_ge _, ?_, ?_⟩
        · intro h6; dsimp only at h6; exact absurd h6 (by decide)
        · intro h6; dsimp only at h6; exact absurd h6 (by decide)
      · have h4 : ¬ ((skipSpace a.LastChar a.input).1 = 35 ∧
            (skipSpace a.LastChar a.input).1 ≠ EOF) := fun h4 => h3 h4.1
        simp only [if_neg h3] at h ⊢
        rw [if_neg h4] at h ⊢
        by_cases h5 : (skipSpace a.LastChar a.input).1 = EOF
        · rw [if_pos h5] at h ⊢
          cases h
          refine ⟨_, rfl, rfl, rfl, rfl, hge, ?_, ?_⟩
          · intro h6; dsimp only at h6; exact absurd h6 (by decide)
          · intro h6; dsimp only at h6; exact absurd h6 (by decide)
        · rw [if_neg h5] at h ⊢
          cases h
          refine ⟨_, rfl, rfl, rfl, rfl, getchar_ge _, ?_, ?_⟩
          · intro h6
            dsimp only at h6
            rw [h6] at hge
            exact absurd hge (by decide)
          · intro h6
            dsimp only at h6
            rw [h6] at hge
            exact absurd hge (by decide)

theorem gettokFuel_sim (n : Nat) : ∀ (a b : LexState),
    skipSpace b.LastChar b.input = skipSpace a.LastChar a.input →
    -1 ≤ (skipSpace a.LastChar a.input).1 →
    ∀ ra, gettokFuel n a = some ra → ∃ rb, gettokFuel n b = some rb ∧ TokSim ra rb := by
  induction n with
  | zero => intro a b _ _ ra h; simp [gettokFuel] at h
  | succ n ih =>
    intro a b hw hge ra h
    by_cases hr : recurses a
    · have hrb : recurses b := by
        unfold recurses at hr ⊢
        rw [hw]; exact hr
      rw [gettokFuel_rec _ _ hr] at h
      rw [gettokFuel_rec _ _ hrb]
      have e1 : (afterComment b).LastChar = (afterComment a).LastChar := by
        simp only [afterComment, hw]
      have e2 : (afterComment b).input = (afterComment a).input := by
        simp only [afterComment, hw]
      refine ih (afterComment a) (afterComment b) (by rw [e1, e2]) ?_ ra h
      exact skipSpace_ge _ _ (commentLoop_ge _)
    · have hrb : ¬ recurses b := by
        unfold recurses at hr ⊢
        rw [hw]; exact hr
      rw [gettokFuel_norec _ _ hr] at h
      rw [gettokFuel_norec _ _ hrb]
      exact gettokFuel_one_sim a b hw hge hr ra h

/-- The token delivered by `gettok` depends only on the lookahead and the unread input. -/
theorem gettok_sim (a b : LexState)
    (hw : skipSpace b.LastChar b.input = skipSpace a.LastChar a.input)
    (hge : -1 ≤ (skipSpace a.LastChar a.input).1) : TokSim (gettok a) (gettok b) := by
  obtain ⟨ra, hra⟩ := gettokFuel_isSome a
  obtain ⟨rb, hrb, hsim⟩ := gettokFuel_sim _ a b hw hge ra hra
  rw [gettok_eq_of_fuel hra, gettok_eq_of_fuel hrb]
  exact hsim

theorem getNextToken_sim {e : List String} {a b : PState} (h : Sim e a b) :
    Sim e (getNextToken a) (getNextToken b) := by
  obtain ⟨h1, h2, h3, _, _, _, h7⟩ := h
  obtain ⟨t1, t2, t3, t4, t5, t6⟩ :=
    gettok_sim a.lex b.lex (by rw [h1, h2]) (skipSpace_ge _ _ h3)
  exact ⟨t2, t3, t4, t1, t5, t6, h7⟩

theorem Sim_error {e : List String} {a b : PState} (h : Sim e a b) (msg : String) :
    Sim e { a with errs := a.errs ++ [msg] } { b with errs := b.errs ++ [msg] } := by
  obtain ⟨h1, h2, h3, h4, h5, h6, h7⟩ := h
  exact ⟨h1, h2, h3, h4, h5, h6, by simp [h7]⟩

theorem ResSim_ok {α : Type} {e : List String} {v : α} {s : PState} {r : Res α}
    (h : ResSim e (.ok v s) r) : ∃ t, r = .ok v t ∧ Sim e s t := by
  cases r with
  | ok w t => obtain ⟨h1, h2⟩ := h; subst h1; exact ⟨t, rfl, h2⟩
  | null t => exact absurd h (by simp [ResSim])
  | oof => exact absurd h (by simp [ResSim])

theorem ResSim_null {α : Type} {e : List String} {s : PState} {r : Res α}
    (h : ResSim e (.null s) r) : ∃ t, r = .null t ∧ Sim e s t := by
  cases r with
  | ok w t => exact absurd h (by simp [ResSim])
  | null t => exact ⟨t, rfl, h⟩
  | oof => exact absurd h (by simp [ResSim])

theorem ResSim_oof {α : Type} {e : List String} {r : Res α}
    (h : ResSim e (.oof) r) : r = .oof := by
  cases r with
  | ok w t => exact absurd h (by simp [ResSim])
  | null t => exact absurd h (by simp [ResSim])
  | oof => rfl

theorem GetTokPrecedence_sim {e : List String} {a b : PState} (h : Sim e a b) :
    GetTokPrecedence b = GetTokPrecedence a := by
  simp only [GetTokPrecedence, h.2.2.2.1]

theorem parse_sim (e : List String) (n : Nat) :
    (∀ a b, Sim e a b → ResSim e (ParsePrimary n a) (ParsePrimary n b)) ∧
    (∀ a b, Sim e a b → ResSim e (ParseParenExpr n a) (ParseParenExpr n b)) ∧
    (∀ A a b, Sim e a b → ResSim e (ParseArgs n A a) (ParseArgs n A b)) ∧
    (∀ a b, Sim e a b → a.CurTok = TOK_IDENT →
      ResSim e (ParseIdentExpr n a) (ParseIdentExpr n b)) ∧
    (∀ P L a b, Sim e a b → ResSim e (ParseBinOpRHS n P L a) (ParseBinOpRHS n P L b)) ∧
    (∀ a b, Sim e a b → ResSim e (ParseExpression n a) (ParseExpression n b)) := by
  induction n with
  | zero =>
    refine ⟨?_, ?_, ?_, ?_, ?_, ?_⟩
    · intro a b _; rw [ParsePrimary, ParsePrimary]; trivial
    · intro a b _; rw [ParseParenExpr, ParseParenExpr]; trivial
    · intro A a b _; rw [ParseArgs, ParseArgs]; trivial
    · intro a b _ _; rw [ParseIdentExpr, ParseIdentExpr]; trivial
    · intro P L a b _; rw [ParseBinOpRHS, ParseBinOpRHS]; trivial
    · intro a b _; rw [ParseExpression, ParseExpression]; trivial
  | succ n ih =>
    obtain ⟨ihP, ihPar, ihA, ihI, ihB, ihE⟩ := ih
    refine ⟨?_, ?_, ?_, ?_, ?_, ?_⟩
    · intro a b h
      have hct : b.CurTok = a.CurTok := h.2.2.2.1
      rw [ParsePrimary.eq_2 _ n, ParsePrimary.eq_2 _ n, hct]
      by_cases h1 : a.CurTok = TOK_IDENT
      · rw [if_pos h1, if_pos h1]; exact ihI a b h h1
      · rw [if_neg h1, if_neg h1]
        by_cases h2 : a.CurTok = TOK_NUMBER
        · rw [if_pos h2, if_pos h2]
          exact ⟨by rw [h.2.2.2.2.2.1 h2], getNextToken_sim h⟩
        · rw [if_neg h2, if_neg h2]
          by_cases h3 : a.CurTok = TOK_LP
          · rw [if_pos h3, if_pos h3]; exact ihPar a b h
          · rw [if_neg h3, if_neg h3]; exact Sim_error h _
    · intro a b h
      rw [ParseParenExpr.eq_2 _ n, ParseParenExpr.eq_2 _ n]
      have hsub := ihE _ _ (getNextToken_sim h)
      cases hA : ParseExpression n (getNextToken a) with
      | oof => rw [hA] at hsub; rw [ResSim_oof hsub]; trivial
      | null s1 =>
        rw [hA] at hsub; obtain ⟨t1, hB, hs⟩ := ResSim_null hsub; rw [hB]; exact hs
      | ok v s1 =>
        rw [hA] at hsub; obtain ⟨t1, hB, hs⟩ := ResSim_ok hsub; rw [hB]
        dsimp only
        rw [hs.2.2.2.1]
        by_cases h1 : s1.CurTok ≠ TOK_RP
        · rw [if_pos h1, if_pos h1]; exact Sim_error hs _
        · rw [if_neg h1, if_neg h1]; exact ⟨rfl, getNextToken_sim hs⟩
    · intro A a b h
      rw [ParseArgs.eq_2 _ _ n, ParseArgs.eq_2 _ _ n]
      have hsub := ihE _ _ h
      cases hA : ParseExpression n a with
      | oof => rw [hA] at hsub; rw [ResSim_oof hsub]; trivial
      | null s1 =>
        rw [hA] at hsub; obtain ⟨t1, hB, hs⟩ := ResSim_null hsub; rw [hB]; exact hs
      | ok v s1 =>
        rw [hA] at hsub; obtain ⟨t1, hB, hs⟩ := ResSim_ok hsub; rw [hB]
        dsimp only
        rw [hs.2.2.2.1]
        by_cases h1 : s1.CurTok = TOK_RP
        · rw [if_pos h1, if_pos h1]; exact ⟨rfl, hs⟩
        · rw [if_neg h1, if_neg h1]
          by_cases h2 : s1.CurTok ≠ 44
          · rw [if_pos h2, if_pos h2]; exact Sim_error hs _
          · rw [if_neg h2, if_neg h2]; exact ihA _ _ _ (getNextToken_sim hs)
    · intro a b h hid
      rw [ParseIdentExpr.eq_2 _ n, ParseIdentExpr.eq_2 _ n]
      dsimp only
      have hs1 := getNextToken_sim h
      have hs2 := getNextToken_sim hs1
      rw [hs1.2.2.2.1, hs2.2.2.2.1, h.2.2.2.2.1 hid]
      by_cases h1 : (getNextToken a).CurTok ≠ TOK_LP
      · rw [if_pos h1, if_pos h1]; exact ⟨rfl, hs1⟩
      · rw [if_neg h1, if_neg h1]
        by_cases h2 : (getNextToken (getNextToken a)).CurTok ≠ TOK_RP
        · rw [if_pos h2, if_pos h2]
          have hsub := ihA [] _ _ hs2
          cases hA : ParseArgs n [] (getNextToken (getNextToken a)) with
          | oof => rw [hA] at hsub; rw [ResSim_oof hsub]; trivial
          | null s1 =>
            rw [hA] at hsub; obtain ⟨t1, hB, hs⟩ := ResSim_null hsub; rw [hB]; exact hs
          | ok v s1 =>
            rw [hA] at hsub; obtain ⟨t1, hB, hs⟩ := ResSim_ok hsub; rw [hB]
            exact ⟨rfl, getNextToken_sim hs⟩
        · rw [if_neg h2, if_neg h2]; exact ⟨rfl, getNextToken_sim hs2⟩
    · intro P L a b h
      rw [ParseBinOpRHS.eq_2 _ _ _ n, ParseBinOpRHS.eq_2 _ _ _ n]
      rw [GetTokPrecedence_sim h, h.2.2.2.1]
      by_cases h1 : GetTokPrecedence a < P
      · rw [if_pos h1, if_pos h1]; exact ⟨rfl, h⟩
      · rw [if_neg h1, if_neg h1]
        dsimp only
        have hsub := ihP _ _ (getNextToken_sim h)
        cases hA : ParsePrimary n (getNextToken a) with
        | oof => rw [hA] at hsub; rw [ResSim_oof hsub]; trivial
        | null s1 =>
          rw [hA] at hsub; obtain ⟨t1, hB, hs⟩ := ResSim_null hsub; rw [hB]; exact hs
        | ok v s1 =>
          rw [hA] at hsub; obtain ⟨t1, hB, hs⟩ := ResSim_ok hsub; rw [hB]
          dsimp only
          rw [GetTokPrecedence_sim hs]
          by_cases h2 : GetTokPrecedence a < GetTokPrecedence s1
          · rw [if_pos h2, if_pos h2]
            have hsub2 := ihB (GetTokPrecedence a + 1) v _ _ hs
            cases hA2 : ParseBinOpRHS n (GetTokPrecedence a + 1) v s1 with
            | oof => rw [hA2] at hsub2; rw [ResSim_oof hsub2]; trivial
            | null s2 =>
              rw [hA2] at hsub2; obtain ⟨t2, hB2, hs2⟩ := ResSim_null hsub2
              rw [hB2]; exact hs2
            | ok v2 s2 =>
              rw [hA2] at hsub2; obtain ⟨t2, hB2, hs2⟩ := ResSim_ok hsub2
              rw [hB2]; exact ihB _ _ _ _ hs2
          · rw [if_neg h2, if_neg h2]; exact ihB _ _ _ _ hs
    · intro a b h
      rw [ParseExpression.eq_2 _ n, ParseExpression.eq_2 _ n]
      have hsub := ihP _ _ h
      cases hA : ParsePrimary n a with
      | oof => rw [hA] at hsub; rw [ResSim_oof hsub]; trivial
      | null s1 =>
        rw [hA] at hsub; obtain ⟨t1, hB, hs⟩ := ResSim_null hsub; rw [hB]; exact hs
      | ok v s1 =>
        rw [hA] at hsub; obtain ⟨t1, hB, hs⟩ := ResSim_ok hsub; rw [hB]
        exact ihB _ _ _ _ hs

theorem protoArgs_sim (e : List String) (n : Nat) : ∀ (Acc : List (List Char)) (a b : PState),
    Sim e a b →
    (protoArgs n Acc a = none → protoArgs n Acc b = none) ∧
    (∀ A a2, protoArgs n Acc a = some (A, a2) →
      ∃ b2, protoArgs n Acc b = some (A, b2) ∧ Sim e a2 b2) := by
  induction n with
  | zero =>
    intro Acc a b _
    exact ⟨fun _ => rfl, fun A a2 h => by simp [protoArgs] at h⟩
  | succ n ih =>
    intro Acc a b h
    have hs := getNextToken_sim h
    rw [protoArgs, protoArgs, hs.2.2.2.1]
    by_cases h1 : (getNextToken a).CurTok = TOK_IDENT
    · rw [if_pos h1, if_pos h1, hs.2.2.2.2.1 h1]
      exact ih _ _ _ hs
    · rw [if_neg h1, if_neg h1]
      refine ⟨fun hc => Option.noConfusion hc, fun A a2 hc => ?_⟩
      simp only [Option.some.injEq, Prod.mk.injEq] at hc
      obtain ⟨hA, ha2⟩ := hc
      subst hA ha2
      exact ⟨_, rfl, hs⟩

theorem ParsePrototype_sim {e : List String} (n : Nat) {a b : PState} (h : Sim e a b) :
    ResSim e (ParsePrototype n a) (ParsePrototype n b) := by
  unfold ParsePrototype
  dsimp only
  have hs := getNextToken_sim h
  rw [h.2.2.2.1, hs.2.2.2.1]
  by_cases h1 : a.CurTok ≠ TOK_IDENT
  · rw [if_pos h1, if_pos h1]; exact Sim_error h _
  · rw [if_neg h1, if_neg h1]
    by_cases h2 : (getNextToken a).CurTok ≠ TOK_LP
    · rw [if_pos h2, if_pos h2]; exact Sim_error hs _
    · rw [if_neg h2, if_neg h2]
      obtain ⟨hnone, hsome⟩ := protoArgs_sim e n [] _ _ hs
      cases hA : protoArgs n [] (getNextToken a) with
      | none => rw [hnone hA]; trivial
      | some r =>
        obtain ⟨A, a2⟩ := r
        obtain ⟨b2, hB, hs2⟩ := hsome A a2 hA
        rw [hB]
        dsimp only
        rw [hs2.2.2.2.1]
        by_cases h3 : a2.CurTok ≠ TOK_RP
        · rw [if_pos h3, if_pos h3]; exact Sim_error hs2 _
        · rw [if_neg h3, if_neg h3]
          have hid : a.CurTok = TOK_IDENT := by simpa using h1
          exact ⟨by rw [h.2.2.2.2.1 hid], getNextToken_sim hs2⟩

theorem ParseDefinition_sim {e : List String} (n : Nat) {a b : PState} (h : Sim e a b) :
    ResSim e (ParseDefinition n a) (ParseDefinition n b) := by
  unfold ParseDefinition
  have hsub := ParsePrototype_sim n (getNextToken_sim h)
  cases hA : ParsePrototype n (getNextToken a) with
  | oof => rw [hA] at hsub; rw [ResSim_oof hsub]; trivial
  | null s1 =>
    rw [hA] at hsub; obtain ⟨t1, hB, hs⟩ := ResSim_null hsub; rw [hB]; exact hs
  | ok v s1 =>
    rw [hA] at hsub; obtain ⟨t1, hB, hs⟩ := ResSim_ok hsub; rw [hB]
    dsimp only
    have hsub2 := (parse_sim e n).2.2.2.2.2 _ _ hs
    cases hA2 : ParseExpression n s1 with
    | oof => rw [hA2] at hsub2; rw [ResSim_oof hsub2]; trivial
    | null s2 =>
      rw [hA2] at hsub2; obtain ⟨t2, hB2, hs2⟩ := ResSim_null hsub2; rw [hB2]; exact hs2
    | ok v2 s2 =>
      rw [hA2] at hsub2; obtain ⟨t2, hB2, hs2⟩ := ResSim_ok hsub2; rw [hB2]
      exact ⟨rfl, hs2⟩

theorem ParseExtern_sim {e : List String} (n : Nat) {a b : PState} (h : Sim e a b) :
    ResSim e (ParseExtern n a) (ParseExtern n b) :=
  ParsePrototype_sim n (getNextToken_sim h)

theorem ParseTopLevelExpr_sim {e : List String} (n : Nat) {a b : PState} (h : Sim e a b) :
    ResSim e (ParseTopLevelExpr n a) (ParseTopLevelExpr n b) := by
  unfold ParseTopLevelExpr
  have hsub := (parse_sim e n).2.2.2.2.2 _ _ h
  cases hA : ParseExpression n a with
  | oof => rw [hA] at hsub; rw [ResSim_oof hsub]; trivial
  | null s1 =>
    rw [hA] at hsub; obtain ⟨t1, hB, hs⟩ := ResSim_null hsub; rw [hB]; exact hs
  | ok v s1 =>
    rw [hA] at hsub; obtain ⟨t1, hB, hs⟩ := ResSim_ok hsub; rw [hB]
    exact ⟨rfl, hs⟩

theorem HandleDefinition_sim {e : List String} {h : List TopNode} (n : Nat) {d1 d2 : DState}
    (hd : DSim e h d1 d2) :
    OptDSim e h (HandleDefinition n d1) (HandleDefinition n d2) := by
  unfold HandleDefinition
  have hsub := ParseDefinition_sim n hd.1
  cases hA : ParseDefinition n d1.p with
  | oof => rw [hA] at hsub; rw [ResSim_oof hsub]; trivial
  | null s1 =>
    rw [hA] at hsub; obtain ⟨t1, hB, hs⟩ := ResSim_null hsub; rw [hB]
    exact ⟨getNextToken_sim hs, hd.2⟩
  | ok v s1 =>
    rw [hA] at hsub; obtain ⟨t1, hB, hs⟩ := ResSim_ok hsub; rw [hB]
    exact ⟨hs, by simp [hd.2]⟩

theorem HandleExtern_sim {e : List String} {h : List TopNode} (n : Nat) {d1 d2 : DState}
    (hd : DSim e h d1 d2) :
    OptDSim e h (HandleExtern n d1) (HandleExtern n d2) := by
  unfold HandleExtern
  have hsub := ParseExtern_sim n hd.1
  cases hA : ParseExtern n d1.p with
  | oof => rw [hA] at hsub; rw [ResSim_oof hsub]; trivial
  | null s1 =>
    rw [hA] at hsub; obtain ⟨t1, hB, hs⟩ := ResSim_null hsub; rw [hB]
    exact ⟨getNextToken_sim hs, hd.2⟩
  | ok v s1 =>
    rw [hA] at hsub; obtain ⟨t1, hB, hs⟩ := ResSim_ok hsub; rw [hB]
    exact ⟨hs, by simp [hd.2]⟩

theorem HandleTopLevelExpression_sim {e : List String} {h : List TopNode} (n : Nat)
    {d1 d2 : DState} (hd : DSim e h d1 d2) :
    OptDSim e h (HandleTopLevelExpression n d1) (HandleTopLevelExpression n d2) := by
  unfold HandleTopLevelExpression
  have hsub := ParseTopLevelExpr_sim n hd.1
  cases hA : ParseTopLevelExpr n d1.p with
  | oof => rw [hA] at hsub; rw [ResSim_oof hsub]; trivial
  | null s1 =>
    rw [hA] at hsub; obtain ⟨t1, hB, hs⟩ := ResSim_null hsub; rw [hB]
    exact ⟨getNextToken_sim hs, hd.2⟩
  | ok v s1 =>
    rw [hA] at hsub; obtain ⟨t1, hB, hs⟩ := ResSim_ok hsub; rw [hB]
    exact ⟨hs, by simp [hd.2]⟩

theorem OptDSim_bind {e : List String} {h : List TopNode} {o1 o2 : Option DState}
    {f : DState → Option DState} (ho : OptDSim e h o1 o2)
    (hf : ∀ d1 d2, DSim e h d1 d2 → OptDSim e h (f d1) (f d2)) :
    OptDSim e h (o1.bind f) (o2.bind f) := by
  cases o1 with
  | none =>
    cases o2 with
    | none => trivial
    | some d2 => exact absurd ho (by simp [OptDSim])
  | some d1 =>
    cases o2 with
    | none => exact absurd ho (by simp [OptDSim])
    | some d2 => exact hf d1 d2 ho

/-- Stale tokenizer variables, earlier messages and earlier hand-overs do not influence
what the driver does from a state on. -/
theorem MainLoop_sim (e : List String) (h : List TopNode) (n : Nat) :
    ∀ d1 d2, DSim e h d1 d2 → OptDSim e h (MainLoop n d1) (MainLoop n d2) := by
  induction n with
  | zero => intro d1 d2 _; rw [MainLoop, MainLoop]; trivial
  | succ n ih =>
    intro d1 d2 hd
    rw [MainLoop, MainLoop, hd.1.2.2.2.1]
    by_cases h1 : d1.p.CurTok = TOK_EOF
    · rw [if_pos h1, if_pos h1]; exact hd
    · rw [if_neg h1, if_neg h1]
      by_cases h2 : d1.p.CurTok = 59
      · rw [if_pos h2, if_pos h2]
        exact ih _ _ ⟨getNextToken_sim hd.1, hd.2⟩
      · rw [if_neg h2, if_neg h2]
        by_cases h3 : d1.p.CurTok = TOK_DEF
        · rw [if_pos h3, if_pos h3]
          exact OptDSim_bind (HandleDefinition_sim n hd) ih
        · rw [if_neg h3, if_neg h3]
          by_cases h4 : d1.p.CurTok = TOK_EXTERN
          · rw [if_pos h4, if_pos h4]
            exact OptDSim_bind (HandleExtern_sim n hd) ih
          · rw [if_neg h4, if_neg h4]
            exact OptDSim_bind (HandleTopLevelExpression_sim n hd) ih

/-! ## More fuel never changes what the driver does -/

theorem ParsePrototype_succ (n : Nat) (s : PState) (h : ParsePrototype n s ≠ .oof) :
    ParsePrototype (n + 1) s = ParsePrototype n s := by
  unfold ParsePrototype at h ⊢
  dsimp only at h ⊢
  by_cases h1 : s.CurTok ≠ TOK_IDENT
  · rw [if_pos h1, if_pos h1]
  · rw [if_neg h1] at h; rw [if_neg h1, if_neg h1]
    by_cases h2 : (getNextToken s).CurTok ≠ TOK_LP
    · rw [if_pos h2, if_pos h2]
    · rw [if_neg h2] at h; rw [if_neg h2, if_neg h2]
      cases hA : protoArgs n [] (getNextToken s) with
      | none => rw [hA] at h; exact absurd rfl h
      | some r => rw [protoArgs_succ _ _ _ _ hA]

theorem ParseDefinition_succ (n : Nat) (s : PState) (h : ParseDefinition n s ≠ .oof) :
    ParseDefinition (n + 1) s = ParseDefinition n s := by
  unfold ParseDefinition at h ⊢
  have hP : ParsePrototype n (getNextToken s) ≠ .oof := by
    intro hP; rw [hP] at h; exact h rfl
  rw [ParsePrototype_succ _ _ hP]
  cases hA : ParsePrototype n (getNextToken s) with
  | oof => exact absurd hA hP
  | null s1 => rfl
  | ok v s1 =>
    rw [hA] at h
    dsimp only at h ⊢
    have hE : ParseExpression n s1 ≠ .oof := by
      intro hE; rw [hE] at h; exact h rfl
    rw [(parse_succ n).2.2.2.2.2 _ hE]

theorem ParseTopLevelExpr_succ (n : Nat) (s : PState) (h : ParseTopLevelExpr n s ≠ .oof) :
    ParseTopLevelExpr (n + 1) s = ParseTopLevelExpr n s := by
  unfold ParseTopLevelExpr at h ⊢
  have hE : ParseExpression n s ≠ .oof := by
    intro hE; rw [hE] at h; exact h rfl
  rw [(parse_succ n).2.2.2.2.2 _ hE]

theorem HandleDefinition_succ (n : Nat) (d r : DState) (h : HandleDefinition n d = some r) :
    HandleDefinition (n + 1) d = some r := by
  unfold HandleDefinition at h ⊢
  have hP : ParseDefinition n d.p ≠ .oof := by
    intro hP; rw [hP] at h; cases h
  rw [ParseDefinition_succ _ _ hP]; exact h

theorem HandleExtern_succ (n : Nat) (d r : DState) (h : HandleExtern n d = some r) :
    HandleExtern (n + 1) d = some r := by
  unfold HandleExtern ParseExtern at h ⊢
  have hP : ParsePrototype n (getNextToken d.p) ≠ .oof := by
    intro hP; rw [hP] at h; cases h
  rw [ParsePrototype_succ _ _ hP]; exact h

theorem HandleTopLevelExpression_succ (n : Nat) (d r : DState)
    (h : HandleTopLevelExpression n d = some r) :
    HandleTopLevelExpression (n + 1) d = some r := by
  unfold HandleTopLevelExpression at h ⊢
  have hP : ParseTopLevelExpr n d.p ≠ .oof := by
    intro hP; rw [hP] at h; cases h
  rw [ParseTopLevelExpr_succ _ _ hP]; exact h

theorem bind_succ {f g h1 h2 : DState → Option DState} {d r : DState}
    (hf : ∀ d r, f d = some r → g d = some r) (hh : ∀ d r, h1 d = some r → h2 d = some r)
    (h : (f d).bind h1 = some r) : (g d).bind h2 = some r := by
  cases hA : f d with
  | none => rw [hA] at h; cases h
  | some m =>
    rw [hA] at h
    rw [hf d m hA]
    exact hh m r h

theorem MainLoop_succ (n : Nat) : ∀ (d r : DState), MainLoop n d = some r →
    MainLoop (n + 1) d = some r := by
  induction n with
  | zero => intro d r h; simp [MainLoop] at h
  | succ n ih =>
    intro d r h
    rw [MainLoop] at h ⊢
    by_cases h1 : d.p.CurTok = TOK_EOF
    · rw [if_pos h1] at h ⊢; exact h
    · rw [if_neg h1] at h ⊢
      by_cases h2 : d.p.CurTok = 59
      · rw [if_pos h2] at h ⊢; exact ih _ _ h
      · rw [if_neg h2] at h ⊢
        by_cases h3 : d.p.CurTok = TOK_DEF
        · rw [if_pos h3] at h ⊢
          exact bind_succ (HandleDefinition_succ n) ih h
        · rw [if_neg h3] at h ⊢
          by_cases h4 : d.p.CurTok = TOK_EXTERN
          · rw [if_pos h4] at h ⊢
            exact bind_succ (HandleExtern_succ n) ih h
          · rw [if_neg h4] at h ⊢
            exact bind_succ (HandleTopLevelExpression_succ n) ih h

theorem MainLoop_mono {n m : Nat} (hnm : n ≤ m) (d r : DState) (h : MainLoop n d = some r) :
    MainLoop m d = some r := by
  induction hnm with
  | refl => exact h
  | step _ ih => exact MainLoop_succ _ _ _ ih

/-! ## Single-character tokens -/

theorem skipSpace_of_not_space (last : Int) (inp : List Char) (h : isspace last = false) :
    skipSpace last inp = (last, inp) := by
  cases inp <;> simp [skipSpace, h]

/-- A character that starts no identifier, number or comment is returned as its own token
and the character after it becomes the lookahead. -/
theorem gettok_char (l : LexState) (w : Int) (rest : List Char)
    (hw : skipSpace l.LastChar l.input = (w, rest))
    (h1 : isalpha w = false) (h2 : isdigit w = false) (h3 : w ≠ 35) (h4 : w ≠ EOF) :
    gettok l = (w, { l with LastChar := (getchar rest).1, input := (getchar rest).2 }) := by
  apply gettok_eq_of_fuel (n := 1)
  rw [gettokFuel]
  dsimp only
  rw [hw]
  dsimp only
  have h5 : ¬ (w = 35 ∧ w ≠ EOF) := fun h => h3 h.1
  simp only [h1, h2, if_neg h3, Bool.false_eq_true, if_false, if_neg h5, if_neg h4]

theorem getNextToken_of_fuel {s : PState} {r : Int × LexState} {n : Nat}
    (h : gettokFuel n s.lex = some r) :
    getNextToken s = { s with lex := r.2, CurTok := r.1 } := by
  simp [getNextToken, gettok_eq_of_fuel h]

theorem skipSpace_getchar (cs : List Char) :
    skipSpace (getchar cs).1 (getchar cs).2 = skipSpace 32 cs := by
  cases cs with
  | nil => simp [getchar, skipSpace, isspace, EOF]
  | cons c cs => simp [getchar, skipSpace, isspace]

/-- After a single-character token the tokenizer is where it is at the start of a run on
the rest of the input. -/
theorem Sim_start (cs : List Char) (tok : Int) (l : LexState) (hl : l.LastChar = (getchar cs).1)
    (hi : l.input = (getchar cs).2) (e : List String) :
    Sim e (start cs) (getNextToken { lex := l, CurTok := tok, errs := e }) := by
  have hw : skipSpace l.LastChar l.input
      = skipSpace (LexState.init cs).LastChar (LexState.init cs).input := by
    rw [hl, hi, skipSpace_getchar]; rfl
  obtain ⟨t1, t2, t3, t4, t5, t6⟩ :=
    gettok_sim (LexState.init cs) l hw (skipSpace_ge _ _ (by simp [LexState.init]))
  exact ⟨t2, t3, t4, t1, t5, t6, by simp [start, getNextToken]⟩

/-! ## Recovery after an unterminated parenthesis -/

/-- The first five tokens of `(1+2;` followed by any input, and the state in which the `;`
is the current token. -/
theorem paren_prefix (cs : List Char) :
    tokens 5 (start ("(1+2;".toList ++ cs))
      = [.code TOK_LP, .number ⟨['1']⟩, .code 43, .number ⟨['2']⟩, .code 59] ∧
    getNextToken^[4] (start ("(1+2;".toList ++ cs))
      = ⟨⟨(getchar cs).1, (getchar cs).2, [], ⟨['2']⟩, []⟩, 59, []⟩ := by
  have h0 : start ("(1+2;".toList ++ cs)
      = ⟨⟨49, '+' :: '2' :: ';' :: cs, [], ⟨[]⟩, []⟩, 40, []⟩ :=
    getNextToken_of_fuel (s := ⟨LexState.init ("(1+2;".toList ++ cs), 0, []⟩)
      (r := (40, ⟨49, '+' :: '2' :: ';' :: cs, [], ⟨[]⟩, []⟩)) (n := 1) rfl
  have h1 : getNextToken ⟨⟨49, '+' :: '2' :: ';' :: cs, [], ⟨[]⟩, []⟩, 40, []⟩
      = ⟨⟨43, '2' :: ';' :: cs, [], ⟨['1']⟩, []⟩, TOK_NUMBER, []⟩ :=
    getNextToken_of_fuel (s := ⟨⟨49, '+' :: '2' :: ';' :: cs, [], ⟨[]⟩, []⟩, 40, []⟩)
      (r := (TOK_NUMBER, ⟨43, '2' :: ';' :: cs, [], ⟨['1']⟩, []⟩)) (n := 1) rfl
  have h2 : getNextToken ⟨⟨43, '2' :: ';' :: cs, [], ⟨['1']⟩, []⟩, TOK_NUMBER, []⟩
      = ⟨⟨50, ';' :: cs, [], ⟨['1']⟩, []⟩, 43, []⟩ :=
    getNextToken_of_fuel (s := ⟨⟨43, '2' :: ';' :: cs, [], ⟨['1']⟩, []⟩, TOK_NUMBER, []⟩)
      (r := (43, ⟨50, ';' :: cs, [], ⟨['1']⟩, []⟩)) (n := 1) rfl
  have h3 : getNextToken ⟨⟨50, ';' :: cs, [], ⟨['1']⟩, []⟩, 43, []⟩
      = ⟨⟨59, cs, [], ⟨['2']⟩, []⟩, TOK_NUMBER, []⟩ :=
    getNextToken_of_fuel (s := ⟨⟨50, ';' :: cs, [], ⟨['1']⟩, []⟩, 43, []⟩)
      (r := (TOK_NUMBER, ⟨59, cs, [], ⟨['2']⟩, []⟩)) (n := 1) rfl
  have h4 : getNextToken ⟨⟨59, cs, [], ⟨['2']⟩, []⟩, TOK_NUMBER, []⟩
      = ⟨⟨(getchar cs).1, (getchar cs).2, [], ⟨['2']⟩, []⟩, 59, []⟩ := by
    simp only [getNextToken]
    rw [gettok_char _ 59 cs (skipSpace_of_not_space 59 cs (by decide)) (by decide) (by decide)
      (by decide) (by decide)]
  refine ⟨?_, ?_⟩
  · simp only [tokens, h0, h1, h2, h3, h4]
    rfl
  · simp only [Function.iterate_succ_apply, Function.iterate_zero, id, h0, h1, h2, h3, h4]

/-- The driver returns only with end of input as the current token. -/
theorem MainLoop_eof (n : Nat) : ∀ (d r : DState), MainLoop n d = some r →
    r.p.CurTok = TOK_EOF := by
  induction n with
  | zero => intro d r h; simp [MainLoop] at h
  | succ n ih =>
    intro d r h
    rw [MainLoop] at h
    by_cases h1 : d.p.CurTok = TOK_EOF
    · rw [if_pos h1] at h; cases h; exact h1
    · rw [if_neg h1] at h
      by_cases h2 : d.p.CurTok = 59
      · rw [if_pos h2] at h; exact ih _ _ h
      · rw [if_neg h2] at h
        have hb : ∀ (o : Option DState), o.bind (MainLoop n) = some r → r.p.CurTok = TOK_EOF := by
          intro o ho
          cases o with
          | none => cases ho
          | some m => exact ih _ _ ho
        by_cases h3 : d.p.CurTok = TOK_DEF
        · rw [if_pos h3] at h; exact hb _ h
        · rw [if_neg h3] at h
          by_cases h4 : d.p.CurTok = TOK_EXTERN
          · rw [if_pos h4] at h; exact hb _ h
          · rw [if_neg h4] at h; exact hb _ h

/-- One driver iteration on a token that starts no construct: one message, nothing handed
over, exactly that token skipped. -/
theorem MainLoop_skip (d : DState) (n : Nat)
    (h0 : d.p.CurTok ≠ TOK_EOF) (h1 : d.p.CurTok ≠ 59) (h2 : d.p.CurTok ≠ TOK_DEF)
    (h3 : d.p.CurTok ≠ TOK_EXTERN) (h4 : d.p.CurTok ≠ TOK_IDENT)
    (h5 : d.p.CurTok ≠ TOK_NUMBER) (h6 : d.p.CurTok ≠ TOK_LP) :
    MainLoop (n + 3) d = MainLoop (n + 2)
      { p := getNextToken { d.p with
          errs := d.p.errs ++ ["unknown token when expecting an expression"] },
        handed := d.handed } := by
  rw [MainLoop, if_neg h0, if_neg h1, if_neg h2, if_neg h3]
  unfold HandleTopLevelExpression ParseTopLevelExpr
  rw [ParseExpression.eq_2, ParsePrimary.eq_2, if_neg h4, if_neg h5, if_neg h6]
  rfl

/-- When the tokenizer stands where a run on `cs` starts, the driver continues as that run:
same nodes, same messages after those already written. -/
theorem resume_as_fresh (cs : List Char) (tok : Int) (l : LexState) (e : List String)
    (hl : l.LastChar = (getchar cs).1) (hi : l.input = (getchar cs).2)
    (fuel : Nat) (d : DState) (h : run fuel cs = some d) (m : Nat) (hm : fuel ≤ m) :
    ∃ d2, MainLoop m { p := getNextToken { lex := l, CurTok := tok, errs := e }, handed := [] }
        = some d2 ∧
      d2.handed = d.handed ∧ d2.p.errs = e ++ d.p.errs ∧ d2.p.CurTok = TOK_EOF := by
  have hsim := MainLoop_sim e [] m { p := start cs, handed := [] }
    { p := getNextToken { lex := l, CurTok := tok, errs := e }, handed := [] }
    ⟨Sim_start cs tok l hl hi e, rfl⟩
  have hd : MainLoop m { p := start cs, handed := [] } = some d := MainLoop_mono hm _ _ h
  rw [hd] at hsim
  cases hr : MainLoop m
      { p := getNextToken { lex := l, CurTok := tok, errs := e }, handed := [] } with
  | none => rw [hr] at hsim; exact absurd hsim (by simp [OptDSim])
  | some d2 =>
    rw [hr] at hsim
    obtain ⟨hs, hh⟩ := hsim
    refine ⟨d2, rfl, by simpa using hh, hs.2.2.2.2.2.2, ?_⟩
    rw [hs.2.2.2.1]
    exact MainLoop_eof _ _ _ hd

/-- C6, counterexample: when the definition `def foo(x y) x+y` directly follows the
unterminated `(1+2`, the recovery discards the token `def`; the driver then hands over an
anonymous function with body `x+y` (after two more errors) instead of the definition
of `foo` that it hands over when the definition is parsed on its own. -/
theorem C6_counterexample :
    (run 20 "def foo(x y) x+y".toList).map (fun d => (d.handed, d.p.errs))
      = some ([.function ⟨⟨['f', 'o', 'o'], [['x'], ['y']]⟩,
                  .Binary '+' (.Variable ['x']) (.Variable ['y'])⟩], []) ∧
    (run 20 "(1+2 def foo(x y) x+y".toList).map (fun d => (d.handed, d.p.errs))
      = some ([.function ⟨⟨[], []⟩, .Binary '+' (.Variable ['x']) (.Variable ['y'])⟩],
          ["expected ')'", "Expected ')' or ',' in argument list",
           "unknown token when expecting an expression"]) ∧
    ([TopNode.function ⟨⟨[], []⟩, .Binary '+' (.Variable ['x']) (.Variable ['y'])⟩]
      ≠ [TopNode.function ⟨⟨['f', 'o', 'o'], [['x'], ['y']]⟩,
                  .Binary '+' (.Variable ['x']) (.Variable ['y'])⟩]) := by
  refine ⟨by rfl, by rfl, ?_⟩
  intro h
  simp at h

/-- When the run on `cs` returns `d`, the run on `(1+2;` followed by `cs` returns with
the nodes of `d` and the message `expected ')'` in front of the messages of `d`. -/
theorem separator_of_run (cs : List Char) (fuel : Nat) (d : DState)
    (h : run fuel cs = some d) :
    ∃ N, ∀ fuel2, N ≤ fuel2 → ∃ d2, run fuel2 ("(1+2;".toList ++ cs) = some d2 ∧
      d2.handed = d.handed ∧ d2.p.errs = "expected ')'" :: d.p.errs ∧
      d2.p.CurTok = TOK_EOF := by
  obtain ⟨htoks, hP4⟩ := paren_prefix cs
  simp only [tokens, List.cons.injEq, and_true] at htoks
  obtain ⟨t0, t1, t2, t3, t4⟩ := htoks
  have c0 := curTok_code t0
  obtain ⟨c1, _⟩ := curTok_number t1
  have c2 := curTok_code t2
  obtain ⟨c3, v3⟩ := curTok_number t3
  have c4 := curTok_code t4
  have hseq : OpNumSeq (getNextToken (getNextToken (start ("(1+2;".toList ++ cs))))
      [('+', ⟨['2']⟩)] :=
    ⟨c2, c3, v3, by
      show GetTokPrecedence _ = -1
      unfold GetTokPrecedence
      rw [c4]
      rfl⟩
  obtain ⟨t, N, hrun, _, _⟩ := expression_seq (getNextToken (start ("(1+2;".toList ++ cs)))
    [('+', ⟨['2']⟩)] (fun p hp => by
      simp only [List.mem_singleton] at hp
      subst hp
      exact isBinop_of_plus_minus_times (Or.inl rfl)) c1 hseq
  refine ⟨max N fuel + 4, fun fuel2 hf => ?_⟩
  obtain ⟨f, rfl⟩ : ∃ f, fuel2 = f + 4 := ⟨fuel2 - 4, by omega⟩
  have hfN : N ≤ f := by have := Nat.le_max_left N fuel; omega
  have hff : fuel ≤ f + 3 := by have := Nat.le_max_right N fuel; omega
  have hpar : ParseExpression f (getNextToken (start ("(1+2;".toList ++ cs)))
      = .ok t ⟨⟨(getchar cs).1, (getchar cs).2, [], ⟨['2']⟩, []⟩, 59, []⟩ := by
    rw [hrun f hfN, ← hP4]
    rfl
  have hstep : MainLoop (f + 4) { p := start ("(1+2;".toList ++ cs), handed := [] }
      = MainLoop (f + 3)
          ⟨getNextToken ⟨⟨(getchar cs).1, (getchar cs).2, [], ⟨['2']⟩, []⟩, 59,
            ["expected ')'"]⟩, []⟩ := by
    rw [MainLoop]
    dsimp only
    rw [if_neg (by rw [c0]; decide), if_neg (by rw [c0]; decide), if_neg (by rw [c0]; decide),
      if_neg (by rw [c0]; decide)]
    unfold HandleTopLevelExpression ParseTopLevelExpr
    dsimp only
    rw [ParseExpression.eq_2, ParsePrimary.eq_2, if_neg (by rw [c0]; decide),
      if_neg (by rw [c0]; decide), if_pos c0, ParseParenExpr.eq_2, hpar]
    rfl
  obtain ⟨d2, hd2, hh, he, hc⟩ := resume_as_fresh cs 59
    ⟨(getchar cs).1, (getchar cs).2, [], ⟨['2']⟩, []⟩ ["expected ')'"] rfl rfl fuel d h
    (f + 3) hff
  exact ⟨d2, by unfold run; rw [hstep, hd2], hh, he, hc⟩

/-- The first iteration of the loop on `(1+2;` followed by `cs`: the parse of the
top-level expression stops at the fifth token, the `;`, with the one message
`expected ')'`, and the next iteration starts after one more `getNextToken`, with nothing
handed over. -/
theorem paren_first_iteration (cs : List Char) :
    (getNextToken^[4] (start ("(1+2;".toList ++ cs))).CurTok = 59 ∧
    ∃ N, ∀ n, N ≤ n →
      ParseTopLevelExpr n (start ("(1+2;".toList ++ cs))
        = .null { getNextToken^[4] (start ("(1+2;".toList ++ cs)) with
            errs := ["expected ')'"] } ∧
      MainLoop (n + 1) { p := start ("(1+2;".toList ++ cs), handed := [] }
        = MainLoop n { p := getNextToken { getNextToken^[4] (start ("(1+2;".toList ++ cs)) with
            errs := ["expected ')'"] }, handed := [] } := by
  obtain ⟨htoks, hP4⟩ := paren_prefix cs
  simp only [tokens, List.cons.injEq, and_true] at htoks
  obtain ⟨t0, t1, t2, t3, t4⟩ := htoks
  have c0 := curTok_code t0
  obtain ⟨c1, _⟩ := curTok_number t1
  have c2 := curTok_code t2
  obtain ⟨c3, v3⟩ := curTok_number t3
  have c4 := curTok_code t4
  have hseq : OpNumSeq (getNextToken (getNextToken (start ("(1+2;".toList ++ cs))))
      [('+', ⟨['2']⟩)] :=
    ⟨c2, c3, v3, by
      show GetTokPrecedence _ = -1
      unfold GetTokPrecedence
      rw [c4]
      rfl⟩
  obtain ⟨t, N, hrun, _, _⟩ := expression_seq (getNextToken (start ("(1+2;".toList ++ cs)))
    [('+', ⟨['2']⟩)] (fun p hp => by
      simp only [List.mem_singleton] at hp
      subst hp
      exact isBinop_of_plus_minus_times (Or.inl rfl)) c1 hseq
  refine ⟨by rw [hP4], N + 3, fun n hn => ?_⟩
  obtain ⟨f, rfl⟩ : ∃ f, n = f + 3 := ⟨n - 3, by omega⟩
  have hfN : N ≤ f := by omega
  have hpar : ParseExpression f (getNextToken (start ("(1+2;".toList ++ cs)))
      = .ok t ⟨⟨(getchar cs).1, (getchar cs).2, [], ⟨['2']⟩, []⟩, 59, []⟩ := by
    rw [hrun f hfN, ← hP4]
    rfl
  have hPT : ParseTopLevelExpr (f + 3) (start ("(1+2;".toList ++ cs))
      = .null ⟨⟨(getchar cs).1, (getchar cs).2, [], ⟨['2']⟩, []⟩, 59, ["expected ')'"]⟩ := by
    unfold ParseTopLevelExpr
    rw [ParseExpression.eq_2, ParsePrimary.eq_2, if_neg (by rw [c0]; decide),
      if_neg (by rw [c0]; decide), if_pos c0, ParseParenExpr.eq_2, hpar]
    rfl
  rw [hP4]
  refine ⟨hPT, ?_⟩
  rw [MainLoop]
  dsimp only
  rw [if_neg (by rw [c0]; decide), if_neg (by rw [c0]; decide), if_neg (by rw [c0]; decide),
    if_neg (by rw [c0]; decide)]
  unfold HandleTopLevelExpression
  dsimp only
  rw [hPT]
  rfl

end Toy

/-! ## Parse procedures advance only over consumable tokens -/

namespace Toy

theorem Consumed.trans {a b c : PState} (h1 : Consumed a b) (h2 : Consumed b c) :
    Consumed a c := by
  induction h1 with
  | refl s => exact h2
  | next hc _ ih => exact Consumed.next hc (ih h2)
  | error msg _ ih => exact Consumed.error msg (ih h2)

theorem Consumed.step {s : PState} (h : Consumable s.CurTok) : Consumed s (getNextToken s) :=
  Consumed.next h (Consumed.refl _)

theorem Consumed.err (s : PState) (msg : String) :
    Consumed s { s with errs := s.errs ++ [msg] } :=
  Consumed.error msg (Consumed.refl _)

theorem consumable_of_prec {s : PState} {P : Int} (hP : 0 ≤ P)
    (h : ¬ GetTokPrecedence s < P) : Consumable s.CurTok := by
  unfold GetTokPrecedence at h
  by_cases h1 : isascii s.CurTok = true
  · simp only [h1, Bool.not_true, Bool.false_eq_true, if_false] at h
    by_cases h2 : BinopPrecedence s.CurTok ≤ 0
    · rw [if_pos h2] at h; omega
    · exact Or.inr (Or.inr (Or.inr (Or.inr (Or.inr ⟨h1, by omega⟩))))
  · have h1' : isascii s.CurTok = false := by simpa using h1
    simp only [h1', Bool.not_false, if_true] at h
    omega

theorem ResConsumed.prepend {α : Type} {s : PState} {r : Res α}
    (hc : Consumable s.CurTok) (h : ResConsumed (getNextToken s) r) : ResConsumed s r := by
  cases r with
  | oof => trivial
  | null s1 => exact Consumed.next hc h
  | ok v s1 => exact Consumed.next hc h

theorem parse_consumed (n : Nat) :
    (∀ s, ResConsumed s (ParsePrimary n s)) ∧
    (∀ s, s.CurTok = TOK_LP → ResConsumed (getNextToken s) (ParseParenExpr n s)) ∧
    (∀ A s, ResConsumed s (ParseArgs n A s)) ∧
    (∀ s, s.CurTok = TOK_IDENT → ResConsumed (getNextToken s) (ParseIdentExpr n s)) ∧
    (∀ P L s, 0 ≤ P → ResConsumed s (ParseBinOpRHS n P L s)) ∧
    (∀ s, ResConsumed s (ParseExpression n s)) := by
  induction n with
  | zero =>
    refine ⟨?_, ?_, ?_, ?_, ?_, ?_⟩
    · intro s; rw [ParsePrimary]; trivial
    · intro s _; rw [ParseParenExpr]; trivial
    · intro A s; rw [ParseArgs]; trivial
    · intro s _; rw [ParseIdentExpr]; trivial
    · intro P L s _; rw [ParseBinOpRHS]; trivial
    · intro s; rw [ParseExpression]; trivial
  | succ n ih =>
    obtain ⟨ihP, ihPar, ihA, ihI, ihB, ihE⟩ := ih
    refine ⟨?_, ?_, ?_, ?_, ?_, ?_⟩
    · intro s
      rw [ParsePrimary.eq_2]
      by_cases h1 : s.CurTok = TOK_IDENT
      · rw [if_pos h1]; exact ResConsumed.prepend (Or.inr (Or.inl h1)) (ihI s h1)
      · rw [if_neg h1]
        by_cases h2 : s.CurTok = TOK_NUMBER
        · rw [if_pos h2]; exact Consumed.step (Or.inl h2)
        · rw [if_neg h2]
          by_cases h3 : s.CurTok = TOK_LP
          · rw [if_pos h3]
            exact ResConsumed.prepend (Or.inr (Or.inr (Or.inl h3))) (ihPar s h3)
          · rw [if_neg h3]; exact Consumed.err s _
    · intro s hlp
      rw [ParseParenExpr.eq_2]
      have h0 : Consumed (getNextToken s) (getNextToken s) := Consumed.refl _
      have hsub := ihE (getNextToken s)
      cases hA : ParseExpression n (getNextToken s) with
      | oof => trivial
      | null s1 => rw [hA] at hsub; exact h0.trans hsub
      | ok v s1 =>
        rw [hA] at hsub
        dsimp only
        by_cases h1 : s1.CurTok ≠ TOK_RP
        · rw [if_pos h1]; exact (h0.trans hsub).trans (Consumed.err s1 _)
        · rw [if_neg h1]
          have h1' : s1.CurTok = TOK_RP := by simpa using h1
          exact (h0.trans hsub).trans
            (Consumed.step (Or.inr (Or.inr (Or.inr (Or.inl h1')))))
    · intro A s
      rw [ParseArgs.eq_2]
      have hsub := ihE s
      cases hA : ParseExpression n s with
      | oof => trivial
      | null s1 => rw [hA] at hsub; exact hsub
      | ok v s1 =>
        rw [hA] at hsub
        dsimp only
        by_cases h1 : s1.CurTok = TOK_RP
        · rw [if_pos h1]; exact hsub
        · rw [if_neg h1]
          by_cases h2 : s1.CurTok ≠ 44
          · rw [if_pos h2]; exact hsub.trans (Consumed.err s1 _)
          · rw [if_neg h2]
            have h2' : s1.CurTok = 44 := by simpa using h2
            have h3 : Consumed s (getNextToken s1) :=
              hsub.trans (Consumed.step (Or.inr (Or.inr (Or.inr (Or.inr (Or.inl h2'))))))
            have hsub2 := ihA (A ++ [v]) (getNextToken s1)
            cases hA2 : ParseArgs n (A ++ [v]) (getNextToken s1) with
            | oof => trivial
            | null s2 => rw [hA2] at hsub2; exact h3.trans hsub2
            | ok v2 s2 => rw [hA2] at hsub2; exact h3.trans hsub2
    · intro s hid
      rw [ParseIdentExpr.eq_2]
      dsimp only
      have h0 : Consumed (getNextToken s) (getNextToken s) := Consumed.refl _
      by_cases h1 : (getNextToken s).CurTok ≠ TOK_LP
      · rw [if_pos h1]; exact h0
      · rw [if_neg h1]
        have h1' : (getNextToken s).CurTok = TOK_LP := by simpa using h1
        have h02 : Consumed (getNextToken s) (getNextToken (getNextToken s)) :=
          h0.trans (Consumed.step (Or.inr (Or.inr (Or.inl h1'))))
        by_cases h2 : (getNextToken (getNextToken s)).CurTok ≠ TOK_RP
        · rw [if_pos h2]
          have hsub := ihA [] (getNextToken (getNextToken s))
          cases hA : ParseArgs n [] (getNextToken (getNextToken s)) with
          | oof => trivial
          | null s1 => rw [hA] at hsub; exact h02.trans hsub
          | ok v s1 =>
            rw [hA] at hsub
            have hrp : s1.CurTok = TOK_RP := by
              have : ∀ (m : Nat) (B : List ExprAST) (u u1 : PState) (w : List ExprAST),
                  ParseArgs m B u = .ok w u1 → u1.CurTok = TOK_RP := by
                intro m
                induction m with
                | zero => intro B u u1 w h; rw [ParseArgs] at h; cases h
                | succ m ihm =>
                  intro B u u1 w h
                  rw [ParseArgs.eq_2] at h
                  cases hE : ParseExpression m u with
                  | oof => rw [hE] at h; cases h
                  | null s3 => rw [hE] at h; cases h
                  | ok v3 s3 =>
                    rw [hE] at h
                    dsimp only at h
                    by_cases c1 : s3.CurTok = TOK_RP
                    · rw [if_pos c1] at h; cases h; exact c1
                    · rw [if_neg c1] at h
                      by_cases c2 : s3.CurTok ≠ 44
                      · rw [if_pos c2] at h; cases h
                      · rw [if_neg c2] at h; exact ihm _ _ _ _ h
              exact this n [] _ s1 v hA
            exact (h02.trans hsub).trans
              (Consumed.step (Or.inr (Or.inr (Or.inr (Or.inl hrp)))))
        · rw [if_neg h2]
          have h2' : (getNextToken (getNextToken s)).CurTok = TOK_RP := by simpa using h2
          exact h02.trans (Consumed.step (Or.inr (Or.inr (Or.inr (Or.inl h2')))))
    · intro P L s hP
      rw [ParseBinOpRHS.eq_2]
      by_cases h1 : GetTokPrecedence s < P
      · rw [if_pos h1]; exact Consumed.refl s
      · rw [if_neg h1]
        dsimp only
        have h0 : Consumed s (getNextToken s) := Consumed.step (consumable_of_prec hP h1)
        have hge : 0 ≤ GetTokPrecedence s := by omega
        have hsub := ihP (getNextToken s)
        cases hA : ParsePrimary n (getNextToken s) with
        | oof => trivial
        | null s1 => rw [hA] at hsub; exact h0.trans hsub
        | ok v s1 =>
          rw [hA] at hsub
          dsimp only
          by_cases h2 : GetTokPrecedence s < GetTokPrecedence s1
          · rw [if_pos h2]
            have hsub2 := ihB (GetTokPrecedence s + 1) v s1 (by omega)
            cases hA2 : ParseBinOpRHS n (GetTokPrecedence s + 1) v s1 with
            | oof => trivial
            | null s2 => rw [hA2] at hsub2; exact (h0.trans hsub).trans hsub2
            | ok v2 s2 =>
              rw [hA2] at hsub2
              dsimp only
              have hsub3 := ihB P (.Binary (toChar s.CurTok) L v2) s2 hP
              cases hA3 : ParseBinOpRHS n P (.Binary (toChar s.CurTok) L v2) s2 with
              | oof => trivial
              | null s3 => rw [hA3] at hsub3; exact ((h0.trans hsub).trans hsub2).trans hsub3
              | ok v3 s3 => rw [hA3] at hsub3; exact ((h0.trans hsub).trans hsub2).trans hsub3
          · rw [if_neg h2]
            have hsub3 := ihB P (.Binary (toChar s.CurTok) L v) s1 hP
            cases hA3 : ParseBinOpRHS n P (.Binary (toChar s.CurTok) L v) s1 with
            | oof => trivial
            | null s3 => rw [hA3] at hsub3; exact (h0.trans hsub).trans hsub3
            | ok v3 s3 => rw [hA3] at hsub3; exact (h0.trans hsub).trans hsub3
    · intro s
      rw [ParseExpression.eq_2]
      have hsub := ihP s
      cases hA : ParsePrimary n s with
      | oof => trivial
      | null s1 => rw [hA] at hsub; exact hsub
      | ok v s1 =>
        rw [hA] at hsub
        dsimp only
        have hsub2 := ihB 0 v s1 (Int.le_refl 0)
        cases hA2 : ParseBinOpRHS n 0 v s1 with
        | oof => trivial
        | null s2 => rw [hA2] at hsub2; exact hsub.trans hsub2
        | ok v2 s2 => rw [hA2] at hsub2; exact hsub.trans hsub2

theorem protoArgs_consumed (n : Nat) : ∀ (A B : List (List Char)) (s s2 : PState),
    Consumable s.CurTok → protoArgs n A s = some (B, s2) → Consumed s s2 := by
  induction n with
  | zero => intro A B s s2 _ h; simp [protoArgs] at h
  | succ n ih =>
    intro A B s s2 hc h
    rw [protoArgs] at h
    by_cases h1 : (getNextToken s).CurTok = TOK_IDENT
    · rw [if_pos h1] at h
      exact (Consumed.step hc).trans (ih _ _ _ _ (Or.inr (Or.inl h1)) h)
    · rw [if_neg h1] at h
      simp only [Option.some.injEq, Prod.mk.injEq] at h
      rw [← h.2]
      exact Consumed.step hc

theorem ParsePrototype_consumed (n : Nat) (s : PState) :
    ResConsumed s (ParsePrototype n s) := by
  unfold ParsePrototype
  dsimp only
  by_cases h1 : s.CurTok ≠ TOK_IDENT
  · rw [if_pos h1]; exact Consumed.err s _
  · rw [if_neg h1]
    have h1' : s.CurTok = TOK_IDENT := by simpa using h1
    have h0 : Consumed s (getNextToken s) := Consumed.step (Or.inr (Or.inl h1'))
    by_cases h2 : (getNextToken s).CurTok ≠ TOK_LP
    · rw [if_pos h2]; exact h0.trans (Consumed.err _ _)
    · rw [if_neg h2]
      have h2' : (getNextToken s).CurTok = TOK_LP := by simpa using h2
      cases hA : protoArgs n [] (getNextToken s) with
      | none => trivial
      | some r =>
        obtain ⟨B, s2⟩ := r
        have h3 := protoArgs_consumed n [] B _ s2 (Or.inr (Or.inr (Or.inl h2'))) hA
        dsimp only
        by_cases h4 : s2.CurTok ≠ TOK_RP
        · rw [if_pos h4]; exact (h0.trans h3).trans (Consumed.err _ _)
        · rw [if_neg h4]
          have h4' : s2.CurTok = TOK_RP := by simpa using h4
          exact (h0.trans h3).trans (Consumed.step (Or.inr (Or.inr (Or.inr (Or.inl h4')))))

theorem ParseTopLevelExpr_consumed (n : Nat) (s : PState) :
    ResConsumed s (ParseTopLevelExpr n s) := by
  unfold ParseTopLevelExpr
  have hsub := (parse_consumed n).2.2.2.2.2 s
  cases hA : ParseExpression n s with
  | oof => trivial
  | null s1 => rw [hA] at hsub; exact hsub
  | ok v s1 => rw [hA] at hsub; exact hsub

theorem ParseDefinition_consumed (n : Nat) (s : PState) :
    ResConsumed (getNextToken s) (ParseDefinition n s) := by
  unfold ParseDefinition
  have hsub := ParsePrototype_consumed n (getNextToken s)
  cases hA : ParsePrototype n (getNextToken s) with
  | oof => trivial
  | null s1 => rw [hA] at hsub; exact hsub
  | ok v s1 =>
    rw [hA] at hsub
    dsimp only
    have hsub2 := (parse_consumed n).2.2.2.2.2 s1
    cases hA2 : ParseExpression n s1 with
    | oof => trivial
    | null s2 => rw [hA2] at hsub2; exact hsub.trans hsub2
    | ok v2 s2 => rw [hA2] at hsub2; exact hsub.trans hsub2

theorem ParseExtern_consumed (n : Nat) (s : PState) :
    ResConsumed (getNextToken s) (ParseExtern n s) :=
  ParsePrototype_consumed n (getNextToken s)

theorem getNextToken_iterate_errs (j : Nat) : ∀ (s : PState) (e : List String),
    getNextToken^[j] { s with errs := e } = { getNextToken^[j] s with errs := e } := by
  induction j with
  | zero => intro s e; rfl
  | succ j ih =>
    intro s e
    rw [Function.iterate_succ_apply, Function.iterate_succ_apply]
    exact ih (getNextToken s) e

theorem getNextToken_iterate_errs_eq (j : Nat) : ∀ (s : PState),
    (getNextToken^[j] s).errs = s.errs := by
  induction j with
  | zero => intro s; rfl
  | succ j ih => intro s; rw [Function.iterate_succ_apply, ih]; rfl

/-- A state reached by consuming consumable tokens is the state after some number `j` of
`getNextToken` calls, up to the messages written, and the `j` tokens passed were all
consumable. -/
theorem Consumed.position {s s1 : PState} (h : Consumed s s1) :
    ∃ (j : Nat) (e : List String),
      s1 = { getNextToken^[j] s with errs := s.errs ++ e } ∧
      ∀ i, i < j → Consumable (getNextToken^[i] s).CurTok := by
  induction h with
  | refl s => exact ⟨0, [], by simp, fun i hi => absurd hi (Nat.not_lt_zero _)⟩
  | @next s s1 hc _ ih =>
    obtain ⟨j, e, h1, h2⟩ := ih
    refine ⟨j + 1, e, ?_, ?_⟩
    · rw [h1, Function.iterate_succ_apply]; rfl
    · intro i hi
      cases i with
      | zero => exact hc
      | succ i => rw [Function.iterate_succ_apply]; exact h2 i (by omega)
  | @error s s1 msg _ ih =>
    obtain ⟨j, e, h1, h2⟩ := ih
    refine ⟨j, msg :: e, ?_, ?_⟩
    · rw [h1, getNextToken_iterate_errs]
      simp
    · intro i hi
      have := h2 i hi
      rw [getNextToken_iterate_errs] at this
      exact this

/-! ## Termination -/

theorem consumable_ne_eof {t : Int} (h : Consumable t) : t ≠ TOK_EOF := by
  rcases h with h | h | h | h | h | ⟨h, _⟩
  · rw [h]; decide
  · rw [h]; decide
  · rw [h]; decide
  · rw [h]; decide
  · rw [h]; decide
  · intro ht; rw [ht] at h; exact absurd h (by decide)

theorem Consumed.remaining_le {s s1 : PState} (h : Consumed s s1) :
    remaining s1 ≤ remaining s := by
  induction h with
  | refl s => exact Nat.le_refl _
  | @next s s1 _ _ ih => exact Nat.le_trans ih (getNextToken_remaining_le s)
  | @error s s1 msg _ ih => exact ih

/-- Either no token was consumed or the measure decreased. -/
theorem Consumed.progress {s s1 : PState} (h : Consumed s s1) :
    (s1.lex = s.lex ∧ s1.CurTok = s.CurTok) ∨ remaining s1 < remaining s := by
  induction h with
  | refl s => exact Or.inl ⟨rfl, rfl⟩
  | @next s s1 hc h2 _ =>
    have h3 := Consumed.remaining_le h2
    have h4 := getNextToken_remaining_lt s (consumable_ne_eof hc)
    exact Or.inr (by omega)
  | @error s s1 msg _ ih => exact ih

/-- A primary expression that is parsed consumed at least one token. -/
theorem ParsePrimary_ok_lt {n : Nat} {s s1 : PState} {v : ExprAST}
    (h : ParsePrimary n s = .ok v s1) : remaining s1 < remaining s := by
  cases n with
  | zero => rw [ParsePrimary] at h; cases h
  | succ n =>
    rw [ParsePrimary.eq_2] at h
    by_cases h1 : s.CurTok = TOK_IDENT
    · rw [if_pos h1] at h
      have h2 := (parse_consumed n).2.2.2.1 s h1
      rw [h] at h2
      have h3 := Consumed.remaining_le h2
      have h4 := getNextToken_remaining_lt s (by rw [h1]; decide)
      omega
    · rw [if_neg h1] at h
      by_cases h2 : s.CurTok = TOK_NUMBER
      · rw [if_pos h2] at h
        unfold ParseNumberExpr at h
        cases h
        exact getNextToken_remaining_lt s (by rw [h2]; decide)
      · rw [if_neg h2] at h
        by_cases h3 : s.CurTok = TOK_LP
        · rw [if_pos h3] at h
          have h4 := (parse_consumed n).2.1 s h3
          rw [h] at h4
          have h5 := Consumed.remaining_le h4
          have h6 := getNextToken_remaining_lt s (by rw [h3]; decide)
          omega
        · rw [if_neg h3] at h
          unfold Error at h
          cases h

/-- An expression that is parsed consumed at least one token. -/
theorem ParseExpression_ok_lt {n : Nat} {s s1 : PState} {v : ExprAST}
    (h : ParseExpression n s = .ok v s1) : remaining s1 < remaining s := by
  cases n with
  | zero => rw [ParseExpression] at h; cases h
  | succ n =>
    rw [ParseExpression.eq_2] at h
    cases hA : ParsePrimary n s with
    | oof => rw [hA] at h; cases h
    | null s0 => rw [hA] at h; cases h
    | ok v0 s0 =>
      rw [hA] at h
      dsimp only at h
      have h1 := ParsePrimary_ok_lt hA
      have h2 := (parse_consumed n).2.2.2.2.1 0 v0 s0 (Int.le_refl 0)
      rw [h] at h2
      have h3 := Consumed.remaining_le h2
      omega

/-- Every parse procedure of the expression grammar returns when the fuel exceeds four
times the measure by a small constant. -/
theorem parse_total (n : Nat) :
    (∀ s, 4 * remaining s + 2 ≤ n → ParsePrimary n s ≠ .oof) ∧
    (∀ s, s.CurTok = TOK_LP → 4 * remaining s + 1 ≤ n → ParseParenExpr n s ≠ .oof) ∧
    (∀ A s, 4 * remaining s + 4 ≤ n → ParseArgs n A s ≠ .oof) ∧
    (∀ s, s.CurTok = TOK_IDENT → 4 * remaining s + 1 ≤ n → ParseIdentExpr n s ≠ .oof) ∧
    (∀ P L s, 0 ≤ P → 4 * remaining s + 1 ≤ n → ParseBinOpRHS n P L s ≠ .oof) ∧
    (∀ s, 4 * remaining s + 3 ≤ n → ParseExpression n s ≠ .oof) := by
  induction n with
  | zero =>
    refine ⟨?_, ?_, ?_, ?_, ?_, ?_⟩
    · intro s h; omega
    · intro s _ h; omega
    · intro A s h; omega
    · intro s _ h; omega
    · intro P L s _ h; omega
    · intro s h; omega
  | succ n ih =>
    obtain ⟨ihP, ihPar, ihA, ihI, ihB, ihE⟩ := ih
    refine ⟨?_, ?_, ?_, ?_, ?_, ?_⟩
    · intro s hf
      rw [ParsePrimary.eq_2]
      by_cases h1 : s.CurTok = TOK_IDENT
      · rw [if_pos h1]; exact ihI s h1 (by omega)
      · rw [if_neg h1]
        by_cases h2 : s.CurTok = TOK_NUMBER
        · rw [if_pos h2]; unfold ParseNumberExpr; intro h; cases h
        · rw [if_neg h2]
          by_cases h3 : s.CurTok = TOK_LP
          · rw [if_pos h3]; exact ihPar s h3 (by omega)
          · rw [if_neg h3]; unfold Error; intro h; cases h
    · intro s hlp hf
      rw [ParseParenExpr.eq_2]
      have hlt := getNextToken_remaining_lt s (by rw [hlp]; decide)
      have hsub := ihE (getNextToken s) (by omega)
      cases hA : ParseExpression n (getNextToken s) with
      | oof => exact absurd hA hsub
      | null s1 => intro h; cases h
      | ok v s1 =>
        dsimp only
        by_cases h1 : s1.CurTok ≠ TOK_RP
        · rw [if_pos h1]; unfold Error; intro h; cases h
        · rw [if_neg h1]; intro h; cases h
    · intro A s hf
      rw [ParseArgs.eq_2]
      have hsub := ihE s (by omega)
      cases hA : ParseExpression n s with
      | oof => exact absurd hA hsub
      | null s1 => intro h; cases h
      | ok v s1 =>
        have hc := (parse_consumed n).2.2.2.2.2 s
        rw [hA] at hc
        have hle := Consumed.remaining_le hc
        dsimp only
        by_cases h1 : s1.CurTok = TOK_RP
        · rw [if_pos h1]; intro h; cases h
        · rw [if_neg h1]
          by_cases h2 : s1.CurTok ≠ 44
          · rw [if_pos h2]; unfold Error; intro h; cases h
          · rw [if_neg h2]
            have h2' : s1.CurTok = 44 := by simpa using h2
            have hlt := getNextToken_remaining_lt s1 (by rw [h2']; decide)
            exact ihA _ _ (by omega)
    · intro s hid hf
      rw [ParseIdentExpr.eq_2]
      dsimp only
      have hlt1 := getNextToken_remaining_lt s (by rw [hid]; decide)
      by_cases h1 : (getNextToken s).CurTok ≠ TOK_LP
      · rw [if_pos h1]; intro h; cases h
      · rw [if_neg h1]
        have h1' : (getNextToken s).CurTok = TOK_LP := by simpa using h1
        have hlt2 := getNextToken_remaining_lt (getNextToken s) (by rw [h1']; decide)
        by_cases h2 : (getNextToken (getNextToken s)).CurTok ≠ TOK_RP
        · rw [if_pos h2]
          have hsub := ihA [] (getNextToken (getNextToken s)) (by omega)
          cases hA : ParseArgs n [] (getNextToken (getNextToken s)) with
          | oof => exact absurd hA hsub
          | null s1 => intro h; cases h
          | ok v s1 => intro h; cases h
        · rw [if_neg h2]; intro h; cases h
    · intro P L s hP hf
      rw [ParseBinOpRHS.eq_2]
      by_cases h1 : GetTokPrecedence s < P
      · rw [if_pos h1]; intro h; cases h
      · rw [if_neg h1]
        dsimp only
        have hc := consumable_of_prec hP h1
        have hlt := getNextToken_remaining_lt s (consumable_ne_eof hc)
        have hsub := ihP (getNextToken s) (by omega)
        cases hA : ParsePrimary n (getNextToken s) with
        | oof => exact absurd hA hsub
        | null s1 => intro h; cases h
        | ok v s1 =>
          have hc1 := (parse_consumed n).1 (getNextToken s)
          rw [hA] at hc1
          have hle1 := Consumed.remaining_le hc1
          dsimp only
          by_cases h2 : GetTokPrecedence s < GetTokPrecedence s1
          · rw [if_pos h2]
            have hsub2 := ihB (GetTokPrecedence s + 1) v s1 (by omega) (by omega)
            cases hA2 : ParseBinOpRHS n (GetTokPrecedence s + 1) v s1 with
            | oof => exact absurd hA2 hsub2
            | null s2 => intro h; cases h
            | ok v2 s2 =>
              have hc2 := (parse_consumed n).2.2.2.2.1 (GetTokPrecedence s + 1) v s1
                (by omega)
              rw [hA2] at hc2
              have hle2 := Consumed.remaining_le hc2
              dsimp only
              exact ihB P _ s2 hP (by omega)
          · rw [if_neg h2]
            exact ihB P _ s1 hP (by omega)
    · intro s hf
      rw [ParseExpression.eq_2]
      have hsub := ihP s (by omega)
      cases hA : ParsePrimary n s with
      | oof => exact absurd hA hsub
      | null s1 => intro h; cases h
      | ok v s1 =>
        have hc := (parse_consumed n).1 s
        rw [hA] at hc
        have hle := Consumed.remaining_le hc
        dsimp only
        exact ihB 0 v s1 (Int.le_refl 0) (by omega)

theorem pending_le_remaining (s : PState) : pending s.lex ≤ remaining s :=
  Nat.le_add_right _ _

theorem ParsePrototype_total_of_remaining (s : PState) (fuel : Nat)
    (hf : remaining s < fuel) : ParsePrototype fuel s ≠ .oof := by
  have h1 := getNextToken_pending_le s
  have h2 := pending_le_remaining s
  exact ParsePrototype_total s fuel (by omega)

theorem ParseTopLevelExpr_total (s : PState) (fuel : Nat)
    (hf : 4 * remaining s + 3 ≤ fuel) : ParseTopLevelExpr fuel s ≠ .oof := by
  unfold ParseTopLevelExpr
  have hsub := (parse_total fuel).2.2.2.2.2 s hf
  cases hA : ParseExpression fuel s with
  | oof => exact absurd hA hsub
  | null s1 => intro h; cases h
  | ok v s1 => intro h; cases h

theorem ParseDefinition_total (s : PState) (fuel : Nat)
    (hf : 4 * remaining s + 3 ≤ fuel) : ParseDefinition fuel s ≠ .oof := by
  unfold ParseDefinition
  have h0 := getNextToken_remaining_le s
  have hsub := ParsePrototype_total_of_remaining (getNextToken s) fuel (by omega)
  cases hA : ParsePrototype fuel (getNextToken s) with
  | oof => exact absurd hA hsub
  | null s1 => intro h; cases h
  | ok v s1 =>
    have hc := ParsePrototype_consumed fuel (getNextToken s)
    rw [hA] at hc
    have hle := Consumed.remaining_le hc
    dsimp only
    have hsub2 := (parse_total fuel).2.2.2.2.2 s1 (by omega)
    cases hA2 : ParseExpression fuel s1 with
    | oof => exact absurd hA2 hsub2
    | null s2 => intro h; cases h
    | ok v2 s2 => intro h; cases h

theorem ParseExtern_total (s : PState) (fuel : Nat)
    (hf : 4 * remaining s + 3 ≤ fuel) : ParseExtern fuel s ≠ .oof := by
  unfold ParseExtern
  have h0 := getNextToken_remaining_le s
  exact ParsePrototype_total_of_remaining (getNextToken s) fuel (by omega)

/-- The handler of a definition returns and leaves the measure smaller. -/
theorem HandleDefinition_total (n : Nat) (d : DState) (hne : d.p.CurTok ≠ TOK_EOF)
    (hf : 4 * remaining d.p + 3 ≤ n) :
    ∃ d2, HandleDefinition n d = some d2 ∧ remaining d2.p < remaining d.p := by
  unfold HandleDefinition
  have hlt := getNextToken_remaining_lt d.p hne
  have hc := ParseDefinition_consumed n d.p
  cases hA : ParseDefinition n d.p with
  | oof => exact absurd hA (ParseDefinition_total d.p n hf)
  | null s1 =>
    rw [hA] at hc
    have h1 := Consumed.remaining_le hc
    have h2 := getNextToken_remaining_le s1
    exact ⟨_, rfl, by dsimp only; omega⟩
  | ok v s1 =>
    rw [hA] at hc
    have h1 := Consumed.remaining_le hc
    exact ⟨_, rfl, by dsimp only; omega⟩

/-- The handler of an extern declaration returns and leaves the measure smaller. -/
theorem HandleExtern_total (n : Nat) (d : DState) (hne : d.p.CurTok ≠ TOK_EOF)
    (hf : 4 * remaining d.p + 3 ≤ n) :
    ∃ d2, HandleExtern n d = some d2 ∧ remaining d2.p < remaining d.p := by
  unfold HandleExtern
  have hlt := getNextToken_remaining_lt d.p hne
  have hc := ParseExtern_consumed n d.p
  cases hA : ParseExtern n d.p with
  | oof => exact absurd hA (ParseExtern_total d.p n hf)
  | null s1 =>
    rw [hA] at hc
    have h1 := Consumed.remaining_le hc
    have h2 := getNextToken_remaining_le s1
    exact ⟨_, rfl, by dsimp only; omega⟩
  | ok v s1 =>
    rw [hA] at hc
    have h1 := Consumed.remaining_le hc
    exact ⟨_, rfl, by dsimp only; omega⟩

/-- The handler of a top-level expression returns and leaves the measure smaller: a
parsed expression consumed a token, and after a failure the recovery skips one. -/
theorem HandleTopLevelExpression_total (n : Nat) (d : DState) (hne : d.p.CurTok ≠ TOK_EOF)
    (hf : 4 * remaining d.p + 3 ≤ n) :
    ∃ d2, HandleTopLevelExpression n d = some d2 ∧ remaining d2.p < remaining d.p := by
  unfold HandleTopLevelExpression
  have hc := ParseTopLevelExpr_consumed n d.p
  cases hA : ParseTopLevelExpr n d.p with
  | oof => exact absurd hA (ParseTopLevelExpr_total d.p n hf)
  | null s1 =>
    rw [hA] at hc
    refine ⟨_, rfl, ?_⟩
    dsimp only
    rcases Consumed.progress hc with ⟨hl, ht⟩ | hlt
    · have h1 := getNextToken_remaining s1
      have h2 : remaining d.p = pending d.p.lex + 1 := by
        unfold remaining; rw [if_neg hne]
      rw [hl] at h1
      omega
    · have h2 := getNextToken_remaining_le s1
      omega
  | ok v s1 =>
    refine ⟨_, rfl, ?_⟩
    dsimp only
    unfold ParseTopLevelExpr at hA
    cases hE : ParseExpression n d.p with
    | oof => rw [hE] at hA; cases hA
    | null s2 => rw [hE] at hA; cases hA
    | ok e s2 =>
      rw [hE] at hA
      cases hA
      exact ParseExpression_ok_lt hE

/-- The driver loop returns when the fuel exceeds five times the measure by four. -/
theorem MainLoop_total (n : Nat) : ∀ d : DState, 5 * remaining d.p + 4 ≤ n →
    ∃ r, MainLoop n d = some r := by
  induction n with
  | zero => intro d h; omega
  | succ n ih =>
    intro d hf
    rw [MainLoop]
    by_cases h1 : d.p.CurTok = TOK_EOF
    · rw [if_pos h1]; exact ⟨d, rfl⟩
    · rw [if_neg h1]
      by_cases h2 : d.p.CurTok = 59
      · rw [if_pos h2]
        have hlt := getNextToken_remaining_lt d.p h1
        exact ih _ (by dsimp only; omega)
      · rw [if_neg h2]
        by_cases h3 : d.p.CurTok = TOK_DEF
        · rw [if_pos h3]
          obtain ⟨d2, hd, hlt⟩ := HandleDefinition_total n d h1 (by omega)
          rw [hd, Option.some_bind]
          exact ih d2 (by omega)
        · rw [if_neg h3]
          by_cases h4 : d.p.CurTok = TOK_EXTERN
          · rw [if_pos h4]
            obtain ⟨d2, hd, hlt⟩ := HandleExtern_total n d h1 (by omega)
            rw [hd, Option.some_bind]
            exact ih d2 (by omega)
          · rw [if_neg h4]
            obtain ⟨d2, hd, hlt⟩ := HandleTopLevelExpression_total n d h1 (by omega)
            rw [hd, Option.some_bind]
            exact ih d2 (by omega)

theorem remaining_start (cs : List Char) : remaining (start cs) ≤ cs.length + 1 := by
  have h := getNextToken_remaining { lex := LexState.init cs, CurTok := 0, errs := [] }
  have h2 : pending (LexState.init cs) = cs.length + 1 := rfl
  unfold start
  dsimp only at h
  omega

/-- The driver returns on every input: fuel `5 * length + 9` is enough. -/
theorem run_total (cs : List Char) :
    ∃ r, ∀ fuel, 5 * cs.length + 9 ≤ fuel → run fuel cs = some r := by
  have h := remaining_start cs
  obtain ⟨r, hr⟩ := MainLoop_total (5 * cs.length + 9) { p := start cs, handed := [] }
    (by dsimp only; omega)
  exact ⟨r, fun fuel hf => MainLoop_mono hf _ _ hr⟩

/-! ## A token that no parse procedure consumes is passed only by the recovery -/

/-- In `HandleTopLevelExpression` a token `t` that is not consumable is passed only as the
last token, by the recovery after a failure, and then nothing is handed over. -/
theorem HandleTopLevelExpression_passes (t : Int) (ht : ¬ Consumable t) (n : Nat)
    (d d2 : DState) (h : HandleTopLevelExpression n d = some d2) :
    ∃ (j : Nat) (e : List String),
      d2.p = { getNextToken^[j] d.p with errs := d.p.errs ++ e } ∧
      ∀ i, i < j → (getNextToken^[i] d.p).CurTok = t → i + 1 = j ∧ d2.handed = d.handed := by
  unfold HandleTopLevelExpression at h
  have hc := ParseTopLevelExpr_consumed n d.p
  cases hA : ParseTopLevelExpr n d.p with
  | oof => rw [hA] at h; cases h
  | null s1 =>
    rw [hA] at h hc
    cases h
    obtain ⟨j, e, h1, h2⟩ := Consumed.position hc
    refine ⟨j + 1, e, ?_, ?_⟩
    · dsimp only
      rw [h1, Function.iterate_succ_apply']
      rfl
    · intro i hi hti
      by_cases hij : i < j
      · exact absurd (hti ▸ h2 i hij) ht
      · exact ⟨by omega, rfl⟩
  | ok v s1 =>
    rw [hA] at h hc
    cases h
    obtain ⟨j, e, h1, h2⟩ := Consumed.position hc
    exact ⟨j, e, h1, fun i hi hti => absurd (hti ▸ h2 i hi) ht⟩

/-- The same for a parse procedure that first consumes its keyword `kw`. -/
theorem keyword_passes (t kw : Int) (ht : ¬ Consumable t) (hkw : t ≠ kw) (s : PState)
    (hs : s.CurTok = kw) {s1 : PState} (hc : Consumed (getNextToken s) s1) :
    (∃ (j : Nat) (e : List String),
      s1 = { getNextToken^[j] s with errs := s.errs ++ e } ∧
      ∀ i, i < j → (getNextToken^[i] s).CurTok ≠ t) ∧
    (∃ (j : Nat) (e : List String),
      getNextToken s1 = { getNextToken^[j] s with errs := s.errs ++ e } ∧
      ∀ i, i < j → (getNextToken^[i] s).CurTok = t → i + 1 = j) := by
  obtain ⟨j, e, h1, h2⟩ := Consumed.position hc
  have hpass : ∀ i, i < j + 1 → (getNextToken^[i] s).CurTok ≠ t := by
    intro i hi hti
    cases i with
    | zero => exact hkw (hti.symm.trans hs)
    | succ i =>
      rw [Function.iterate_succ_apply] at hti
      exact absurd (hti ▸ h2 i (by omega)) ht
  refine ⟨⟨j + 1, e, ?_, hpass⟩, ⟨j + 2, e, ?_, ?_⟩⟩
  · rw [h1, Function.iterate_succ_apply]; rfl
  · rw [h1, Function.iterate_succ_apply', Function.iterate_succ_apply]
    rfl
  · intro i hi hti
    by_cases hij : i < j + 1
    · exact absurd hti (hpass i hij)
    · omega

theorem HandleDefinition_passes (t : Int) (ht : ¬ Consumable t) (htd : t ≠ TOK_DEF)
    (n : Nat) (d d2 : DState) (hd : d.p.CurTok = TOK_DEF)
    (h : HandleDefinition n d = some d2) :
    ∃ (j : Nat) (e : List String),
      d2.p = { getNextToken^[j] d.p with errs := d.p.errs ++ e } ∧
      ∀ i, i < j → (getNextToken^[i] d.p).CurTok = t → i + 1 = j ∧ d2.handed = d.handed := by
  unfold HandleDefinition at h
  have hc := ParseDefinition_consumed n d.p
  cases hA : ParseDefinition n d.p with
  | oof => rw [hA] at h; cases h
  | null s1 =>
    rw [hA] at h hc
    cases h
    obtain ⟨_, j, e, h1, h2⟩ := keyword_passes t TOK_DEF ht htd d.p hd hc
    exact ⟨j, e, h1, fun i hi hti => ⟨h2 i hi hti, rfl⟩⟩
  | ok v s1 =>
    rw [hA] at h hc
    cases h
    obtain ⟨⟨j, e, h1, h2⟩, _⟩ := keyword_passes t TOK_DEF ht htd d.p hd hc
    exact ⟨j, e, h1, fun i hi hti => absurd hti (h2 i hi)⟩

theorem HandleExtern_passes (t : Int) (ht : ¬ Consumable t) (htd : t ≠ TOK_EXTERN)
    (n : Nat) (d d2 : DState) (hd : d.p.CurTok = TOK_EXTERN)
    (h : HandleExtern n d = some d2) :
    ∃ (j : Nat) (e : List String),
      d2.p = { getNextToken^[j] d.p with errs := d.p.errs ++ e } ∧
      ∀ i, i < j → (getNextToken^[i] d.p).CurTok = t → i + 1 = j ∧ d2.handed = d.handed := by
  unfold HandleExtern at h
  have hc := ParseExtern_consumed n d.p
  cases hA : ParseExtern n d.p with
  | oof => rw [hA] at h; cases h
  | null s1 =>
    rw [hA] at h hc
    cases h
    obtain ⟨_, j, e, h1, h2⟩ := keyword_passes t TOK_EXTERN ht htd d.p hd hc
    exact ⟨j, e, h1, fun i hi hti => ⟨h2 i hi hti, rfl⟩⟩
  | ok v s1 =>
    rw [hA] at h hc
    cases h
    obtain ⟨⟨j, e, h1, h2⟩, _⟩ := keyword_passes t TOK_EXTERN ht htd d.p hd hc
    exact ⟨j, e, h1, fun i hi hti => absurd hti (h2 i hi)⟩

/-! ## Recovery after an unterminated parenthesis, on every continuation -/

/-- C6, amended: for every continuation `c`, the driver run on the unterminated `(1+2`
followed by the separator `;` and then `c` returns, as does the run on `c` alone. It
reports `expected ')'` first, hands nothing to the backend for the first construct, skips
the `;`, and from then on does what a run on `c` alone does: the nodes handed over are
those of the run on `c`, and its messages follow. In detail, the parse of the first
construct stops at the fifth token, the `;`, with the one message `expected ')'`, and the
next iteration of the loop starts after exactly one more `getNextToken`, with nothing
handed over. -/
theorem C6_recovery_after_separator (cs : List Char) :
    (∃ d d2 : DState,
      (∀ fuel, 5 * cs.length + 9 ≤ fuel → run fuel cs = some d) ∧
      (∀ fuel, 5 * cs.length + 34 ≤ fuel → run fuel ("(1+2;".toList ++ cs) = some d2) ∧
      d2.handed = d.handed ∧ d2.p.errs = "expected ')'" :: d.p.errs ∧
      d2.p.CurTok = TOK_EOF) ∧
    (getNextToken^[4] (start ("(1+2;".toList ++ cs))).CurTok = 59 ∧
    ∃ N, ∀ n, N ≤ n →
      ParseTopLevelExpr n (start ("(1+2;".toList ++ cs))
        = .null { getNextToken^[4] (start ("(1+2;".toList ++ cs)) with
            errs := ["expected ')'"] } ∧
      MainLoop (n + 1) { p := start ("(1+2;".toList ++ cs), handed := [] }
        = MainLoop n { p := getNextToken { getNextToken^[4] (start ("(1+2;".toList ++ cs)) with
            errs := ["expected ')'"] }, handed := [] } := by
  refine ⟨?_, paren_first_iteration cs⟩
  obtain ⟨d, hd⟩ := run_total cs
  obtain ⟨d2, hd2⟩ := run_total ("(1+2;".toList ++ cs)
  have hlen : ("(1+2;".toList ++ cs).length = cs.length + 5 := rfl
  rw [hlen] at hd2
  obtain ⟨N, hN⟩ := separator_of_run cs _ d (hd _ (Nat.le_refl _))
  obtain ⟨d3, hd3, hh, he, hc⟩ := hN (max N (5 * cs.length + 34)) (Nat.le_max_left _ _)
  have h2 := hd2 (max N (5 * cs.length + 34)) (Nat.le_max_right _ _)
  rw [hd3] at h2
  have h3 : d3 = d2 := Option.some.inj h2
  rw [h3] at hh he hc
  exact ⟨d, d2, hd, hd2, hh, he, hc⟩

/-- C6, witness: a run on `(1+2; def foo(x y) x+y` reports `expected ')'` and hands over
the definition of `foo`; the parse of `(1+2` stops at the `;`. -/
theorem C6_recovery_after_separator_witness :
    (run 20 "def foo(x y) x+y".toList).map (fun d => (d.handed, d.p.errs))
      = some ([.function ⟨⟨['f', 'o', 'o'], [['x'], ['y']]⟩,
                  .Binary '+' (.Variable ['x']) (.Variable ['y'])⟩], []) ∧
    (run 20 "(1+2; def foo(x y) x+y".toList).map (fun d => (d.handed, d.p.errs))
      = some ([.function ⟨⟨['f', 'o', 'o'], [['x'], ['y']]⟩,
                  .Binary '+' (.Variable ['x']) (.Variable ['y'])⟩], ["expected ')'"]) ∧
    (∃ d d2 : DState,
      (∀ fuel, 5 * " def foo(x y) x+y".toList.length + 9 ≤ fuel →
        run fuel " def foo(x y) x+y".toList = some d) ∧
      (∀ fuel, 5 * " def foo(x y) x+y".toList.length + 34 ≤ fuel →
        run fuel ("(1+2;".toList ++ " def foo(x y) x+y".toList) = some d2) ∧
      d2.handed = d.handed ∧ d2.p.errs = "expected ')'" :: d.p.errs ∧
      d2.p.CurTok = TOK_EOF) ∧
    (getNextToken^[4] (start ("(1+2;".toList ++ " def foo(x y) x+y".toList))).CurTok = 59 ∧
    ParseTopLevelExpr 9 (start "(1+2; def foo(x y) x+y".toList)
      = .null { getNextToken^[4] (start "(1+2; def foo(x y) x+y".toList) with
          errs := ["expected ')'"] } ∧
    (getNextToken { getNextToken^[4] (start "(1+2; def foo(x y) x+y".toList) with
          errs := ["expected ')'"] }).CurTok = TOK_DEF :=
  ⟨by rfl, by rfl, (C6_recovery_after_separator " def foo(x y) x+y".toList).1,
   (C6_recovery_after_separator " def foo(x y) x+y".toList).2.1, by rfl, by rfl⟩

end Toy

/-! ## Recovery after an unrecognized character -/

namespace Toy

theorem startsNothing_tok {c : Char} (hc : StartsNothing c) {s : PState}
    (h : s.CurTok = ord c) :
    s.CurTok ≠ TOK_EOF ∧ s.CurTok ≠ 59 ∧ s.CurTok ≠ TOK_DEF ∧ s.CurTok ≠ TOK_EXTERN ∧
    s.CurTok ≠ TOK_IDENT ∧ s.CurTok ≠ TOK_NUMBER ∧ s.CurTok ≠ TOK_LP := by
  have h0 := ord_nonneg c
  obtain ⟨_, _, _, _, h59, h40⟩ := hc
  rw [h]
  simp only [TOK_EOF, TOK_DEF, TOK_EXTERN, TOK_IDENT, TOK_NUMBER, TOK_LP]
  refine ⟨?_, h59, ?_, ?_, ?_, ?_, h40⟩ <;> omega

theorem start_char (c : Char) (cs : List Char) (hc : StartsNothing c) :
    start (c :: cs) = ⟨⟨(getchar cs).1, (getchar cs).2, [], ⟨[]⟩, []⟩, ord c, []⟩ := by
  have hw : skipSpace (LexState.init (c :: cs)).LastChar (LexState.init (c :: cs)).input
      = (ord c, cs) := by
    show skipSpace 32 (c :: cs) = (ord c, cs)
    rw [skipSpace, if_pos (by decide), skipSpace_of_not_space _ _ hc.1]
  have hE : ord c ≠ EOF := by
    have := ord_nonneg c
    intro h; rw [h] at this; exact absurd this (by decide)
  simp only [start, getNextToken]
  rw [gettok_char _ (ord c) cs hw hc.2.1 hc.2.2.1 hc.2.2.2.1 hE]
  rfl

/-- When the run on `cs` returns `d`, the run on a character that starts nothing followed
by `cs` returns with the nodes of `d` and one message in front of the messages of `d`. -/
theorem bad_char_of_run (c : Char) (hc : StartsNothing c) (cs : List Char) (fuel : Nat)
    (d : DState) (h : run fuel cs = some d) :
    ∃ d2, run (fuel + 3) (c :: cs) = some d2 ∧
      d2.handed = d.handed ∧
      d2.p.errs = "unknown token when expecting an expression" :: d.p.errs ∧
      d2.p.CurTok = TOK_EOF := by
  have hs := start_char c cs hc
  have hct : (start (c :: cs)).CurTok = ord c := by rw [hs]
  obtain ⟨h0, h1, h2, h3, h4, h5, h6⟩ := startsNothing_tok hc hct
  obtain ⟨d2, hd2, hh, he, hcur⟩ := resume_as_fresh cs (ord c)
    ⟨(getchar cs).1, (getchar cs).2, [], ⟨[]⟩, []⟩
    ["unknown token when expecting an expression"] rfl rfl fuel d h (fuel + 2) (by omega)
  refine ⟨d2, ?_, hh, he, hcur⟩
  unfold run
  rw [MainLoop_skip _ fuel h0 h1 h2 h3 h4 h5 h6]
  dsimp only
  rw [hs]
  exact hd2

/-- C8: an unrecognized character does not end the run of the driver of `toy.cpp`. Its
tokenizer returns the character as a token. (1) When the driver loop meets that token it
reports one syntax error, hands nothing to the backend, skips exactly that token and goes
on with the loop. (2) The run on the character followed by any input `cs` returns, as the
run on `cs` alone does, hands over exactly the nodes of the run on `cs` and stops at end
of input. (3) When the character is met inside a construct, no parse procedure consumes
it: within one call of a handler it is passed only as the last token, by the recovery
after a failure, nothing is handed over for that construct, and the next iteration of
the loop starts with the token after the character. -/
theorem C8_bad_character_recovery (c : Char) (hc : StartsNothing c) :
    (∀ (d : DState) (n : Nat), d.p.CurTok = ord c →
      MainLoop (n + 3) d = MainLoop (n + 2)
        { p := getNextToken { d.p with
            errs := d.p.errs ++ ["unknown token when expecting an expression"] },
          handed := d.handed }) ∧
    (∀ cs : List Char, ∃ d d2 : DState,
      (∀ fuel, 5 * cs.length + 9 ≤ fuel → run fuel cs = some d) ∧
      (∀ fuel, 5 * cs.length + 14 ≤ fuel → run fuel (c :: cs) = some d2) ∧
      d2.handed = d.handed ∧
      d2.p.errs = "unknown token when expecting an expression" :: d.p.errs ∧
      d2.p.CurTok = TOK_EOF) ∧
    (¬ Consumable (ord c) → ∀ (n : Nat) (d d2 : DState),
      (d.p.CurTok = TOK_DEF ∧ HandleDefinition n d = some d2) ∨
      (d.p.CurTok = TOK_EXTERN ∧ HandleExtern n d = some d2) ∨
      HandleTopLevelExpression n d = some d2 →
      ∃ (j : Nat) (e : List String),
        d2.p = { getNextToken^[j] d.p with errs := d.p.errs ++ e } ∧
        ∀ i, i < j → (getNextToken^[i] d.p).CurTok = ord c →
          i + 1 = j ∧ d2.handed = d.handed) := by
  refine ⟨?_, ?_, ?_⟩
  · intro d n h
    obtain ⟨h0, h1, h2, h3, h4, h5, h6⟩ := startsNothing_tok hc h
    exact MainLoop_skip d n h0 h1 h2 h3 h4 h5 h6
  · intro cs
    obtain ⟨d, hd⟩ := run_total cs
    obtain ⟨d2, hd2⟩ := run_total (c :: cs)
    have hlen : (c :: cs).length = cs.length + 1 := rfl
    rw [hlen] at hd2
    obtain ⟨d3, hd3, hh, he, hcur⟩ :=
      bad_char_of_run c hc cs (5 * cs.length + 11) d (hd _ (by omega))
    have h2 := hd2 (5 * cs.length + 11 + 3) (by omega)
    rw [hd3] at h2
    have h3 : d3 = d2 := Option.some.inj h2
    rw [h3] at hh he hcur
    exact ⟨d, d2, hd, fun fuel hf => hd2 fuel (by omega), hh, he, hcur⟩
  · intro hnc n d d2 h
    have h0 := ord_nonneg c
    rcases h with ⟨hd, h⟩ | ⟨hd, h⟩ | h
    · exact HandleDefinition_passes (ord c) hnc (by simp only [TOK_DEF]; omega) n d d2 hd h
    · exact HandleExtern_passes (ord c) hnc (by simp only [TOK_EXTERN]; omega) n d d2 hd h
    · exact HandleTopLevelExpression_passes (ord c) hnc n d d2 h

/-- C8, witness: on `1 $ 2` the tokenizer of `toy.cpp` returns `$` as a token; the driver
hands over `1`, reports one error for `$`, hands over `2` and stops at end of input. No
parse procedure consumes `$`. -/
theorem C8_bad_character_recovery_witness :
    StartsNothing '$' ∧ ¬ Consumable (ord '$') ∧
    (∃ d d2 : DState,
      (∀ fuel, 5 * " 2".toList.length + 9 ≤ fuel → run fuel " 2".toList = some d) ∧
      (∀ fuel, 5 * " 2".toList.length + 14 ≤ fuel → run fuel ('$' :: " 2".toList) = some d2) ∧
      d2.handed = d.handed ∧
      d2.p.errs = "unknown token when expecting an expression" :: d.p.errs ∧
      d2.p.CurTok = TOK_EOF) ∧
    (gettok ⟨32, "$ 2".toList, [], ⟨['1']⟩, []⟩
      = (ord '$', ⟨32, "2".toList, [], ⟨['1']⟩, []⟩)) ∧
    (run 10 "1 $ 2".toList).map (fun d => (d.handed, d.p.errs, d.p.CurTok))
      = some ([.function ⟨⟨[], []⟩, .Number ⟨['1']⟩⟩, .function ⟨⟨[], []⟩, .Number ⟨['2']⟩⟩],
          ["unknown token when expecting an expression"], TOK_EOF) :=
  ⟨⟨by decide, by decide, by decide, by decide, by decide, by decide⟩,
   by unfold Consumable; decide,
   (C8_bad_character_recovery '$'
      ⟨by decide, by decide, by decide, by decide, by decide, by decide⟩).2.1 " 2".toList,
   by rfl, by rfl⟩

end Toy

/-! ## The tokenizer of `lexer.h` -/

namespace LexerH

theorem gettokFuel_rec_h (n : Nat) (s : LexState) (h : recurses s) :
    gettokFuel (n + 1) s = gettokFuel n (afterComment s) := by
  obtain ⟨h1, h2, h3, h4⟩ := h
  rw [gettokFuel]
  simp only [h1, h2, if_false, Bool.false_eq_true, afterComment]
  simp only [if_pos h3]
  rw [if_pos ⟨h3, h4⟩]

theorem gettokFuel_norec_h (n : Nat) (s : LexState) (h : ¬ recurses s) :
    gettokFuel (n + 1) s = gettokFuel 1 s := by
  rw [gettokFuel, gettokFuel]
  dsimp only
  by_cases h1 : isalpha (skipSpace s.LastChar s.input).1 = true
  · rw [if_pos h1, if_pos h1]
  · rw [if_neg h1, if_neg h1]
    by_cases h2 : isdigit (skipSpace s.LastChar s.input).1 = true
    · rw [if_pos h2, if_pos h2]
    · rw [if_neg h2, if_neg h2]
      by_cases h3 : (skipSpace s.LastChar s.input).1 = 35
      · have h4 : ¬ ((skipSpace s.LastChar s.input).1 = 35 ∧
            (commentLoop (skipSpace s.LastChar s.input).2).1 ≠ EOF) := by
          intro h4
          exact h ⟨by simpa using h1, by simpa using h2, h3, h4.2⟩
        simp only [if_pos h3]
        rw [if_neg h4, if_neg h4]
      · have h4 : ¬ ((skipSpace s.LastChar s.input).1 = 35 ∧
            (skipSpace s.LastChar s.input).1 ≠ EOF) := fun h4 => h3 h4.1
        simp only [if_neg h3]
        rw [if_neg h4, if_neg h4]

theorem gettokFuel_one_isSome_h (s : LexState) (h : ¬ recurses s) :
    ∃ r, gettokFuel 1 s = some r := by
  rw [gettokFuel]
  dsimp only
  by_cases h1 : isalpha (skipSpace s.LastChar s.input).1 = true
  · rw [if_pos h1]
    split
    · exact ⟨_, rfl⟩
    · split <;> exact ⟨_, rfl⟩
  · rw [if_neg h1]
    by_cases h2 : isdigit (skipSpace s.LastChar s.input).1 = true
    · rw [if_pos h2]
      exact ⟨_, rfl⟩
    · rw [if_neg h2]
      by_cases h3 : (skipSpace s.LastChar s.input).1 = 35
      · have h4 : ¬ ((skipSpace s.LastChar s.input).1 = 35 ∧
            (commentLoop (skipSpace s.LastChar s.input).2).1 ≠ EOF) := by
          intro h4
          exact h ⟨by simpa using h1, by simpa using h2, h3, h4.2⟩
        simp only [if_pos h3]
        rw [if_neg h4]
        repeat' (first | exact ⟨_, rfl⟩ | split)
      · have h4 : ¬ ((skipSpace s.LastChar s.input).1 = 35 ∧
            (skipSpace s.LastChar s.input).1 ≠ EOF) := fun h4 => h3 h4.1
        simp only [if_neg h3]
        rw [if_neg h4]
        repeat' (first | exact ⟨_, rfl⟩ | split)

theorem gettokFuel_succ_h (n : Nat) (s : LexState) (r : LexResult)
    (h : gettokFuel n s = some r) : gettokFuel (n + 1) s = some r := by
  induction n generalizing s with
  | zero => simp [gettokFuel] at h
  | succ n ih =>
    by_cases hr : recurses s
    · rw [gettokFuel_rec_h _ _ hr] at h ⊢
      exact ih _ h
    · rw [gettokFuel_norec_h _ _ hr] at h ⊢
      exact h

theorem gettokFuel_mono_h {n m : Nat} (hnm : n ≤ m) (s : LexState) (r : LexResult)
    (h : gettokFuel n s = some r) : gettokFuel m s = some r := by
  induction hnm with
  | refl => exact h
  | step _ ih => exact gettokFuel_succ_h _ _ _ ih

theorem gettokFuel_isSome_aux_h (k : Nat) :
    ∀ s : LexState, s.input.length ≤ k → ∃ r, gettokFuel (k + 1) s = some r := by
  induction k with
  | zero =>
    intro s hs
    by_cases hr : recurses s
    · have := Toy.afterComment_length s hr
      omega
    · exact gettokFuel_one_isSome_h s hr
  | succ k ih =>
    intro s hs
    by_cases hr : recurses s
    · rw [gettokFuel_rec_h _ _ hr]
      have := Toy.afterComment_length s hr
      exact ih _ (by omega)
    · rw [gettokFuel_norec_h _ _ hr]
      exact gettokFuel_one_isSome_h s hr

/-- The fuel given by `gettok` is never used up. -/
theorem gettokFuel_isSome_h (s : LexState) : ∃ r, gettokFuel (s.input.length + 1) s = some r :=
  gettokFuel_isSome_aux_h _ s (Nat.le_refl _)

/-- Any amount of fuel that yields a result yields the result of `gettok`. -/
theorem gettok_eq_of_fuel_h {n : Nat} {s : LexState} {r : LexResult}
    (h : gettokFuel n s = some r) : gettok s = r := by
  obtain ⟨r2, hr2⟩ := gettokFuel_isSome_h s
  have h1 := gettokFuel_mono_h (Nat.le_max_left n (s.input.length + 1)) s r h
  have h2 := gettokFuel_mono_h (Nat.le_max_right n (s.input.length + 1)) s r2 hr2
  rw [h1] at h2
  cases h2
  simp [gettok, hr2]

/-- After a comment that does not end the input, `gettok` returns what the
recursive call returns. -/
theorem gettok_rec_h (s : LexState) (h : recurses s) : gettok s = gettok (afterComment s) := by
  obtain ⟨r, hr⟩ := gettokFuel_isSome_h (afterComment s)
  rw [gettok_eq_of_fuel_h hr]
  apply gettok_eq_of_fuel_h (n := (afterComment s).input.length + 1 + 1)
  rw [gettokFuel_rec_h _ _ h]
  exact hr

/-- C7, counterexample: on `1 $ 2` the second call of the tokenizer of `toy.cpp` does not
fail: it returns the character `$` as a token (its character code 36) and makes the
character after it the lookahead. That tokenizer has no outcome other than a token. -/
theorem C7_counterexample :
    Toy.gettok (LexState.init "1 $ 2".toList)
      = (TOK_NUMBER, ⟨32, "$ 2".toList, [], ⟨['1']⟩, []⟩) ∧
    Toy.gettok ⟨32, "$ 2".toList, [], ⟨['1']⟩, []⟩
      = (36, ⟨32, "2".toList, [], ⟨['1']⟩, []⟩) ∧
    ord '$' = 36 ∧
    gettok ⟨32, "$ 2".toList, [], ⟨['1']⟩, []⟩
      = .undefinedToken 36 ⟨36, " 2".toList, [], ⟨['1']⟩, []⟩ :=
  ⟨by rfl, by rfl, by decide, by rfl⟩

/-- C7, amended: for every character `c` that is not a letter, not a digit, not `#` and
none of the characters `+ - * / ( )` that `lexer.h` recognizes, a call of the tokenizer
of `lexer.h` whose next non-white-space character is `c` (the one at which the
white-space loop stops, so `c` is no white space) throws `UndefinedTokenException`
carrying `c` (with any fuel, so the call does return) and returns no token; `c` stays the
lookahead. The tokenizer of `toy.cpp` does not fail at `c`: it returns `c` as the token
that is its character code (with any fuel) and makes the character after `c` the
lookahead. -/
theorem C7_lexical_fault (s : LexState) (c : Char) (rest : List Char)
    (hnext : skipSpace s.LastChar s.input = (ord c, rest))
    (halpha : isalpha (ord c) = false)
    (hdigit : isdigit (ord c) = false) (hhash : c ≠ '#')
    (hop : c ≠ '+' ∧ c ≠ '-' ∧ c ≠ '*' ∧ c ≠ '/' ∧ c ≠ '(' ∧ c ≠ ')') :
    (gettok s = .undefinedToken (ord c) { s with LastChar := ord c, input := rest } ∧
      ∀ fuel, 1 ≤ fuel → gettokFuel fuel s
        = some (.undefinedToken (ord c) { s with LastChar := ord c, input := rest })) ∧
    (Toy.gettok s
        = (ord c, ⟨(getchar rest).1, (getchar rest).2, s.IdentifierStr, s.NumVal, s.OpStr⟩) ∧
      ∀ fuel, 1 ≤ fuel → Toy.gettokFuel fuel s
        = some (ord c,
            ⟨(getchar rest).1, (getchar rest).2, s.IdentifierStr, s.NumVal, s.OpStr⟩)) := by
  have hord : ∀ (x : Char), c ≠ x → ord c ≠ ord x := by
    intro x hx h
    apply hx
    have := congrArg toChar h
    rwa [Toy.toChar_ord, Toy.toChar_ord] at this
  have h35 : ord c ≠ 35 := hord '#' hhash
  have h43 : ord c ≠ 43 := hord '+' hop.1
  have h45 : ord c ≠ 45 := hord '-' hop.2.1
  have h42 : ord c ≠ 42 := hord '*' hop.2.2.1
  have h47 : ord c ≠ 47 := hord '/' hop.2.2.2.1
  have h40 : ord c ≠ 40 := hord '(' hop.2.2.2.2.1
  have h41 : ord c ≠ 41 := hord ')' hop.2.2.2.2.2
  have hEOF : ord c ≠ EOF := by
    have := Toy.ord_nonneg c
    intro h; rw [h] at this; exact absurd this (by decide)
  have h5 : ¬ (ord c = 35 ∧ ord c ≠ EOF) := fun h => h35 h.1
  have h1 : gettokFuel 1 s
      = some (.undefinedToken (ord c) { s with LastChar := ord c, input := rest }) := by
    rw [gettokFuel]
    dsimp only
    rw [hnext]
    dsimp only
    have h6 : ¬ (ord c = 43 ∨ ord c = 45 ∨ ord c = 42 ∨ ord c = 47) := by
      rintro (h | h | h | h)
      · exact h43 h
      · exact h45 h
      · exact h42 h
      · exact h47 h
    simp only [halpha, hdigit, if_neg h35, Bool.false_eq_true, if_false, if_neg h5, if_neg h6,
      if_neg h40, if_neg h41, if_neg hEOF]
  have h2 : Toy.gettokFuel 1 s
      = some (ord c,
          ⟨(getchar rest).1, (getchar rest).2, s.IdentifierStr, s.NumVal, s.OpStr⟩) := by
    rw [Toy.gettokFuel]
    dsimp only
    rw [hnext]
    dsimp only
    simp only [halpha, hdigit, if_neg h35, Bool.false_eq_true, if_false, if_neg h5,
      if_neg hEOF]
  exact ⟨⟨gettok_eq_of_fuel_h h1, fun fuel hf => gettokFuel_mono_h hf s _ h1⟩,
    ⟨Toy.gettok_eq_of_fuel h2, fun fuel hf => Toy.gettokFuel_mono hf s _ h2⟩⟩

/-- C7, witness: on `1 $ 2` the first call of either tokenizer yields the number `1`; the
second call of the tokenizer of `lexer.h` throws `UndefinedTokenException('$')`, the
second call of the tokenizer of `toy.cpp` returns the token `$`. -/
theorem C7_lexical_fault_witness :
    gettok (LexState.init "1 $ 2".toList)
      = .tok TOK_NUMBER ⟨32, "$ 2".toList, [], ⟨['1']⟩, []⟩ ∧
    gettok ⟨32, "$ 2".toList, [], ⟨['1']⟩, []⟩
      = .undefinedToken (ord '$') ⟨ord '$', " 2".toList, [], ⟨['1']⟩, []⟩ ∧
    Toy.gettok (LexState.init "1 $ 2".toList)
      = (TOK_NUMBER, ⟨32, "$ 2".toList, [], ⟨['1']⟩, []⟩) ∧
    Toy.gettok ⟨32, "$ 2".toList, [], ⟨['1']⟩, []⟩
      = (ord '$', ⟨(getchar " 2".toList).1, (getchar " 2".toList).2, [], ⟨['1']⟩, []⟩) :=
  ⟨by rfl, (C7_lexical_fault ⟨32, "$ 2".toList, [], ⟨['1']⟩, []⟩ '$' " 2".toList (by rfl)
    (by decide) (by decide) (by decide) (by decide)).1.1,
   by rfl,
   (C7_lexical_fault ⟨32, "$ 2".toList, [], ⟨['1']⟩, []⟩ '$' " 2".toList (by rfl)
    (by decide) (by decide) (by decide) (by decide)).2.1⟩

end LexerH

/-! ## Comments -/

theorem skipSpace_cons_space (last : Int) (c : Char) (cs : List Char)
    (h : isspace last = true) : skipSpace last (c :: cs) = skipSpace (ord c) cs := by
  rw [skipSpace, if_pos h]

theorem commentLoop_append (cm rest : List Char) (h : ∀ c ∈ cm, c ≠ '\n' ∧ c ≠ '\r') :
    commentLoop (cm ++ rest) = commentLoop rest := by
  induction cm with
  | nil => rfl
  | cons c cm ih =>
    have hc := h c (List.mem_cons_self _ _)
    have h0 := Toy.ord_nonneg c
    have h10 : ord c ≠ 10 := by
      intro hh; apply hc.1
      have := congrArg toChar hh
      rwa [Toy.toChar_ord] at this
    have h13 : ord c ≠ 13 := by
      intro hh; apply hc.2
      have := congrArg toChar hh
      rwa [Toy.toChar_ord] at this
    have hE : ord c ≠ EOF := by
      intro hh; rw [hh] at h0; exact absurd h0 (by decide)
    rw [List.cons_append, commentLoop, if_pos ⟨hE, h10, h13⟩]
    exact ih (fun x hx => h x (List.mem_cons_of_mem _ hx))

theorem lexNumber_congr (a b : LexState) (last : Int) (inp : List Char)
    (h1 : a.IdentifierStr = b.IdentifierStr) (h2 : a.OpStr = b.OpStr) :
    lexNumber a last inp = lexNumber b last inp := by
  unfold lexNumber
  simp only [h1, h2]

theorem Toy.gettokFuel_congr (n : Nat) (a b : LexState)
    (hw : skipSpace a.LastChar a.input = skipSpace b.LastChar b.input)
    (h1 : a.IdentifierStr = b.IdentifierStr) (h2 : a.NumVal = b.NumVal)
    (h3 : a.OpStr = b.OpStr) : Toy.gettokFuel n a = Toy.gettokFuel n b := by
  cases n with
  | zero => rfl
  | succ n =>
    rw [Toy.gettokFuel, Toy.gettokFuel]
    simp only [hw, h1, h2, h3, lexNumber_congr a b _ _ h1 h3]

theorem LexerH.gettokFuel_congr_h (n : Nat) (a b : LexState)
    (hw : skipSpace a.LastChar a.input = skipSpace b.LastChar b.input)
    (h1 : a.IdentifierStr = b.IdentifierStr) (h2 : a.NumVal = b.NumVal)
    (h3 : a.OpStr = b.OpStr) : LexerH.gettokFuel n a = LexerH.gettokFuel n b := by
  cases n with
  | zero => rfl
  | succ n =>
    rw [LexerH.gettokFuel, LexerH.gettokFuel]
    simp only [hw, h1, h2, h3, lexNumber_congr a b _ _ h1 h3]

theorem recurses_comment (s0 : LexState) (cm r : List Char) (hsp : isspace s0.LastChar = true)
    (hcm : ∀ c ∈ cm, c ≠ '\n' ∧ c ≠ '\r') :
    recurses { s0 with input := '#' :: (cm ++ '\n' :: r) } ∧
    afterComment { s0 with input := '#' :: (cm ++ '\n' :: r) }
      = { s0 with LastChar := 10, input := r } := by
  have hw : skipSpace s0.LastChar ('#' :: (cm ++ '\n' :: r)) = (35, cm ++ '\n' :: r) := by
    rw [skipSpace_cons_space _ _ _ hsp]
    exact Toy.skipSpace_of_not_space _ _ (by decide)
  have hc : commentLoop (cm ++ '\n' :: r) = (10, r) := by
    rw [commentLoop_append _ _ hcm]
    rfl
  refine ⟨?_, ?_⟩
  · unfold recurses
    dsimp only
    rw [hw]
    dsimp only
    rw [hc]
    exact ⟨by decide, by decide, rfl, by show (10 : Int) ≠ EOF; decide⟩
  · unfold afterComment
    dsimp only
    rw [hw]
    dsimp only
    rw [hc]

theorem norecurses_comment_eof (s0 : LexState) (cm : List Char)
    (hsp : isspace s0.LastChar = true) (hcm : ∀ c ∈ cm, c ≠ '\n' ∧ c ≠ '\r') :
    skipSpace s0.LastChar ('#' :: cm) = (35, cm) ∧ commentLoop cm = (EOF, []) := by
  refine ⟨?_, ?_⟩
  · rw [skipSpace_cons_space _ _ _ hsp]
    exact Toy.skipSpace_of_not_space _ _ (by decide)
  · have := commentLoop_append cm [] hcm
    rw [List.append_nil] at this
    rw [this]
    rfl

/-- C9: for every comment text `cm` without `\n` and `\r` and every remaining input `r`,
each tokenizer (`toy.cpp` and `lexer.h`), started with white space as lookahead on
`#` `cm` `\n` `r`, returns after one recursive call exactly the result (token and
tokenizer state, lookahead included) that it returns on `\n` `r`; and when the comment is
followed by end of input, directly or after `\n`, it returns `Eof` with any fuel
of at least 1, respectively 2, calls: no fault, no loop. -/
theorem C9_comment (s0 : LexState) (cm r : List Char) (hsp : isspace s0.LastChar = true)
    (hcm : ∀ c ∈ cm, c ≠ '\n' ∧ c ≠ '\r') :
    (Toy.gettok { s0 with input := '#' :: (cm ++ '\n' :: r) }
        = Toy.gettok { s0 with input := '\n' :: r } ∧
      ∀ fuel, Toy.gettokFuel (fuel + 1) { s0 with input := '#' :: (cm ++ '\n' :: r) }
        = Toy.gettokFuel fuel { s0 with input := '\n' :: r }) ∧
    (LexerH.gettok { s0 with input := '#' :: (cm ++ '\n' :: r) }
        = LexerH.gettok { s0 with input := '\n' :: r } ∧
      ∀ fuel, LexerH.gettokFuel (fuel + 1) { s0 with input := '#' :: (cm ++ '\n' :: r) }
        = LexerH.gettokFuel fuel { s0 with input := '\n' :: r }) ∧
    (∀ fuel, 1 ≤ fuel → Toy.gettokFuel fuel { s0 with input := '#' :: cm }
        = some (TOK_EOF, { s0 with LastChar := EOF, input := [] })) ∧
    (∀ fuel, 2 ≤ fuel → Toy.gettokFuel fuel { s0 with input := '#' :: (cm ++ ['\n']) }
        = some (TOK_EOF, { s0 with LastChar := EOF, input := [] })) ∧
    (∀ fuel, 1 ≤ fuel → LexerH.gettokFuel fuel { s0 with input := '#' :: cm }
        = some (.tok TOK_EOF { s0 with LastChar := EOF, input := [] })) ∧
    (∀ fuel, 2 ≤ fuel → LexerH.gettokFuel fuel { s0 with input := '#' :: (cm ++ ['\n']) }
        = some (.tok TOK_EOF { s0 with LastChar := EOF, input := [] })) := by
  obtain ⟨hrec, hafter⟩ := recurses_comment s0 cm r hsp hcm
  obtain ⟨hrec2, hafter2⟩ := recurses_comment s0 cm [] hsp hcm
  obtain ⟨hw, hc⟩ := norecurses_comment_eof s0 cm hsp hcm
  have hskip : skipSpace 10 r = skipSpace s0.LastChar ('\n' :: r) := by
    rw [skipSpace_cons_space _ _ _ hsp]; rfl
  have hT : ∀ fuel, Toy.gettokFuel (fuel + 1) { s0 with input := '#' :: (cm ++ '\n' :: r) }
      = Toy.gettokFuel fuel { s0 with input := '\n' :: r } := by
    intro fuel
    rw [Toy.gettokFuel_rec _ _ hrec, hafter]
    exact Toy.gettokFuel_congr _ _ _ hskip rfl rfl rfl
  have hL : ∀ fuel, LexerH.gettokFuel (fuel + 1) { s0 with input := '#' :: (cm ++ '\n' :: r) }
      = LexerH.gettokFuel fuel { s0 with input := '\n' :: r } := by
    intro fuel
    rw [LexerH.gettokFuel_rec_h _ _ hrec, hafter]
    exact LexerH.gettokFuel_congr_h _ _ _ hskip rfl rfl rfl
  have hT1 : Toy.gettokFuel 1 { s0 with input := '#' :: cm }
      = some (TOK_EOF, { s0 with LastChar := EOF, input := [] }) := by
    rw [Toy.gettokFuel]
    dsimp only
    rw [hw]
    dsimp only
    rw [if_pos rfl, hc]
    rfl
  have hL1 : LexerH.gettokFuel 1 { s0 with input := '#' :: cm }
      = some (.tok TOK_EOF { s0 with LastChar := EOF, input := [] }) := by
    rw [LexerH.gettokFuel]
    dsimp only
    rw [hw]
    dsimp only
    rw [if_pos rfl, hc]
    rfl
  have hT2 : Toy.gettokFuel 2 { s0 with input := '#' :: (cm ++ ['\n']) }
      = some (TOK_EOF, { s0 with LastChar := EOF, input := [] }) := by
    rw [Toy.gettokFuel_rec _ _ hrec2, hafter2]
    rfl
  have hL2 : LexerH.gettokFuel 2 { s0 with input := '#' :: (cm ++ ['\n']) }
      = some (.tok TOK_EOF { s0 with LastChar := EOF, input := [] }) := by
    rw [LexerH.gettokFuel_rec_h _ _ hrec2, hafter2]
    rfl
  refine ⟨⟨?_, hT⟩, ⟨?_, hL⟩, fun fuel hf => Toy.gettokFuel_mono hf _ _ hT1,
    fun fuel hf => Toy.gettokFuel_mono hf _ _ hT2,
    fun fuel hf => LexerH.gettokFuel_mono_h hf _ _ hL1,
    fun fuel hf => LexerH.gettokFuel_mono_h hf _ _ hL2⟩
  · obtain ⟨r0, hr0⟩ := Toy.gettokFuel_isSome { s0 with input := '\n' :: r }
    rw [Toy.gettok_eq_of_fuel hr0]
    exact Toy.gettok_eq_of_fuel (by rw [hT]; exact hr0)
  · obtain ⟨r0, hr0⟩ := LexerH.gettokFuel_isSome_h { s0 with input := '\n' :: r }
    rw [LexerH.gettok_eq_of_fuel_h hr0]
    exact LexerH.gettok_eq_of_fuel_h (by rw [hL]; exact hr0)

/-- C9, witness: `# comment only\n` followed by end of input yields `Eof` in both
tokenizers, and a comment line before `42` yields the number `42`. -/
theorem C9_comment_witness :
    Toy.gettok (LexState.init "# comment only\n".toList)
      = (TOK_EOF, ⟨EOF, [], [], ⟨[]⟩, []⟩) ∧
    LexerH.gettok (LexState.init "# comment only\n".toList)
      = .tok TOK_EOF ⟨EOF, [], [], ⟨[]⟩, []⟩ ∧
    Toy.gettok (LexState.init "# c\n42".toList) = Toy.gettok (LexState.init "\n42".toList) ∧
    Toy.gettok (LexState.init "\n42".toList) = (TOK_NUMBER, ⟨EOF, [], [], ⟨['4', '2']⟩, []⟩) :=
  ⟨Toy.gettok_eq_of_fuel
      ((C9_comment (LexState.init []) " comment only".toList [] (by decide)
        (by decide)).2.2.2.1 2 (Nat.le_refl 2)),
   LexerH.gettok_eq_of_fuel_h
      ((C9_comment (LexState.init []) " comment only".toList [] (by decide)
        (by decide)).2.2.2.2.2 2 (Nat.le_refl 2)),
   (C9_comment (LexState.init []) " c".toList "42".toList (by decide) (by decide)).1.1,
   by rfl⟩

/-! ## Numerals -/

theorem digitLoop_digits (cond : Int → Bool) : ∀ (ds : List Char) (num : List Char)
    (last : Int) (c : Char) (rest : List Char),
    (∀ x ∈ ds, cond (ord x) = true) → cond (ord c) = false →
    digitLoop cond num last (ds ++ c :: rest) = (num ++ toChar last :: ds, ord c, rest) := by
  intro ds
  induction ds with
  | nil =>
    intro num last c rest _ hc
    simp [digitLoop, hc]
  | cons x ds ih =>
    intro num last c rest hds hc
    have hx := hds x (List.mem_cons_self _ _)
    rw [List.cons_append, digitLoop, if_pos hx,
      ih _ _ c rest (fun y hy => hds y (List.mem_cons_of_mem _ hy)) hc, Toy.toChar_ord]
    simp

theorem isdigit_bounds {x : Int} (h : isdigit x = true) : 48 ≤ x ∧ x ≤ 57 := by
  simpa [isdigit] using h

theorem isdigit_not_space {x : Int} (h : isdigit x = true) : isspace x = false := by
  have := isdigit_bounds h
  simp only [isspace, decide_eq_false_iff_not]
  omega

theorem isdigit_not_alpha {x : Int} (h : isdigit x = true) : isalpha x = false := by
  have := isdigit_bounds h
  simp only [isalpha, decide_eq_false_iff_not]
  omega

theorem lexNumber_trailing_dot (s : LexState) (d0 : Char) (d1 rest : List Char)
    (hd : ∀ x ∈ d1, isdigit (ord x) = true) (hc : isdigit (getchar rest).1 = false) :
    lexNumber s (ord d0) (d1 ++ '.' :: rest)
      = { s with LastChar := (getchar rest).1, input := (getchar rest).2,
                 NumVal := strtod (d0 :: d1 ++ ['.', '0']) } := by
  have hloop : digitLoop (fun c => isdigit c && decide (c ≠ 46)) [] (ord d0)
      (d1 ++ '.' :: rest) = ([] ++ toChar (ord d0) :: d1, ord '.', rest) := by
    apply digitLoop_digits
    · intro x hx
      have h1 := hd x hx
      have h2 := isdigit_bounds h1
      simp only [h1, Bool.true_and, decide_eq_true_eq]
      omega
    · decide
  unfold lexNumber
  dsimp only
  rw [hloop]
  dsimp only
  rw [if_pos (by decide)]
  simp only [hc, Bool.false_eq_true, if_false, Toy.toChar_ord, List.nil_append]
  simp

theorem natOfDigits_takeWhile (d : List Char) (t : List Char)
    (hd : ∀ x ∈ d, isdigit (ord x) = true) :
    (d ++ '.' :: t).takeWhile (fun c => c ≠ '.') = d ∧
    (d ++ '.' :: t).dropWhile (fun c => c ≠ '.') = '.' :: t := by
  induction d with
  | nil => simp
  | cons x d ih =>
    have hx : x ≠ '.' := by
      intro h
      have := hd x (List.mem_cons_self _ _)
      rw [h] at this
      exact absurd this (by decide)
    have ih2 := ih (fun y hy => hd y (List.mem_cons_of_mem _ hy))
    simpa [List.takeWhile, List.dropWhile, hx] using ih2

/-- C10: for every non-empty digit string `d` followed by `.` and then by a character that
is not a digit or by end of input, each tokenizer (`toy.cpp` and `lexer.h`) returns,
with any fuel, the token `Number` whose numeral text is `d` followed by `.0`; the
lookahead is the character after the `.` (or `EOF`); the text `d.0` denotes exactly
the integer that `d` denotes. -/
theorem C10_trailing_dot (s0 : LexState) (d rest : List Char)
    (hsp : isspace s0.LastChar = true) (hne : d ≠ [])
    (hd : ∀ x ∈ d, isdigit (ord x) = true) (hc : isdigit (getchar rest).1 = false) :
    (∀ fuel, 1 ≤ fuel → Toy.gettokFuel fuel { s0 with input := d ++ '.' :: rest }
      = some (TOK_NUMBER, { s0 with LastChar := (getchar rest).1, input := (getchar rest).2, NumVal := strtod (d ++ ['.', '0']) })) ∧
    Toy.gettok { s0 with input := d ++ '.' :: rest }
      = (TOK_NUMBER, { s0 with LastChar := (getchar rest).1, input := (getchar rest).2, NumVal := strtod (d ++ ['.', '0']) }) ∧
    (∀ fuel, 1 ≤ fuel → LexerH.gettokFuel fuel { s0 with input := d ++ '.' :: rest }
      = some (.tok TOK_NUMBER { s0 with LastChar := (getchar rest).1, input := (getchar rest).2, NumVal := strtod (d ++ ['.', '0']) })) ∧
    LexerH.gettok { s0 with input := d ++ '.' :: rest }
      = .tok TOK_NUMBER { s0 with LastChar := (getchar rest).1, input := (getchar rest).2, NumVal := strtod (d ++ ['.', '0']) } ∧
    decimalValue (d ++ ['.', '0']) = (natOfDigits d : ℚ) := by
  cases d with
  | nil => exact absurd rfl hne
  | cons d0 d1 =>
    have hd0 := hd d0 (List.mem_cons_self _ _)
    have hd1 : ∀ x ∈ d1, isdigit (ord x) = true := fun x hx => hd x (List.mem_cons_of_mem _ hx)
    have hw : skipSpace s0.LastChar (d0 :: d1 ++ '.' :: rest)
        = (ord d0, d1 ++ '.' :: rest) := by
      rw [List.cons_append, skipSpace_cons_space _ _ _ hsp]
      exact Toy.skipSpace_of_not_space _ _ (isdigit_not_space hd0)
    have hlex := lexNumber_trailing_dot { s0 with input := d0 :: d1 ++ '.' :: rest } d0 d1 rest
      hd1 hc
    have hT : Toy.gettokFuel 1 { s0 with input := d0 :: d1 ++ '.' :: rest }
        = some (TOK_NUMBER, { s0 with LastChar := (getchar rest).1, input := (getchar rest).2, NumVal := strtod (d0 :: d1 ++ ['.', '0']) }) := by
      rw [Toy.gettokFuel]
      dsimp only
      rw [hw]
      dsimp only
      rw [if_neg (by rw [isdigit_not_alpha hd0]; simp), if_pos hd0, hlex]
    have hL : LexerH.gettokFuel 1 { s0 with input := d0 :: d1 ++ '.' :: rest }
        = some (.tok TOK_NUMBER { s0 with LastChar := (getchar rest).1, input := (getchar rest).2, NumVal := strtod (d0 :: d1 ++ ['.', '0']) }) := by
      rw [LexerH.gettokFuel]
      dsimp only
      rw [hw]
      dsimp only
      rw [if_neg (by rw [isdigit_not_alpha hd0]; simp), if_pos hd0, hlex]
    refine ⟨fun fuel hf => Toy.gettokFuel_mono hf _ _ hT, Toy.gettok_eq_of_fuel hT,
      fun fuel hf => LexerH.gettokFuel_mono_h hf _ _ hL, LexerH.gettok_eq_of_fuel_h hL, ?_⟩
    obtain ⟨t1, t2⟩ := natOfDigits_takeWhile (d0 :: d1) ['0'] hd
    unfold decimalValue
    rw [t1, t2]
    simp [natOfDigits, digitVal]

/-- C10, witness: `3.` yields the number with numeral text `3.0` in both tokenizers, with
end of input as lookahead. -/
theorem C10_trailing_dot_witness :
    Toy.gettok (LexState.init "3.".toList) = (TOK_NUMBER, ⟨EOF, [], [], ⟨"3.0".toList⟩, []⟩) ∧
    LexerH.gettok (LexState.init "3.".toList)
      = .tok TOK_NUMBER ⟨EOF, [], [], ⟨"3.0".toList⟩, []⟩ ∧
    decimalValue "3.0".toList = 3 :=
  ⟨(C10_trailing_dot (LexState.init []) ['3'] [] (by decide) (by decide) (by decide)
      (by decide)).2.1,
   (C10_trailing_dot (LexState.init []) ['3'] [] (by decide) (by decide) (by decide)
      (by decide)).2.2.2.1,
   by
    have h := (C10_trailing_dot (LexState.init []) ['3'] [] (by decide) (by decide)
      (by decide) (by decide)).2.2.2.2
    rw [show "3.0".toList = ['3'] ++ ['.', '0'] from rfl, h]
    simp [natOfDigits, digitVal]⟩

/-! ## Keywords and identifiers -/

theorem identLoop_word (ws rest : List Char) (hws : ∀ x ∈ ws, isalnum (ord x) = true)
    (hend : isalnum (getchar rest).1 = false) : ∀ id : List Char,
    identLoop id (ws ++ rest) = (id ++ ws, (getchar rest).1, (getchar rest).2) := by
  induction ws with
  | nil =>
    intro id
    cases rest with
    | nil => simp [identLoop, getchar]
    | cons c r =>
      have hc : isalnum (ord c) = false := hend
      simp [identLoop, getchar, hc]
  | cons x xs ih =>
    intro id
    have hx := hws x (List.mem_cons_self _ _)
    rw [List.cons_append, identLoop, if_pos hx,
      ih (fun y hy => hws y (List.mem_cons_of_mem _ hy))]
    simp

/-- C11: a word `a :: ws` (a letter, then letters or digits) that is followed by a
character that is neither a letter nor a digit, or by end of input, is returned by each
tokenizer (`toy.cpp` and `lexer.h`, with any fuel) as `TOK_DEF` exactly when it is `def`,
as `TOK_EXTERN` exactly when it is `extern`, and as `TOK_IDENT` otherwise;
`IdentifierStr` is the word unchanged, and the lookahead is the character that ended the
word (or `EOF`). -/
theorem C11_keyword_or_identifier (s : LexState) (a : Char) (ws rest : List Char)
    (hw : skipSpace s.LastChar s.input = (ord a, ws ++ rest))
    (ha : isalpha (ord a) = true) (hws : ∀ x ∈ ws, isalnum (ord x) = true)
    (hend : isalnum (getchar rest).1 = false) :
    ∃ t : Int,
      (t = TOK_DEF ↔ a :: ws = ['d', 'e', 'f']) ∧
      (t = TOK_EXTERN ↔ a :: ws = ['e', 'x', 't', 'e', 'r', 'n']) ∧
      (a :: ws ≠ ['d', 'e', 'f'] → a :: ws ≠ ['e', 'x', 't', 'e', 'r', 'n'] → t = TOK_IDENT) ∧
      (∀ fuel, 1 ≤ fuel → Toy.gettokFuel fuel s
        = some (t, ⟨(getchar rest).1, (getchar rest).2, a :: ws, s.NumVal, s.OpStr⟩)) ∧
      Toy.gettok s
        = (t, ⟨(getchar rest).1, (getchar rest).2, a :: ws, s.NumVal, s.OpStr⟩) ∧
      (∀ fuel, 1 ≤ fuel → LexerH.gettokFuel fuel s
        = some (.tok t ⟨(getchar rest).1, (getchar rest).2, a :: ws, s.NumVal, s.OpStr⟩)) ∧
      LexerH.gettok s
        = .tok t ⟨(getchar rest).1, (getchar rest).2, a :: ws, s.NumVal, s.OpStr⟩ := by
  have hloop := identLoop_word ws rest hws hend [a]
  have hcons : [a] ++ ws = a :: ws := rfl
  rw [hcons] at hloop
  have hT : Toy.gettokFuel 1 s
      = some (if a :: ws = ['d', 'e', 'f'] then TOK_DEF
              else if a :: ws = ['e', 'x', 't', 'e', 'r', 'n'] then TOK_EXTERN else TOK_IDENT,
          ⟨(getchar rest).1, (getchar rest).2, a :: ws, s.NumVal, s.OpStr⟩) := by
    rw [Toy.gettokFuel]
    dsimp only
    rw [hw]
    dsimp only
    rw [if_pos ha, Toy.toChar_ord, hloop]
    dsimp only
    by_cases h1 : a :: ws = ['d', 'e', 'f']
    · rw [if_pos h1, if_pos h1]
    · rw [if_neg h1, if_neg h1]
      by_cases h2 : a :: ws = ['e', 'x', 't', 'e', 'r', 'n']
      · rw [if_pos h2, if_pos h2]
      · rw [if_neg h2, if_neg h2]
  have hL : LexerH.gettokFuel 1 s
      = some (.tok (if a :: ws = ['d', 'e', 'f'] then TOK_DEF
              else if a :: ws = ['e', 'x', 't', 'e', 'r', 'n'] then TOK_EXTERN else TOK_IDENT)
          ⟨(getchar rest).1, (getchar rest).2, a :: ws, s.NumVal, s.OpStr⟩) := by
    rw [LexerH.gettokFuel]
    dsimp only
    rw [hw]
    dsimp only
    rw [if_pos ha, Toy.toChar_ord, hloop]
    dsimp only
    by_cases h1 : a :: ws = ['d', 'e', 'f']
    · rw [if_pos h1, if_pos h1]
    · rw [if_neg h1, if_neg h1]
      by_cases h2 : a :: ws = ['e', 'x', 't', 'e', 'r', 'n']
      · rw [if_pos h2, if_pos h2]
      · rw [if_neg h2, if_neg h2]
  refine ⟨_, ?_, ?_, ?_, fun fuel hf => Toy.gettokFuel_mono hf _ _ hT, Toy.gettok_eq_of_fuel hT,
    fun fuel hf => LexerH.gettokFuel_mono_h hf _ _ hL, LexerH.gettok_eq_of_fuel_h hL⟩
  · by_cases h1 : a :: ws = ['d', 'e', 'f']
    · simp [h1]
    · rw [if_neg h1]
      by_cases h2 : a :: ws = ['e', 'x', 't', 'e', 'r', 'n']
      · rw [if_pos h2]; simp only [h1, iff_false]; decide
      · rw [if_neg h2]; simp only [h1, iff_false]; decide
  · by_cases h1 : a :: ws = ['d', 'e', 'f']
    · rw [if_pos h1]
      have h2 : a :: ws ≠ ['e', 'x', 't', 'e', 'r', 'n'] := by rw [h1]; decide
      simp only [h2, iff_false]; decide
    · rw [if_neg h1]
      by_cases h2 : a :: ws = ['e', 'x', 't', 'e', 'r', 'n']
      · simp [h2]
      · rw [if_neg h2]; simp only [h2, iff_false]; decide
  · intro h1 h2
    rw [if_neg h1, if_neg h2]

/-- C11, witness: `def` and `extern` are keywords; `define`, `def1` and `Extern` are
identifiers with their text unchanged; the lookahead is the character after the word. -/
theorem C11_keyword_or_identifier_witness :
    (∃ t : Int, (t = TOK_DEF ↔ "def1".toList = ['d', 'e', 'f']) ∧
      (t = TOK_EXTERN ↔ "def1".toList = ['e', 'x', 't', 'e', 'r', 'n']) ∧
      ("def1".toList ≠ ['d', 'e', 'f'] → "def1".toList ≠ ['e', 'x', 't', 'e', 'r', 'n'] →
        t = TOK_IDENT) ∧
      (∀ fuel, 1 ≤ fuel → Toy.gettokFuel fuel (LexState.init "def1(".toList)
        = some (t, ⟨(getchar ['(']).1, (getchar ['(']).2, "def1".toList, ⟨[]⟩, []⟩)) ∧
      Toy.gettok (LexState.init "def1(".toList)
        = (t, ⟨(getchar ['(']).1, (getchar ['(']).2, "def1".toList, ⟨[]⟩, []⟩) ∧
      (∀ fuel, 1 ≤ fuel → LexerH.gettokFuel fuel (LexState.init "def1(".toList)
        = some (.tok t ⟨(getchar ['(']).1, (getchar ['(']).2, "def1".toList, ⟨[]⟩, []⟩)) ∧
      LexerH.gettok (LexState.init "def1(".toList)
        = .tok t ⟨(getchar ['(']).1, (getchar ['(']).2, "def1".toList, ⟨[]⟩, []⟩) ∧
    Toy.gettok (LexState.init "def x".toList) = (TOK_DEF, ⟨32, ['x'], "def".toList, ⟨[]⟩, []⟩) ∧
    Toy.gettok (LexState.init "extern".toList)
      = (TOK_EXTERN, ⟨EOF, [], "extern".toList, ⟨[]⟩, []⟩) ∧
    Toy.gettok (LexState.init "define".toList)
      = (TOK_IDENT, ⟨EOF, [], "define".toList, ⟨[]⟩, []⟩) ∧
    Toy.gettok (LexState.init "def1".toList) = (TOK_IDENT, ⟨EOF, [], "def1".toList, ⟨[]⟩, []⟩) ∧
    Toy.gettok (LexState.init "Extern".toList)
      = (TOK_IDENT, ⟨EOF, [], "Extern".toList, ⟨[]⟩, []⟩) ∧
    LexerH.gettok (LexState.init "Extern".toList)
      = .tok TOK_IDENT ⟨EOF, [], "Extern".toList, ⟨[]⟩, []⟩ :=
  ⟨C11_keyword_or_identifier (LexState.init "def1(".toList) 'd' ['e', 'f', '1'] ['(']
      (by rfl) (by decide) (by decide) (by decide),
   by rfl, by rfl, by rfl, by rfl, by rfl, by rfl⟩

/-! ## Operators and parentheses -/

/-- What `gettok` of `lexer.h` does at a character `w` that is no letter, no digit and no
`#`: the `switch`, the test for `EOF`, the `throw`. -/
theorem LexerH.gettokFuel_single_h (l : LexState) (w : Int) (rest : List Char)
    (hw : skipSpace l.LastChar l.input = (w, rest))
    (h1 : isalpha w = false) (h2 : isdigit w = false) (h3 : w ≠ 35) :
    LexerH.gettokFuel 1 l = some (
      if w = 43 ∨ w = 45 ∨ w = 42 ∨ w = 47 then
        .tok TOK_OP ⟨(getchar rest).1, (getchar rest).2, l.IdentifierStr, l.NumVal, [toChar w]⟩
      else if w = 40 then
        .tok LexerH.TOK_LP ⟨(getchar rest).1, (getchar rest).2, l.IdentifierStr, l.NumVal, l.OpStr⟩
      else if w = 41 then
        .tok LexerH.TOK_RP ⟨(getchar rest).1, (getchar rest).2, l.IdentifierStr, l.NumVal, l.OpStr⟩
      else if w = EOF then .tok TOK_EOF ⟨w, rest, l.IdentifierStr, l.NumVal, l.OpStr⟩
      else .undefinedToken w ⟨w, rest, l.IdentifierStr, l.NumVal, l.OpStr⟩) := by
  rw [LexerH.gettokFuel]
  dsimp only
  rw [hw]
  dsimp only
  have h5 : ¬ (w = 35 ∧ w ≠ EOF) := fun h => h3 h.1
  simp only [h1, h2, if_neg h3, Bool.false_eq_true, if_false, if_neg h5]
  split
  · rfl
  · split
    · rfl
    · split
      · rfl
      · split <;> rfl

/-- C12, counterexample: the tokenizer of `lexer.h` does not return an operator token for
`<`; it throws `UndefinedTokenException('<')`. -/
theorem C12_counterexample :
    LexerH.gettok (LexState.init "<".toList) = .undefinedToken 60 ⟨60, [], [], ⟨[]⟩, []⟩ ∧
    (∀ (t : Int) (s : LexState), LexerH.gettok (LexState.init "<".toList) ≠ .tok t s) ∧
    ord '<' = 60 := by
  have h : LexerH.gettok (LexState.init "<".toList)
      = .undefinedToken 60 ⟨60, [], [], ⟨[]⟩, []⟩ := by rfl
  refine ⟨h, ?_, by decide⟩
  intro t s h2
  rw [h] at h2
  cases h2

/-- C12, amended: when the next character that is no white space is `c`, followed by
`rest`: the tokenizer of `lexer.h` returns `TOK_OP` with `OpStr = c` for `+ - * /`,
`TOK_LP` for `(` and `TOK_RP` for `)`, consuming exactly that character (the lookahead is
the first character of `rest`), and throws no exception; for `<` it throws
`UndefinedTokenException('<')`. The tokenizer of `toy.cpp` returns each of the seven
characters `+ - * / < ( )` as the token that is its character code, consuming exactly
that character. Each call returns with any fuel. -/
theorem C12_operator_tokens (s : LexState) (c : Char) (rest : List Char)
    (hw : skipSpace s.LastChar s.input = (ord c, rest)) :
    (c = '+' ∨ c = '-' ∨ c = '*' ∨ c = '/' → ∀ fuel, 1 ≤ fuel →
      LexerH.gettokFuel fuel s = some (.tok TOK_OP
        ⟨(getchar rest).1, (getchar rest).2, s.IdentifierStr, s.NumVal, [c]⟩) ∧
      LexerH.gettok s = .tok TOK_OP
        ⟨(getchar rest).1, (getchar rest).2, s.IdentifierStr, s.NumVal, [c]⟩) ∧
    (c = '(' → ∀ fuel, 1 ≤ fuel →
      LexerH.gettokFuel fuel s = some (.tok LexerH.TOK_LP
        ⟨(getchar rest).1, (getchar rest).2, s.IdentifierStr, s.NumVal, s.OpStr⟩) ∧
      LexerH.gettok s = .tok LexerH.TOK_LP
        ⟨(getchar rest).1, (getchar rest).2, s.IdentifierStr, s.NumVal, s.OpStr⟩) ∧
    (c = ')' → ∀ fuel, 1 ≤ fuel →
      LexerH.gettokFuel fuel s = some (.tok LexerH.TOK_RP
        ⟨(getchar rest).1, (getchar rest).2, s.IdentifierStr, s.NumVal, s.OpStr⟩) ∧
      LexerH.gettok s = .tok LexerH.TOK_RP
        ⟨(getchar rest).1, (getchar rest).2, s.IdentifierStr, s.NumVal, s.OpStr⟩) ∧
    (c = '<' → ∀ fuel, 1 ≤ fuel →
      LexerH.gettokFuel fuel s = some (.undefinedToken 60
        ⟨60, rest, s.IdentifierStr, s.NumVal, s.OpStr⟩) ∧
      LexerH.gettok s = .undefinedToken 60 ⟨60, rest, s.IdentifierStr, s.NumVal, s.OpStr⟩) ∧
    (c = '+' ∨ c = '-' ∨ c = '*' ∨ c = '/' ∨ c = '<' ∨ c = '(' ∨ c = ')' →
      ∀ fuel, 1 ≤ fuel →
      Toy.gettokFuel fuel s = some (ord c,
        ⟨(getchar rest).1, (getchar rest).2, s.IdentifierStr, s.NumVal, s.OpStr⟩) ∧
      Toy.gettok s = (ord c,
        ⟨(getchar rest).1, (getchar rest).2, s.IdentifierStr, s.NumVal, s.OpStr⟩)) := by
  have key : ∀ r : LexerH.LexResult, LexerH.gettokFuel 1 s = some r →
      ∀ fuel, 1 ≤ fuel → LexerH.gettokFuel fuel s = some r ∧ LexerH.gettok s = r :=
    fun r h fuel hf => ⟨LexerH.gettokFuel_mono_h hf s _ h, LexerH.gettok_eq_of_fuel_h h⟩
  refine ⟨?_, ?_, ?_, ?_, ?_⟩
  · intro hc
    apply key
    rcases hc with rfl | rfl | rfl | rfl <;>
      exact LexerH.gettokFuel_single_h s _ rest hw (by decide) (by decide) (by decide)
  · intro hc
    apply key
    subst hc
    exact LexerH.gettokFuel_single_h s _ rest hw (by decide) (by decide) (by decide)
  · intro hc
    apply key
    subst hc
    exact LexerH.gettokFuel_single_h s _ rest hw (by decide) (by decide) (by decide)
  · intro hc
    apply key
    subst hc
    exact LexerH.gettokFuel_single_h s _ rest hw (by decide) (by decide) (by decide)
  · intro hc fuel hf
    have h1 : Toy.gettokFuel 1 s = some (ord c,
        ⟨(getchar rest).1, (getchar rest).2, s.IdentifierStr, s.NumVal, s.OpStr⟩) := by
      rw [Toy.gettokFuel]
      dsimp only
      rw [hw]
      dsimp only
      rcases hc with rfl | rfl | rfl | rfl | rfl | rfl | rfl <;> rfl
    exact ⟨Toy.gettokFuel_mono hf s _ h1, Toy.gettok_eq_of_fuel h1⟩

/-- C12, witness: on `+ 1` the tokenizer of `lexer.h` returns `TOK_OP` with `OpStr = +`
and the tokenizer of `toy.cpp` the character code of `+`; one character is consumed. -/
theorem C12_operator_tokens_witness :
    (∀ fuel, 1 ≤ fuel →
      LexerH.gettokFuel fuel (LexState.init "+ 1".toList) = some (.tok TOK_OP
        ⟨(getchar " 1".toList).1, (getchar " 1".toList).2, [], ⟨[]⟩, ['+']⟩) ∧
      LexerH.gettok (LexState.init "+ 1".toList) = .tok TOK_OP
        ⟨(getchar " 1".toList).1, (getchar " 1".toList).2, [], ⟨[]⟩, ['+']⟩) ∧
    Toy.gettok (LexState.init "+ 1".toList) = (43, ⟨32, ['1'], [], ⟨[]⟩, []⟩) ∧
    Toy.gettok (LexState.init "<".toList) = (60, ⟨EOF, [], [], ⟨[]⟩, []⟩) ∧
    LexerH.gettok (LexState.init "(".toList) = .tok LexerH.TOK_LP ⟨EOF, [], [], ⟨[]⟩, []⟩ ∧
    LexerH.gettok (LexState.init ")".toList) = .tok LexerH.TOK_RP ⟨EOF, [], [], ⟨[]⟩, []⟩ ∧
    LexerH.gettok (LexState.init "/".toList) = .tok TOK_OP ⟨EOF, [], [], ⟨[]⟩, ['/']⟩ :=
  ⟨(C12_operator_tokens (LexState.init "+ 1".toList) '+' " 1".toList (by rfl)).1 (Or.inl rfl),
   by rfl, by rfl, by rfl, by rfl, by rfl⟩

/-! ## The precedence table -/

namespace Toy

/-- C13: with the table that `initBinopPrecedence` fills, `GetTokPrecedence` returns 10
when the current token is `<`, 20 for `+`, 20 for `-`, 40 for `*`, and `-1` for every
other current token; it never returns 0. In particular it returns `-1` for `/`, `(`, `)`,
`,`, `;` and for the token codes of end of input, `def`, `extern`, identifiers and
numbers. -/
theorem C13_precedence_table (s : PState) :
    (s.CurTok = 60 → GetTokPrecedence s = 10) ∧
    (s.CurTok = 43 → GetTokPrecedence s = 20) ∧
    (s.CurTok = 45 → GetTokPrecedence s = 20) ∧
    (s.CurTok = 42 → GetTokPrecedence s = 40) ∧
    (s.CurTok ≠ 60 → s.CurTok ≠ 43 → s.CurTok ≠ 45 → s.CurTok ≠ 42 →
      GetTokPrecedence s = -1) ∧
    (s.CurTok = 47 ∨ s.CurTok = 40 ∨ s.CurTok = 41 ∨ s.CurTok = 44 ∨ s.CurTok = 59 ∨
      s.CurTok = TOK_EOF ∨ s.CurTok = TOK_DEF ∨ s.CurTok = TOK_EXTERN ∨
      s.CurTok = TOK_IDENT ∨ s.CurTok = TOK_NUMBER → GetTokPrecedence s = -1) ∧
    GetTokPrecedence s ≠ 0 ∧ (GetTokPrecedence s = -1 ∨ 0 < GetTokPrecedence s) := by
  have hother : s.CurTok ≠ 60 → s.CurTok ≠ 43 → s.CurTok ≠ 45 → s.CurTok ≠ 42 →
      GetTokPrecedence s = -1 := by
    intro h60 h43 h45 h42
    unfold GetTokPrecedence
    by_cases ha : isascii s.CurTok = true
    · simp [ha, BinopPrecedence, initBinopPrecedence, PrecMap.set, PrecMap.empty,
        h60, h43, h45, h42]
    · simp [ha]
  have h60 : s.CurTok = 60 → GetTokPrecedence s = 10 := by
    intro h; unfold GetTokPrecedence; rw [h]; rfl
  have h43 : s.CurTok = 43 → GetTokPrecedence s = 20 := by
    intro h; unfold GetTokPrecedence; rw [h]; rfl
  have h45 : s.CurTok = 45 → GetTokPrecedence s = 20 := by
    intro h; unfold GetTokPrecedence; rw [h]; rfl
  have h42 : s.CurTok = 42 → GetTokPrecedence s = 40 := by
    intro h; unfold GetTokPrecedence; rw [h]; rfl
  have hcases : GetTokPrecedence s = -1 ∨ 0 < GetTokPrecedence s := by
    by_cases c60 : s.CurTok = 60
    · right; rw [h60 c60]; decide
    · by_cases c43 : s.CurTok = 43
      · right; rw [h43 c43]; decide
      · by_cases c45 : s.CurTok = 45
        · right; rw [h45 c45]; decide
        · by_cases c42 : s.CurTok = 42
          · right; rw [h42 c42]; decide
          · left; exact hother c60 c43 c45 c42
  refine ⟨h60, h43, h45, h42, hother, ?_, ?_, hcases⟩
  · intro h
    apply hother <;>
      (rcases h with h | h | h | h | h | h | h | h | h | h <;> (rw [h]; decide))
  · rcases hcases with h | h
    · rw [h]; decide
    · omega

/-- C13, witness: the precedences of `<`, `+`, `-`, `*`, and `-1` for `/`, `;` and an
identifier. -/
theorem C13_precedence_table_witness :
    GetTokPrecedence ⟨LexState.init [], 60, []⟩ = 10 ∧
    GetTokPrecedence ⟨LexState.init [], 43, []⟩ = 20 ∧
    GetTokPrecedence ⟨LexState.init [], 45, []⟩ = 20 ∧
    GetTokPrecedence ⟨LexState.init [], 42, []⟩ = 40 ∧
    GetTokPrecedence ⟨LexState.init [], 47, []⟩ = -1 ∧
    GetTokPrecedence ⟨LexState.init [], 59, []⟩ = -1 ∧
    GetTokPrecedence ⟨LexState.init [], TOK_IDENT, []⟩ = -1 :=
  ⟨(C13_precedence_table ⟨LexState.init [], 60, []⟩).1 rfl,
   (C13_precedence_table ⟨LexState.init [], 43, []⟩).2.1 rfl,
   (C13_precedence_table ⟨LexState.init [], 45, []⟩).2.2.1 rfl,
   (C13_precedence_table ⟨LexState.init [], 42, []⟩).2.2.2.1 rfl,
   (C13_precedence_table ⟨LexState.init [], 47, []⟩).2.2.2.2.1
     (by decide) (by decide) (by decide) (by decide),
   (C13_precedence_table ⟨LexState.init [], 59, []⟩).2.2.2.2.2.1
     (Or.inr (Or.inr (Or.inr (Or.inr (Or.inl rfl))))),
   (C13_precedence_table ⟨LexState.init [], TOK_IDENT, []⟩).2.2.2.2.2.1
     (Or.inr (Or.inr (Or.inr (Or.inr (Or.inr (Or.inr (Or.inr (Or.inr (Or.inl rfl)))))))))⟩

end Toy

/-! ## Top-level expressions -/

namespace Toy

/-- C14: `ParseTopLevelExpr` returns a node exactly when `ParseExpression` returns one on
the same state, and then the node is the function with the prototype of empty name and no
parameters around the tree of `ParseExpression`, in the state `ParseExpression` leaves;
it fails exactly when `ParseExpression` fails, in the same state; and it returns whenever
the fuel exceeds four times the measure of the state by three. -/
theorem C14_top_level_expression (fuel : Nat) (s : PState) :
    (∀ e s1, ParseExpression fuel s = .ok e s1 →
      ParseTopLevelExpr fuel s = .ok ⟨⟨[], []⟩, e⟩ s1) ∧
    (∀ f s1, ParseTopLevelExpr fuel s = .ok f s1 →
      ∃ e, ParseExpression fuel s = .ok e s1 ∧ f.Proto = ⟨[], []⟩ ∧ f.Body = e) ∧
    (∀ s1, ParseExpression fuel s = .null s1 → ParseTopLevelExpr fuel s = .null s1) ∧
    (∀ s1, ParseTopLevelExpr fuel s = .null s1 → ParseExpression fuel s = .null s1) ∧
    (4 * remaining s + 3 ≤ fuel →
      ParseExpression fuel s ≠ .oof ∧ ParseTopLevelExpr fuel s ≠ .oof) := by
  refine ⟨?_, ?_, ?_, ?_, ?_⟩
  · intro e s1 h
    unfold ParseTopLevelExpr
    rw [h]
  · intro f s1 h
    unfold ParseTopLevelExpr at h
    cases hE : ParseExpression fuel s with
    | oof => rw [hE] at h; cases h
    | null s2 => rw [hE] at h; cases h
    | ok e s2 =>
      rw [hE] at h
      cases h
      exact ⟨e, rfl, rfl, rfl⟩
  · intro s1 h
    unfold ParseTopLevelExpr
    rw [h]
  · intro s1 h
    unfold ParseTopLevelExpr at h
    cases hE : ParseExpression fuel s with
    | oof => rw [hE] at h; cases h
    | null s2 => rw [hE] at h; cases h; rfl
    | ok e s2 => rw [hE] at h; cases h
  · intro hf
    exact ⟨(parse_total fuel).2.2.2.2.2 s hf, ParseTopLevelExpr_total s fuel hf⟩

/-- C14, witness: on `1+2` the top-level expression is the anonymous function around the
tree of `1+2`, and the parser stops at end of input. -/
theorem C14_top_level_expression_witness :
    ParseExpression 5 (start "1+2".toList)
      = .ok (.Binary '+' (.Number ⟨['1']⟩) (.Number ⟨['2']⟩))
          (getNextToken^[3] (start "1+2".toList)) ∧
    ParseTopLevelExpr 5 (start "1+2".toList)
      = .ok ⟨⟨[], []⟩, .Binary '+' (.Number ⟨['1']⟩) (.Number ⟨['2']⟩)⟩
          (getNextToken^[3] (start "1+2".toList)) ∧
    (getNextToken^[3] (start "1+2".toList)).CurTok = TOK_EOF :=
  ⟨by rfl,
   (C14_top_level_expression 5 (start "1+2".toList)).1 _ _ (by rfl),
   by rfl⟩

end Toy

/-! ## A failed construct -/

namespace Toy

/-- C15: in a driver iteration whose dispatched parse procedure fails in state `s1`, the
handler hands nothing to the backend and calls `getNextToken` once in `s1`, and the loop
goes on with the next iteration from there; the loop stops when the current token is the
end of input, and in no other state. -/
theorem C15_failure_recovery (n : Nat) (d : DState) (s1 : PState) :
    (d.p.CurTok = TOK_DEF → ParseDefinition n d.p = .null s1 →
      HandleDefinition n d = some { p := getNextToken s1, handed := d.handed } ∧
      MainLoop (n + 1) d = MainLoop n { p := getNextToken s1, handed := d.handed }) ∧
    (d.p.CurTok = TOK_EXTERN → ParseExtern n d.p = .null s1 →
      HandleExtern n d = some { p := getNextToken s1, handed := d.handed } ∧
      MainLoop (n + 1) d = MainLoop n { p := getNextToken s1, handed := d.handed }) ∧
    (d.p.CurTok ≠ TOK_EOF → d.p.CurTok ≠ 59 → d.p.CurTok ≠ TOK_DEF →
      d.p.CurTok ≠ TOK_EXTERN → ParseTopLevelExpr n d.p = .null s1 →
      HandleTopLevelExpression n d = some { p := getNextToken s1, handed := d.handed } ∧
      MainLoop (n + 1) d = MainLoop n { p := getNextToken s1, handed := d.handed }) ∧
    (d.p.CurTok = TOK_EOF → MainLoop (n + 1) d = some d) ∧
    (∀ r, MainLoop n d = some r → r.p.CurTok = TOK_EOF) ∧
    (d.p.CurTok ≠ TOK_EOF → MainLoop (n + 1) d ≠ some d) := by
  refine ⟨?_, ?_, ?_, ?_, ?_, ?_⟩
  · intro hd h
    have hH : HandleDefinition n d = some { p := getNextToken s1, handed := d.handed } := by
      unfold HandleDefinition; rw [h]
    refine ⟨hH, ?_⟩
    rw [MainLoop, if_neg (by rw [hd]; decide), if_neg (by rw [hd]; decide), if_pos hd, hH,
      Option.some_bind]
  · intro hd h
    have hH : HandleExtern n d = some { p := getNextToken s1, handed := d.handed } := by
      unfold HandleExtern; rw [h]
    refine ⟨hH, ?_⟩
    rw [MainLoop, if_neg (by rw [hd]; decide), if_neg (by rw [hd]; decide),
      if_neg (by rw [hd]; decide), if_pos hd, hH, Option.some_bind]
  · intro h0 h1 h2 h3 h
    have hH : HandleTopLevelExpression n d
        = some { p := getNextToken s1, handed := d.handed } := by
      unfold HandleTopLevelExpression; rw [h]
    refine ⟨hH, ?_⟩
    rw [MainLoop, if_neg h0, if_neg h1, if_neg h2, if_neg h3, hH, Option.some_bind]
  · intro h
    rw [MainLoop, if_pos h]
  · intro r h
    exact MainLoop_eof n d r h
  · intro h0 h
    exact h0 (MainLoop_eof (n + 1) d d h)

/-- C15, witness: on `)1` the parse of the top-level expression fails at `)` without
consuming a token; the handler hands nothing over and skips exactly the `)`, and the
loop goes on and parses `1`. -/
theorem C15_failure_recovery_witness :
    ParseTopLevelExpr 9 (start ")1".toList)
      = .null { start ")1".toList with
          errs := ["unknown token when expecting an expression"] } ∧
    (HandleTopLevelExpression 9 { p := start ")1".toList, handed := [] }
      = some { p := getNextToken { start ")1".toList with
          errs := ["unknown token when expecting an expression"] }, handed := [] } ∧
     MainLoop 10 { p := start ")1".toList, handed := [] }
      = MainLoop 9 { p := getNextToken { start ")1".toList with
          errs := ["unknown token when expecting an expression"] }, handed := [] }) ∧
    (run 10 ")1".toList).map (fun d => (d.handed, d.p.errs, d.p.CurTok))
      = some ([.function ⟨⟨[], []⟩, .Number ⟨['1']⟩⟩],
          ["unknown token when expecting an expression"], TOK_EOF) :=
  ⟨by rfl,
   (C15_failure_recovery 9 { p := start ")1".toList, handed := [] }
      { start ")1".toList with errs := ["unknown token when expecting an expression"] }).2.2.1
      (by decide) (by decide) (by decide) (by decide) (by rfl),
   by rfl⟩

end Toy

/-! ## Parentheses -/

namespace Toy

/-- C20: when the current token is `(` and `ParseExpression` parses what follows to a tree
`t` and stops at a `)`, then `ParsePrimary` returns exactly `t`, with no node for the
parentheses, and the token after the `)` is current; every fuel from `n + 2` on gives
this result. -/
theorem C20_parentheses_transparent (n : Nat) (s s1 : PState) (t : ExprAST)
    (hlp : s.CurTok = TOK_LP) (he : ParseExpression n (getNextToken s) = .ok t s1)
    (hrp : s1.CurTok = TOK_RP) :
    ∀ fuel, n + 2 ≤ fuel → ParsePrimary fuel s = .ok t (getNextToken s1) := by
  have h1 : ParsePrimary (n + 2) s = .ok t (getNextToken s1) := by
    rw [ParsePrimary.eq_2, if_neg (by rw [hlp]; decide), if_neg (by rw [hlp]; decide),
      if_pos hlp, ParseParenExpr.eq_2, he]
    dsimp only
    rw [if_neg (by simp [hrp])]
  intro fuel hf
  rw [ParsePrimary_mono hf s (by rw [h1]; intro h; cases h), h1]

/-- C20, witness: `(1+2)` is parsed as a primary to the tree of `1+2`; `(1+2)*3` yields
`Binary('*', Binary('+', 1, 2), 3)` while `1+2*3` yields `Binary('+', 1, Binary('*', 2, 3))`. -/
theorem C20_parentheses_transparent_witness :
    (∀ fuel, 5 + 2 ≤ fuel → ParsePrimary fuel (start "(1+2)*3".toList)
      = .ok (.Binary '+' (.Number ⟨['1']⟩) (.Number ⟨['2']⟩))
          (getNextToken (getNextToken^[4] (start "(1+2)*3".toList)))) ∧
    (getNextToken (getNextToken^[4] (start "(1+2)*3".toList))).CurTok = 42 ∧
    (ParseExpression 9 (start "(1+2)*3".toList)
      = .ok (.Binary '*' (.Binary '+' (.Number ⟨['1']⟩) (.Number ⟨['2']⟩)) (.Number ⟨['3']⟩))
          (getNextToken^[7] (start "(1+2)*3".toList))) ∧
    (ParseExpression 9 (start "1+2*3".toList)
      = .ok (.Binary '+' (.Number ⟨['1']⟩) (.Binary '*' (.Number ⟨['2']⟩) (.Number ⟨['3']⟩)))
          (getNextToken^[5] (start "1+2*3".toList))) :=
  ⟨C20_parentheses_transparent 5 (start "(1+2)*3".toList)
      (getNextToken^[4] (start "(1+2)*3".toList))
      (.Binary '+' (.Number ⟨['1']⟩) (.Number ⟨['2']⟩)) (by rfl) (by rfl) (by rfl),
   by rfl, by rfl, by rfl⟩

end Toy

/-! ## One message per failure -/

namespace Toy

theorem ResErrs.of_eq {α : Type} {s s1 : PState} (h : s1.errs = s.errs) {r : Res α}
    (hr : ResErrs s1 r) : ResErrs s r := by
  cases r with
  | oof => trivial
  | null s2 => obtain ⟨msg, hm⟩ := hr; exact ⟨msg, by rw [hm, h]⟩
  | ok v s2 => exact Eq.trans hr h

theorem ResErrs.error {α : Type} (s : PState) (msg : String) :
    ResErrs s (Error msg s : Res α) := ⟨msg, rfl⟩

theorem parse_errs (n : Nat) :
    (∀ s, ResErrs s (ParsePrimary n s)) ∧
    (∀ s, ResErrs s (ParseParenExpr n s)) ∧
    (∀ A s, ResErrs s (ParseArgs n A s)) ∧
    (∀ s, ResErrs s (ParseIdentExpr n s)) ∧
    (∀ P L s, ResErrs s (ParseBinOpRHS n P L s)) ∧
    (∀ s, ResErrs s (ParseExpression n s)) := by
  induction n with
  | zero =>
    refine ⟨?_, ?_, ?_, ?_, ?_, ?_⟩
    · intro s; rw [ParsePrimary]; trivial
    · intro s; rw [ParseParenExpr]; trivial
    · intro A s; rw [ParseArgs]; trivial
    · intro s; rw [ParseIdentExpr]; trivial
    · intro P L s; rw [ParseBinOpRHS]; trivial
    · intro s; rw [ParseExpression]; trivial
  | succ n ih =>
    obtain ⟨ihP, ihPar, ihA, ihI, ihB, ihE⟩ := ih
    refine ⟨?_, ?_, ?_, ?_, ?_, ?_⟩
    · intro s
      rw [ParsePrimary.eq_2]
      by_cases h1 : s.CurTok = TOK_IDENT
      · rw [if_pos h1]; exact ihI s
      · rw [if_neg h1]
        by_cases h2 : s.CurTok = TOK_NUMBER
        · rw [if_pos h2]; exact (rfl : (getNextToken s).errs = s.errs)
        · rw [if_neg h2]
          by_cases h3 : s.CurTok = TOK_LP
          · rw [if_pos h3]; exact ihPar s
          · rw [if_neg h3]; exact ResErrs.error s _
    · intro s
      rw [ParseParenExpr.eq_2]
      have hsub := ihE (getNextToken s)
      cases hA : ParseExpression n (getNextToken s) with
      | oof => trivial
      | null s1 => rw [hA] at hsub; exact hsub
      | ok v s1 =>
        rw [hA] at hsub
        have hsub2 : s1.errs = s.errs := hsub
        dsimp only
        by_cases h1 : s1.CurTok ≠ TOK_RP
        · rw [if_pos h1]; exact ResErrs.of_eq hsub2 (ResErrs.error s1 _)
        · rw [if_neg h1]; exact hsub2
    · intro A s
      rw [ParseArgs.eq_2]
      have hsub := ihE s
      cases hA : ParseExpression n s with
      | oof => trivial
      | null s1 => rw [hA] at hsub; exact hsub
      | ok v s1 =>
        rw [hA] at hsub
        have hsub2 : s1.errs = s.errs := hsub
        dsimp only
        by_cases h1 : s1.CurTok = TOK_RP
        · rw [if_pos h1]; exact hsub2
        · rw [if_neg h1]
          by_cases h2 : s1.CurTok ≠ 44
          · rw [if_pos h2]; exact ResErrs.of_eq hsub2 (ResErrs.error s1 _)
          · rw [if_neg h2]
            exact @ResErrs.of_eq _ s (getNextToken s1) hsub2 _ (ihA _ _)
    · intro s
      rw [ParseIdentExpr.eq_2]
      dsimp only
      by_cases h1 : (getNextToken s).CurTok ≠ TOK_LP
      · rw [if_pos h1]; exact (rfl : (getNextToken s).errs = s.errs)
      · rw [if_neg h1]
        by_cases h2 : (getNextToken (getNextToken s)).CurTok ≠ TOK_RP
        · rw [if_pos h2]
          have hsub := ihA [] (getNextToken (getNextToken s))
          cases hA : ParseArgs n [] (getNextToken (getNextToken s)) with
          | oof => trivial
          | null s1 => rw [hA] at hsub; exact hsub
          | ok v s1 =>
            rw [hA] at hsub
            have hsub2 : s1.errs = s.errs := hsub
            exact hsub2
        · rw [if_neg h2]; exact (rfl : (getNextToken (getNextToken (getNextToken s))).errs = s.errs)
    · intro P L s
      rw [ParseBinOpRHS.eq_2]
      by_cases h1 : GetTokPrecedence s < P
      · rw [if_pos h1]; exact (rfl : s.errs = s.errs)
      · rw [if_neg h1]
        dsimp only
        have hsub := ihP (getNextToken s)
        cases hA : ParsePrimary n (getNextToken s) with
        | oof => trivial
        | null s1 => rw [hA] at hsub; exact hsub
        | ok v s1 =>
          rw [hA] at hsub
          have hsub1 : s1.errs = s.errs := hsub
          dsimp only
          by_cases h2 : GetTokPrecedence s < GetTokPrecedence s1
          · rw [if_pos h2]
            have hsub2 := ihB (GetTokPrecedence s + 1) v s1
            cases hA2 : ParseBinOpRHS n (GetTokPrecedence s + 1) v s1 with
            | oof => trivial
            | null s2 => rw [hA2] at hsub2; exact ResErrs.of_eq hsub1 hsub2
            | ok v2 s2 =>
              rw [hA2] at hsub2
              have hsub3 : s2.errs = s.errs := Eq.trans hsub2 hsub1
              dsimp only
              exact ResErrs.of_eq hsub3 (ihB P _ s2)
          · rw [if_neg h2]
            exact ResErrs.of_eq hsub1 (ihB P _ s1)
    · intro s
      rw [ParseExpression.eq_2]
      have hsub := ihP s
      cases hA : ParsePrimary n s with
      | oof => trivial
      | null s1 => rw [hA] at hsub; exact hsub
      | ok v s1 =>
        rw [hA] at hsub
        have hsub1 : s1.errs = s.errs := hsub
        dsimp only
        exact ResErrs.of_eq hsub1 (ihB 0 v s1)

end Toy

namespace Toy

theorem protoArgs_errs (n : Nat) : ∀ (A B : List (List Char)) (s s2 : PState),
    protoArgs n A s = some (B, s2) → s2.errs = s.errs := by
  induction n with
  | zero => intro A B s s2 h; simp [protoArgs] at h
  | succ n ih =>
    intro A B s s2 h
    rw [protoArgs] at h
    by_cases h1 : (getNextToken s).CurTok = TOK_IDENT
    · rw [if_pos h1] at h
      exact ih _ _ (getNextToken s) _ h
    · rw [if_neg h1] at h
      simp only [Option.some.injEq, Prod.mk.injEq] at h
      rw [← h.2]
      rfl

theorem ParsePrototype_errs (n : Nat) (s : PState) : ResErrs s (ParsePrototype n s) := by
  unfold ParsePrototype
  dsimp only
  by_cases h1 : s.CurTok ≠ TOK_IDENT
  · rw [if_pos h1]; exact ResErrs.error s _
  · rw [if_neg h1]
    by_cases h2 : (getNextToken s).CurTok ≠ TOK_LP
    · rw [if_pos h2]
      exact @ResErrs.error PrototypeAST (getNextToken s) _
    · rw [if_neg h2]
      cases hA : protoArgs n [] (getNextToken s) with
      | none => trivial
      | some r =>
        obtain ⟨B, s2⟩ := r
        have h3 : s2.errs = s.errs := protoArgs_errs n [] B (getNextToken s) s2 hA
        dsimp only
        by_cases h4 : s2.CurTok ≠ TOK_RP
        · rw [if_pos h4]; exact ResErrs.of_eq h3 (ResErrs.error s2 _)
        · rw [if_neg h4]; exact h3

theorem ParseTopLevelExpr_errs (n : Nat) (s : PState) :
    ResErrs s (ParseTopLevelExpr n s) := by
  unfold ParseTopLevelExpr
  have hsub := (parse_errs n).2.2.2.2.2 s
  cases hA : ParseExpression n s with
  | oof => trivial
  | null s1 => rw [hA] at hsub; exact hsub
  | ok v s1 => rw [hA] at hsub; exact hsub

theorem ParseDefinition_errs (n : Nat) (s : PState) :
    ResErrs s (ParseDefinition n s) := by
  unfold ParseDefinition
  have hsub := ParsePrototype_errs n (getNextToken s)
  cases hA : ParsePrototype n (getNextToken s) with
  | oof => trivial
  | null s1 => rw [hA] at hsub; exact hsub
  | ok v s1 =>
    rw [hA] at hsub
    have hsub1 : s1.errs = s.errs := hsub
    dsimp only
    have hsub2 := (parse_errs n).2.2.2.2.2 s1
    cases hA2 : ParseExpression n s1 with
    | oof => trivial
    | null s2 => rw [hA2] at hsub2; exact ResErrs.of_eq hsub1 hsub2
    | ok v2 s2 => rw [hA2] at hsub2; exact Eq.trans hsub2 hsub1

theorem ParseExtern_errs (n : Nat) (s : PState) : ResErrs s (ParseExtern n s) :=
  ParsePrototype_errs n (getNextToken s)

/-- C16: a call of `ParsePrimary`, `ParseExpression`, `ParsePrototype`, `ParseDefinition`,
`ParseExtern` or `ParseTopLevelExpr` that returns a node has written no message, and a
call that returns failure has written exactly one message (`ResErrs`); and each call
returns when the fuel is at least four times the measure of the state plus three. -/
theorem C16_one_message_per_failure (fuel : Nat) (s : PState) :
    (ResErrs s (ParsePrimary fuel s) ∧ ResErrs s (ParseExpression fuel s) ∧
      ResErrs s (ParsePrototype fuel s) ∧ ResErrs s (ParseDefinition fuel s) ∧
      ResErrs s (ParseExtern fuel s) ∧ ResErrs s (ParseTopLevelExpr fuel s)) ∧
    (4 * remaining s + 3 ≤ fuel →
      ParsePrimary fuel s ≠ .oof ∧ ParseExpression fuel s ≠ .oof ∧
      ParsePrototype fuel s ≠ .oof ∧ ParseDefinition fuel s ≠ .oof ∧
      ParseExtern fuel s ≠ .oof ∧ ParseTopLevelExpr fuel s ≠ .oof) :=
  ⟨⟨(parse_errs fuel).1 s, (parse_errs fuel).2.2.2.2.2 s, ParsePrototype_errs fuel s,
      ParseDefinition_errs fuel s, ParseExtern_errs fuel s, ParseTopLevelExpr_errs fuel s⟩,
    fun hf => ⟨(parse_total fuel).1 s (by omega), (parse_total fuel).2.2.2.2.2 s hf,
      ParsePrototype_total_of_remaining s fuel (by omega), ParseDefinition_total s fuel hf,
      ParseExtern_total s fuel hf, ParseTopLevelExpr_total s fuel hf⟩⟩

/-- C16, witness: the failing `(1+2` writes the one message `expected ')'`; the failing
`def f(x,` writes the one message of the prototype; `1+2` writes none. -/
theorem C16_one_message_per_failure_witness :
    4 * remaining (start "(1+2".toList) + 3 ≤ 30 ∧
    ((ParseExpression 30 (start "(1+2".toList) ≠ .oof) ∧
      ResErrs (start "(1+2".toList) (ParseExpression 30 (start "(1+2".toList))) ∧
    ParseExpression 30 (start "(1+2".toList)
      = .null { getNextToken^[4] (start "(1+2".toList) with errs := ["expected ')'"] } ∧
    ParseDefinition 30 (start "def f(x,".toList)
      = .null { getNextToken^[4] (start "def f(x,".toList) with
          errs := ["Expected ')' in prototype"] } ∧
    ParseExpression 30 (start "1+2".toList)
      = .ok (.Binary '+' (.Number ⟨['1']⟩) (.Number ⟨['2']⟩))
          (getNextToken^[3] (start "1+2".toList)) ∧
    (getNextToken^[3] (start "1+2".toList)).errs = [] :=
  ⟨by decide,
   ⟨((C16_one_message_per_failure 30 (start "(1+2".toList)).2 (by decide)).2.1,
    (C16_one_message_per_failure 30 (start "(1+2".toList)).1.2.1⟩,
   by rfl, by rfl, by rfl, by rfl⟩

end Toy

/-! ## A sequence of well-formed constructs -/

namespace Toy

theorem HandleDefinition_mono {n m : Nat} (h : n ≤ m) (d r : DState)
    (hn : HandleDefinition n d = some r) : HandleDefinition m d = some r := by
  induction h with
  | refl => exact hn
  | step _ ih => exact HandleDefinition_succ _ _ _ ih

theorem HandleExtern_mono {n m : Nat} (h : n ≤ m) (d r : DState)
    (hn : HandleExtern n d = some r) : HandleExtern m d = some r := by
  induction h with
  | refl => exact hn
  | step _ ih => exact HandleExtern_succ _ _ _ ih

theorem HandleTopLevelExpression_mono {n m : Nat} (h : n ≤ m) (d r : DState)
    (hn : HandleTopLevelExpression n d = some r) : HandleTopLevelExpression m d = some r := by
  induction h with
  | refl => exact hn
  | step _ ih => exact HandleTopLevelExpression_succ _ _ _ ih

theorem ParseTopLevelExpr_ok_curTok {n : Nat} {s s1 : PState} {f : FunctionAST}
    (h : ParseTopLevelExpr n s = .ok f s1) :
    s.CurTok = TOK_IDENT ∨ s.CurTok = TOK_NUMBER ∨ s.CurTok = TOK_LP := by
  unfold ParseTopLevelExpr at h
  cases hE : ParseExpression n s with
  | oof => rw [hE] at h; cases h
  | null s2 => rw [hE] at h; cases h
  | ok e s2 => exact ParseExpression_ok_curTok hE

/-- The messages are the same after a well-formed construct. -/
theorem ParsesAs.errs {s s1 : PState} {node : TopNode} (h : ParsesAs s node s1) :
    s1.errs = s.errs := by
  rcases h with ⟨_, n, f, h, _⟩ | ⟨_, n, p, h, _⟩ | ⟨_, _, n, f, h, _⟩
  · have := ParseDefinition_errs n s; rw [h] at this; exact this
  · have := ParseExtern_errs n s; rw [h] at this; exact this
  · have := ParseTopLevelExpr_errs n s; rw [h] at this; exact this

/-- The driver iteration at a well-formed construct hands over its node and continues in
the state the parser left. -/
theorem MainLoop_construct {s s1 : PState} {node : TopNode} (h : ParsesAs s node s1) :
    ∃ N, ∀ n, N ≤ n → ∀ hd : List TopNode,
      MainLoop (n + 1) { p := s, handed := hd }
        = MainLoop n { p := s1, handed := hd ++ [node] } := by
  rcases h with ⟨hc, n0, f, h, rfl⟩ | ⟨hc, n0, p, h, rfl⟩ | ⟨hc1, hc2, n0, f, h, rfl⟩
  · refine ⟨n0, fun n hn hd => ?_⟩
    have hH : HandleDefinition n0 { p := s, handed := hd }
        = some { p := s1, handed := hd ++ [.function f] } := by
      unfold HandleDefinition; dsimp only; rw [h]
    rw [MainLoop]
    dsimp only
    rw [if_neg (by rw [hc]; decide), if_neg (by rw [hc]; decide), if_pos hc,
      HandleDefinition_mono hn _ _ hH, Option.some_bind]
  · refine ⟨n0, fun n hn hd => ?_⟩
    have hH : HandleExtern n0 { p := s, handed := hd }
        = some { p := s1, handed := hd ++ [.prototype p] } := by
      unfold HandleExtern; dsimp only; rw [h]
    rw [MainLoop]
    dsimp only
    rw [if_neg (by rw [hc]; decide), if_neg (by rw [hc]; decide), if_neg (by rw [hc]; decide),
      if_pos hc, HandleExtern_mono hn _ _ hH, Option.some_bind]
  · refine ⟨n0, fun n hn hd => ?_⟩
    have hH : HandleTopLevelExpression n0 { p := s, handed := hd }
        = some { p := s1, handed := hd ++ [.function f] } := by
      unfold HandleTopLevelExpression; dsimp only; rw [h]
    have h0 : s.CurTok ≠ TOK_EOF ∧ s.CurTok ≠ 59 := by
      rcases ParseTopLevelExpr_ok_curTok h with hh | hh | hh <;>
        (rw [hh]; exact ⟨by decide, by decide⟩)
    rw [MainLoop]
    dsimp only
    rw [if_neg h0.1, if_neg h0.2, if_neg hc1, if_neg hc2,
      HandleTopLevelExpression_mono hn _ _ hH, Option.some_bind]

theorem MainLoop_constructs {s : PState} {ns : List TopNode} (h : Constructs s ns) :
    ∀ hd : List TopNode, ∃ N, ∀ n, N ≤ n → ∃ r,
      MainLoop n { p := s, handed := hd } = some r ∧
      r.handed = hd ++ ns ∧ r.p.errs = s.errs ∧ r.p.CurTok = TOK_EOF := by
  induction h with
  | @eof s he =>
    intro hd
    refine ⟨1, fun n hn => ?_⟩
    obtain ⟨m, rfl⟩ : ∃ m, n = m + 1 := ⟨n - 1, by omega⟩
    refine ⟨{ p := s, handed := hd }, ?_, by simp, rfl, he⟩
    rw [MainLoop, if_pos he]
  | @cons s s1 node ns hp hsemi _ ih =>
    intro hd
    obtain ⟨N1, h1⟩ := MainLoop_construct hp
    obtain ⟨N2, h2⟩ := ih (hd ++ [node])
    refine ⟨max N1 N2 + 2, fun n hn => ?_⟩
    obtain ⟨m, rfl⟩ : ∃ m, n = m + 2 := ⟨n - 2, by omega⟩
    have hm1 : N1 ≤ m + 1 := by have := Nat.le_max_left N1 N2; omega
    have hm2 : N2 ≤ m := by have := Nat.le_max_right N1 N2; omega
    obtain ⟨r, hr, hh, he, hc⟩ := h2 m hm2
    refine ⟨r, ?_, by rw [hh]; simp, by rw [he]; exact hp.errs, hc⟩
    rw [h1 (m + 1) hm1 hd, MainLoop]
    dsimp only
    rw [if_neg (by rw [hsemi]; decide), if_pos hsemi]
    exact hr

end Toy

namespace Toy

/-- C17: when the input is a list of well-formed top-level constructs (definitions,
extern declarations, bare expressions), each followed by `;`, and then ends, the driver
returns (with any fuel from `5 * length + 9` on), the nodes handed to the backend are
exactly the nodes of the constructs in source order, no syntax error was reported, and
the driver stopped at end of input. -/
theorem C17_sequence_of_constructs (cs : List Char) (ns : List TopNode)
    (h : Constructs (start cs) ns) :
    ∃ r, (∀ fuel, 5 * cs.length + 9 ≤ fuel → run fuel cs = some r) ∧
      r.handed = ns ∧ r.p.errs = [] ∧ r.p.CurTok = TOK_EOF := by
  obtain ⟨r0, hr0⟩ := run_total cs
  obtain ⟨N, hN⟩ := MainLoop_constructs h []
  obtain ⟨r, hr, hh, he, hc⟩ := hN (max N (5 * cs.length + 9)) (Nat.le_max_left _ _)
  have h2 := hr0 (max N (5 * cs.length + 9)) (Nat.le_max_right _ _)
  unfold run at h2
  rw [hr] at h2
  have h3 : r = r0 := Option.some.inj h2
  rw [h3] at hh he hc
  exact ⟨r0, hr0, by simpa using hh, he, hc⟩

/-- C17, witness: a definition, an extern declaration and a call, each followed by `;`. -/
theorem C17_sequence_of_constructs_witness :
    Constructs (start "def foo(x y) x+y; extern sin(a); foo(1,2);".toList)
      [.function ⟨⟨"foo".toList, [['x'], ['y']]⟩, .Binary '+' (.Variable ['x']) (.Variable ['y'])⟩,
       .prototype ⟨"sin".toList, [['a']]⟩,
       .function ⟨⟨[], []⟩, .Call "foo".toList [.Number ⟨['1']⟩, .Number ⟨['2']⟩]⟩] ∧
    (∃ r, (∀ fuel, 5 * "def foo(x y) x+y; extern sin(a); foo(1,2);".toList.length + 9 ≤ fuel →
        run fuel "def foo(x y) x+y; extern sin(a); foo(1,2);".toList = some r) ∧
      r.handed =
        [.function ⟨⟨"foo".toList, [['x'], ['y']]⟩,
           .Binary '+' (.Variable ['x']) (.Variable ['y'])⟩,
         .prototype ⟨"sin".toList, [['a']]⟩,
         .function ⟨⟨[], []⟩, .Call "foo".toList [.Number ⟨['1']⟩, .Number ⟨['2']⟩]⟩] ∧
      r.p.errs = [] ∧ r.p.CurTok = TOK_EOF) := by
  have hC : Constructs (start "def foo(x y) x+y; extern sin(a); foo(1,2);".toList)
      [.function ⟨⟨"foo".toList, [['x'], ['y']]⟩, .Binary '+' (.Variable ['x']) (.Variable ['y'])⟩,
       .prototype ⟨"sin".toList, [['a']]⟩,
       .function ⟨⟨[], []⟩, .Call "foo".toList [.Number ⟨['1']⟩, .Number ⟨['2']⟩]⟩] :=
    @Constructs.cons _
      (getNextToken^[9] (start "def foo(x y) x+y; extern sin(a); foo(1,2);".toList)) _ _
      (Or.inl ⟨by rfl, 20, _, by rfl, rfl⟩) (by rfl)
      (@Constructs.cons _
        (getNextToken^[15] (start "def foo(x y) x+y; extern sin(a); foo(1,2);".toList)) _ _
        (Or.inr (Or.inl ⟨by rfl, 20, _, by rfl, rfl⟩)) (by rfl)
        (@Constructs.cons _
          (getNextToken^[22] (start "def foo(x y) x+y; extern sin(a); foo(1,2);".toList)) _ _
          (Or.inr (Or.inr ⟨by decide, by decide, 20, _, by rfl, rfl⟩)) (by rfl)
          (Constructs.eof (by rfl))))
  exact ⟨hC, C17_sequence_of_constructs _ _ hC⟩

end Toy

/-! ## End of input is read again and again -/

theorem skipSpace_eof (inp : List Char) : ∀ last : Int, (last = EOF → inp = []) →
    (skipSpace last inp).1 = EOF → (skipSpace last inp).2 = [] := by
  induction inp with
  | nil => intro last _ _; simp only [skipSpace]; split <;> rfl
  | cons c cs ih =>
    intro last hl h
    simp only [skipSpace] at h ⊢
    by_cases hs : isspace last = true
    · rw [if_pos hs] at h ⊢
      refine ih (ord c) (fun hc => ?_) h
      have := Toy.ord_nonneg c
      rw [hc] at this
      exact absurd this (by decide)
    · rw [if_neg hs] at h ⊢
      exact absurd (hl h) (by simp)

theorem identLoop_eof (inp : List Char) : ∀ id : List Char,
    (identLoop id inp).2.1 = EOF → (identLoop id inp).2.2 = [] := by
  induction inp with
  | nil => intro id _; rfl
  | cons c cs ih =>
    intro id h
    simp only [identLoop] at h ⊢
    by_cases hc : isalnum (ord c) = true
    · rw [if_pos hc] at h ⊢; exact ih _ h
    · rw [if_neg hc] at h
      have h2 : ord c = EOF := h
      have := Toy.ord_nonneg c
      rw [h2] at this
      exact absurd this (by decide)

theorem digitLoop_eof (cond : Int → Bool) (inp : List Char) : ∀ (num : List Char) (last : Int),
    (digitLoop cond num last inp).2.1 = EOF → (digitLoop cond num last inp).2.2 = [] := by
  induction inp with
  | nil => intro num last _; rfl
  | cons c cs ih =>
    intro num last h
    simp only [digitLoop] at h ⊢
    by_cases hc : cond (ord c) = true
    · rw [if_pos hc] at h ⊢; exact ih _ _ h
    · rw [if_neg hc] at h
      have h2 : ord c = EOF := h
      have := Toy.ord_nonneg c
      rw [h2] at this
      exact absurd this (by decide)

theorem getchar_eof (inp : List Char) (h : (getchar inp).1 = EOF) : (getchar inp).2 = [] := by
  cases inp with
  | nil => rfl
  | cons c cs =>
    have := Toy.ord_nonneg c
    simp only [getchar] at h
    rw [h] at this
    exact absurd this (by decide)

theorem commentLoop_eof (inp : List Char) (h : (commentLoop inp).1 = EOF) :
    (commentLoop inp).2 = [] := by
  induction inp with
  | nil => rfl
  | cons c cs ih =>
    simp only [commentLoop] at h ⊢
    by_cases hc : ord c ≠ EOF ∧ ord c ≠ 10 ∧ ord c ≠ 13
    · rw [if_pos hc] at h ⊢; exact ih h
    · rw [if_neg hc] at h
      have h2 : ord c = EOF := h
      have := Toy.ord_nonneg c
      rw [h2] at this
      exact absurd this (by decide)

theorem lexNumber_eof (s : LexState) (last : Int) (inp : List Char)
    (h : (lexNumber s last inp).LastChar = EOF) : (lexNumber s last inp).input = [] := by
  unfold lexNumber at h ⊢
  dsimp only at h ⊢
  split at h
  · rename_i h46
    rw [if_pos h46]
    split at h
    · rename_i hd
      rw [if_pos hd]
      exact digitLoop_eof _ _ _ _ h
    · rename_i hd
      rw [if_neg hd]
      exact getchar_eof _ h
  · rename_i h46
    rw [if_neg h46]
    exact digitLoop_eof _ _ _ _ h

namespace Toy

/-- When the lookahead is `EOF` only at the end of the input, this stays so after a call of
`gettok`, and the token `TOK_EOF` is returned only with the lookahead `EOF`. -/
theorem gettokFuel_eof_inv (n : Nat) : ∀ (l : LexState) (r : Int × LexState),
    (l.LastChar = EOF → l.input = []) → gettokFuel n l = some r →
    (r.2.LastChar = EOF → r.2.input = []) ∧ (r.1 = TOK_EOF → r.2.LastChar = EOF) := by
  induction n with
  | zero => intro l r _ h; simp [gettokFuel] at h
  | succ n ih =>
    intro l r hl h
    by_cases hr : recurses l
    · rw [gettokFuel_rec _ _ hr] at h
      exact ih _ r (fun hE => commentLoop_eof _ hE) h
    · rw [gettokFuel_norec _ _ hr, gettokFuel] at h
      dsimp only at h
      by_cases h1 : isalpha (skipSpace l.LastChar l.input).1 = true
      · rw [if_pos h1] at h
        split at h
        · cases h
          exact ⟨fun hE => identLoop_eof _ _ hE,
            fun hE => absurd (show TOK_DEF = TOK_EOF from hE) (by decide)⟩
        · split at h
          · cases h
            exact ⟨fun hE => identLoop_eof _ _ hE,
              fun hE => absurd (show TOK_EXTERN = TOK_EOF from hE) (by decide)⟩
          · cases h
            exact ⟨fun hE => identLoop_eof _ _ hE,
              fun hE => absurd (show TOK_IDENT = TOK_EOF from hE) (by decide)⟩
      · rw [if_neg h1] at h
        by_cases h2 : isdigit (skipSpace l.LastChar l.input).1 = true
        · rw [if_pos h2] at h
          cases h
          exact ⟨fun hE => lexNumber_eof _ _ _ hE,
            fun hE => absurd (show TOK_NUMBER = TOK_EOF from hE) (by decide)⟩
        · rw [if_neg h2] at h
          by_cases h3 : (skipSpace l.LastChar l.input).1 = 35
          · have h4 : ¬ ((skipSpace l.LastChar l.input).1 = 35 ∧
                (commentLoop (skipSpace l.LastChar l.input).2).1 ≠ EOF) := by
              intro h4
              exact hr ⟨by simpa using h1, by simpa using h2, h3, h4.2⟩
            simp only [if_pos h3] at h
            rw [if_neg h4] at h
            have h5 : (commentLoop (skipSpace l.LastChar l.input).2).1 = EOF := by
              by_contra h5; exact h4 ⟨h3, h5⟩
            rw [if_pos h5] at h
            cases h
            exact ⟨fun hE => commentLoop_eof _ hE, fun _ => h5⟩
          · have h4 : ¬ ((skipSpace l.LastChar l.input).1 = 35 ∧
                (skipSpace l.LastChar l.input).1 ≠ EOF) := fun h4 => h3 h4.1
            simp only [if_neg h3] at h
            rw [if_neg h4] at h
            by_cases h5 : (skipSpace l.LastChar l.input).1 = EOF
            · rw [if_pos h5] at h
              cases h
              exact ⟨fun hE => skipSpace_eof _ _ hl hE, fun _ => h5⟩
            · rw [if_neg h5] at h
              cases h
              exact ⟨fun hE => getchar_eof _ hE, fun hE => absurd hE h5⟩

/-- At the end of the input `gettok` returns `TOK_EOF` and changes nothing. -/
theorem gettok_at_eof (l : LexState) (h1 : l.LastChar = EOF) (h2 : l.input = []) :
    gettok l = (TOK_EOF, l) := by
  apply gettok_eq_of_fuel (n := 1)
  obtain ⟨a, b, c, d, e⟩ := l
  dsimp only at h1 h2
  subst h1 h2
  rfl

theorem getNextToken_eof_inv (s : PState) (h : s.lex.LastChar = EOF → s.lex.input = []) :
    ((getNextToken s).lex.LastChar = EOF → (getNextToken s).lex.input = []) ∧
    ((getNextToken s).CurTok = TOK_EOF → (getNextToken s).lex.LastChar = EOF) := by
  obtain ⟨r, hr⟩ := gettokFuel_isSome s.lex
  have hg : gettok s.lex = r := gettok_eq_of_fuel hr
  have h1 : (getNextToken s).CurTok = r.1 := by simp [getNextToken, hg]
  have h2 : (getNextToken s).lex = r.2 := by simp [getNextToken, hg]
  rw [h1, h2]
  exact gettokFuel_eof_inv _ _ _ h hr

theorem iterate_eof_inv (cs : List Char) (k : Nat) :
    ((getNextToken^[k] (start cs)).lex.LastChar = EOF →
      (getNextToken^[k] (start cs)).lex.input = []) ∧
    ((getNextToken^[k] (start cs)).CurTok = TOK_EOF →
      (getNextToken^[k] (start cs)).lex.LastChar = EOF) := by
  induction k with
  | zero =>
    exact getNextToken_eof_inv { lex := LexState.init cs, CurTok := 0, errs := [] }
      (fun h => absurd (show (32 : Int) = EOF from h) (by decide))
  | succ k ih =>
    rw [Function.iterate_succ_apply']
    exact getNextToken_eof_inv _ ih.1

/-- Once the token is the end of input, `getNextToken` changes nothing any more. -/
theorem eof_sticky (cs : List Char) (k : Nat)
    (h : (getNextToken^[k] (start cs)).CurTok = TOK_EOF) :
    getNextToken^[k + 1] (start cs) = getNextToken^[k] (start cs) := by
  obtain ⟨h1, h2⟩ := iterate_eof_inv cs k
  have h3 := h2 h
  have h4 := gettok_at_eof _ h3 (h1 h3)
  rw [Function.iterate_succ_apply']
  generalize getNextToken^[k] (start cs) = s at h h4
  obtain ⟨l, t, e⟩ := s
  dsimp only at h h4
  simp only [getNextToken, h4, h]

theorem eof_sticky_le (cs : List Char) (k : Nat)
    (h : (getNextToken^[k] (start cs)).CurTok = TOK_EOF) :
    ∀ j, k ≤ j → (getNextToken^[j] (start cs)).CurTok = TOK_EOF := by
  intro j hj
  induction hj with
  | refl => exact h
  | @step m _ ih => rw [eof_sticky cs m ih]; exact ih

theorem no_eof_before (cs : List Char) (k : Nat)
    (h : (getNextToken^[k] (start cs)).CurTok ≠ TOK_EOF) :
    ∀ i, i ≤ k → (getNextToken^[i] (start cs)).CurTok ≠ TOK_EOF :=
  fun i hi hE => h (eof_sticky_le cs i hE k hi)

end Toy

/-! ## One iteration of the driver loop -/

namespace Toy

theorem iterate_with_errs (a j : Nat) (p : PState) (x : List String) :
    getNextToken^[a] { getNextToken^[j] p with errs := x }
      = { getNextToken^[a + j] p with errs := x } := by
  rw [getNextToken_iterate_errs, Function.iterate_add_apply]

theorem Consumed.position_succ {s s1 : PState}
    (hfirst : Consumable s.CurTok ∨ s.CurTok = TOK_DEF ∨ s.CurTok = TOK_EXTERN)
    (h : Consumed (getNextToken s) s1) :
    ∃ (j : Nat) (e : List String), 1 ≤ j ∧
      s1 = { getNextToken^[j] s with errs := s.errs ++ e } ∧ Passed s j := by
  obtain ⟨j, e, h1, h2⟩ := Consumed.position h
  refine ⟨j + 1, e, by omega, ?_, ?_⟩
  · rw [h1, Function.iterate_succ_apply]; rfl
  · intro i hi
    cases i with
    | zero =>
      rcases hfirst with hc | hk
      · exact Or.inl hc
      · exact Or.inr ⟨rfl, hk⟩
    | succ i =>
      rw [Function.iterate_succ_apply]
      exact Or.inl (h2 i (by omega))

theorem position_recover {s s1 : PState} {j : Nat} {e : List String}
    (h : s1 = { getNextToken^[j] s with errs := s.errs ++ e }) :
    getNextToken s1 = { getNextToken^[j + 1] s with errs := s.errs ++ e } := by
  rw [h, Function.iterate_succ_apply']
  rfl

/-- A primary expression that is parsed starts with a consumable token, and the state
afterwards is reached from the state after that token. -/
theorem ParsePrimary_ok_consumed {n : Nat} {s s1 : PState} {v : ExprAST}
    (h : ParsePrimary n s = .ok v s1) :
    Consumable s.CurTok ∧ Consumed (getNextToken s) s1 := by
  cases n with
  | zero => rw [ParsePrimary] at h; cases h
  | succ n =>
    rw [ParsePrimary.eq_2] at h
    by_cases h1 : s.CurTok = TOK_IDENT
    · rw [if_pos h1] at h
      have h2 := (parse_consumed n).2.2.2.1 s h1
      rw [h] at h2
      exact ⟨Or.inr (Or.inl h1), h2⟩
    · rw [if_neg h1] at h
      by_cases h2 : s.CurTok = TOK_NUMBER
      · rw [if_pos h2] at h
        unfold ParseNumberExpr at h
        cases h
        exact ⟨Or.inl h2, Consumed.refl _⟩
      · rw [if_neg h2] at h
        by_cases h3 : s.CurTok = TOK_LP
        · rw [if_pos h3] at h
          have h4 := (parse_consumed n).2.1 s h3
          rw [h] at h4
          exact ⟨Or.inr (Or.inr (Or.inl h3)), h4⟩
        · rw [if_neg h3] at h
          unfold Error at h
          cases h

theorem ParseExpression_ok_consumed {n : Nat} {s s1 : PState} {v : ExprAST}
    (h : ParseExpression n s = .ok v s1) :
    Consumable s.CurTok ∧ Consumed (getNextToken s) s1 := by
  cases n with
  | zero => rw [ParseExpression] at h; cases h
  | succ n =>
    rw [ParseExpression.eq_2] at h
    cases hA : ParsePrimary n s with
    | oof => rw [hA] at h; cases h
    | null s0 => rw [hA] at h; cases h
    | ok v0 s0 =>
      rw [hA] at h
      dsimp only at h
      obtain ⟨h1, h2⟩ := ParsePrimary_ok_consumed hA
      have h3 := (parse_consumed n).2.2.2.2.1 0 v0 s0 (Int.le_refl 0)
      rw [h] at h3
      exact ⟨h1, h2.trans h3⟩

end Toy

namespace Toy

theorem Passed.of_consumable {p : PState} {j : Nat}
    (h : ∀ i, i < j → Consumable (getNextToken^[i] p).CurTok) : Passed p j :=
  fun i hi => Or.inl (h i hi)

theorem HandleTopLevelExpression_iter (n : Nat) (d : DState) (hne : d.p.CurTok ≠ TOK_EOF)
    (hf : 4 * remaining d.p + 3 ≤ n) :
    ∃ d2, HandleTopLevelExpression n d = some d2 ∧ remaining d2.p < remaining d.p ∧
      IterStep d d2 := by
  obtain ⟨d2, hd2, hlt⟩ := HandleTopLevelExpression_total n d hne hf
  refine ⟨d2, hd2, hlt, ?_⟩
  unfold HandleTopLevelExpression at hd2
  have hc := ParseTopLevelExpr_consumed n d.p
  cases hA : ParseTopLevelExpr n d.p with
  | oof => rw [hA] at hd2; cases hd2
  | null s1 =>
    rw [hA] at hd2 hc
    cases hd2
    obtain ⟨j, e, h1, h2⟩ := Consumed.position hc
    exact ⟨j + 1, e, by omega, position_recover h1, Or.inl ⟨rfl, Passed.of_consumable h2⟩⟩
  | ok f s1 =>
    rw [hA] at hd2
    cases hd2
    unfold ParseTopLevelExpr at hA
    cases hE : ParseExpression n d.p with
    | oof => rw [hE] at hA; cases hA
    | null s2 => rw [hE] at hA; cases hA
    | ok e2 s2 =>
      rw [hE] at hA
      cases hA
      obtain ⟨hc1, hc2⟩ := ParseExpression_ok_consumed hE
      obtain ⟨j, e, hj, h1, h2⟩ := Consumed.position_succ (Or.inl hc1) hc2
      exact ⟨j, e, hj, h1, Or.inr ⟨_, rfl, h2⟩⟩

theorem HandleDefinition_iter (n : Nat) (d : DState) (hd : d.p.CurTok = TOK_DEF)
    (hf : 4 * remaining d.p + 3 ≤ n) :
    ∃ d2, HandleDefinition n d = some d2 ∧ remaining d2.p < remaining d.p ∧
      IterStep d d2 := by
  obtain ⟨d2, hd2, hlt⟩ := HandleDefinition_total n d (by rw [hd]; decide) hf
  refine ⟨d2, hd2, hlt, ?_⟩
  unfold HandleDefinition at hd2
  have hc := ParseDefinition_consumed n d.p
  cases hA : ParseDefinition n d.p with
  | oof => rw [hA] at hd2; cases hd2
  | null s1 =>
    rw [hA] at hd2 hc
    cases hd2
    obtain ⟨j, e, hj, h1, h2⟩ := Consumed.position_succ (Or.inr (Or.inl hd)) hc
    exact ⟨j + 1, e, by omega, position_recover h1, Or.inl ⟨rfl, h2⟩⟩
  | ok f s1 =>
    rw [hA] at hd2 hc
    cases hd2
    obtain ⟨j, e, hj, h1, h2⟩ := Consumed.position_succ (Or.inr (Or.inl hd)) hc
    exact ⟨j, e, hj, h1, Or.inr ⟨_, rfl, h2⟩⟩

theorem HandleExtern_iter (n : Nat) (d : DState) (hd : d.p.CurTok = TOK_EXTERN)
    (hf : 4 * remaining d.p + 3 ≤ n) :
    ∃ d2, HandleExtern n d = some d2 ∧ remaining d2.p < remaining d.p ∧
      IterStep d d2 := by
  obtain ⟨d2, hd2, hlt⟩ := HandleExtern_total n d (by rw [hd]; decide) hf
  refine ⟨d2, hd2, hlt, ?_⟩
  unfold HandleExtern at hd2
  have hc := ParseExtern_consumed n d.p
  cases hA : ParseExtern n d.p with
  | oof => rw [hA] at hd2; cases hd2
  | null s1 =>
    rw [hA] at hd2 hc
    cases hd2
    obtain ⟨j, e, hj, h1, h2⟩ := Consumed.position_succ (Or.inr (Or.inr hd)) hc
    exact ⟨j + 1, e, by omega, position_recover h1, Or.inl ⟨rfl, h2⟩⟩
  | ok f s1 =>
    rw [hA] at hd2 hc
    cases hd2
    obtain ⟨j, e, hj, h1, h2⟩ := Consumed.position_succ (Or.inr (Or.inr hd)) hc
    exact ⟨j, e, hj, h1, Or.inr ⟨_, rfl, h2⟩⟩

/-- Every iteration of the driver loop that does not start at the end of input is a step
`IterStep` that leaves the measure smaller. -/
theorem MainLoop_iter (n : Nat) (d : DState) (hne : d.p.CurTok ≠ TOK_EOF)
    (hf : 4 * remaining d.p + 3 ≤ n) :
    ∃ d2, MainLoop (n + 1) d = MainLoop n d2 ∧ remaining d2.p < remaining d.p ∧
      IterStep d d2 := by
  rw [MainLoop, if_neg hne]
  by_cases h2 : d.p.CurTok = 59
  · rw [if_pos h2]
    refine ⟨{ d with p := getNextToken d.p }, rfl, getNextToken_remaining_lt d.p hne,
      1, [], Nat.le_refl 1, ?_, Or.inl ⟨rfl, fun i hi => absurd hi (Nat.not_lt_zero _)⟩⟩
    simp
    rfl
  · rw [if_neg h2]
    by_cases h3 : d.p.CurTok = TOK_DEF
    · rw [if_pos h3]
      obtain ⟨d2, hd, hlt, hs⟩ := HandleDefinition_iter n d h3 hf
      exact ⟨d2, by rw [hd, Option.some_bind], hlt, hs⟩
    · rw [if_neg h3]
      by_cases h4 : d.p.CurTok = TOK_EXTERN
      · rw [if_pos h4]
        obtain ⟨d2, hd, hlt, hs⟩ := HandleExtern_iter n d h4 hf
        exact ⟨d2, by rw [hd, Option.some_bind], hlt, hs⟩
      · rw [if_neg h4]
        obtain ⟨d2, hd, hlt, hs⟩ := HandleTopLevelExpression_iter n d hne hf
        exact ⟨d2, by rw [hd, Option.some_bind], hlt, hs⟩

/-- A token that no parse procedure consumes and that is no keyword is not among tokens
passed by parse procedures. -/
theorem Passed.ne {p : PState} {j : Nat} (h : Passed p j) {t : Int} (ht : ¬ Consumable t)
    (h1 : t ≠ TOK_DEF) (h2 : t ≠ TOK_EXTERN) :
    ∀ i, i < j → (getNextToken^[i] p).CurTok ≠ t := by
  intro i hi hti
  rcases h i hi with hc | ⟨h0, hk⟩
  · exact ht (hti ▸ hc)
  · subst h0
    have hp : p.CurTok = t := hti
    rcases hk with hk | hk
    · exact h1 (hp.symm.trans hk)
    · exact h2 (hp.symm.trans hk)

/-- In a step of the loop a token that no parse procedure consumes (and that is no
keyword) is passed only as the last token, and then nothing is handed over. -/
theorem IterStep.last {d d2 : DState} (h : IterStep d d2) {t : Int} (ht : ¬ Consumable t)
    (h1 : t ≠ TOK_DEF) (h2 : t ≠ TOK_EXTERN) :
    ∃ (j : Nat) (e : List String), 1 ≤ j ∧
      d2.p = { getNextToken^[j] d.p with errs := d.p.errs ++ e } ∧
      ∀ i, i < j → (getNextToken^[i] d.p).CurTok = t → i + 1 = j ∧ d2.handed = d.handed := by
  obtain ⟨j, e, hj, hp, hcase⟩ := h
  refine ⟨j, e, hj, hp, fun i hi hti => ?_⟩
  rcases hcase with ⟨hh, hpass⟩ | ⟨node, _, hpass⟩
  · refine ⟨?_, hh⟩
    by_contra hne
    exact Passed.ne hpass ht h1 h2 i (by omega) hti
  · exact absurd hti (Passed.ne hpass ht h1 h2 i hi)

end Toy

/-! ## The token after a separator starts an iteration -/

namespace Toy

theorem not_consumable_semicolon : ¬ Consumable 59 := by
  unfold Consumable
  decide

theorem iterate_of_position {p q : PState} {j : Nat} {x : List String}
    (hp : q = { getNextToken^[j] p with errs := x }) (a : Nat) :
    (getNextToken^[a] q).lex = (getNextToken^[a + j] p).lex ∧
    (getNextToken^[a] q).CurTok = (getNextToken^[a + j] p).CurTok := by
  rw [hp, iterate_with_errs]
  exact ⟨rfl, rfl⟩

theorem IterStep.handed {d d2 : DState} (h : IterStep d d2) :
    ∃ l, d2.handed = d.handed ++ l := by
  obtain ⟨_, _, _, _, hcase⟩ := h
  rcases hcase with ⟨hh, _⟩ | ⟨node, hh, _⟩
  · exact ⟨[], by rw [hh]; simp⟩
  · exact ⟨[node], hh⟩

/-- When the token at position `k` from `d.p` is `;` and no token up to there is the end
of input, the loop comes to start an iteration at position `k + 1`, with fuel left for
the rest of the run. -/
theorem MainLoop_reach (n : Nat) : ∀ (d : DState) (k : Nat),
    (getNextToken^[k] d.p).CurTok = 59 →
    (∀ i, i ≤ k → (getNextToken^[i] d.p).CurTok ≠ TOK_EOF) →
    5 * remaining d.p + 4 ≤ n →
    ∃ (m : Nat) (d2 : DState), MainLoop n d = MainLoop m d2 ∧
      5 * remaining d2.p + 4 ≤ m ∧
      d2.p.lex = (getNextToken^[k + 1] d.p).lex ∧
      d2.p.CurTok = (getNextToken^[k + 1] d.p).CurTok ∧
      ∃ l, d2.handed = d.handed ++ l := by
  induction n with
  | zero => intro d k _ _ h; omega
  | succ n ih =>
    intro d k hk hno hf
    have hne : d.p.CurTok ≠ TOK_EOF := hno 0 (Nat.zero_le _)
    obtain ⟨d1, hstep, hlt, hs⟩ := MainLoop_iter n d hne (by omega)
    obtain ⟨l1, hl1⟩ := hs.handed
    obtain ⟨j, e, hj, hp, hcase⟩ := hs
    have hjk : j ≤ k + 1 := by
      by_contra hcon
      rcases hcase with ⟨_, hpass⟩ | ⟨node, _, hpass⟩
      · exact Passed.ne hpass not_consumable_semicolon (by decide) (by decide) k (by omega) hk
      · exact Passed.ne hpass not_consumable_semicolon (by decide) (by decide) k (by omega) hk
    by_cases hjeq : j = k + 1
    · subst hjeq
      refine ⟨n, d1, hstep, by omega, ?_, ?_, l1, hl1⟩
      · rw [hp]
      · rw [hp]
    · have hle : j ≤ k := by omega
      have hkj : k - j + j = k := by omega
      have hk1 : k - j + 1 + j = k + 1 := by omega
      obtain ⟨m, d2, hm, hfm, hlex, htok, l2, hl2⟩ := ih d1 (k - j)
        (by rw [(iterate_of_position hp (k - j)).2, hkj]; exact hk)
        (fun i hi => by
          rw [(iterate_of_position hp i).2]
          exact hno (i + j) (by omega))
        (by omega)
      refine ⟨m, d2, by rw [hstep, hm], hfm, ?_, ?_, l1 ++ l2, ?_⟩
      · rw [hlex, (iterate_of_position hp (k - j + 1)).1, hk1]
      · rw [htok, (iterate_of_position hp (k - j + 1)).2, hk1]
      · rw [hl2, hl1, List.append_assoc]

theorem MainLoop_handed (n : Nat) : ∀ (d r : DState), MainLoop n d = some r →
    ∃ l, r.handed = d.handed ++ l := by
  induction n with
  | zero => intro d r h; simp [MainLoop] at h
  | succ n ih =>
    intro d r h
    by_cases hne : d.p.CurTok = TOK_EOF
    · rw [MainLoop, if_pos hne] at h
      cases h
      exact ⟨[], by simp⟩
    · by_cases hf : 4 * remaining d.p + 3 ≤ n
      · obtain ⟨d1, hstep, _, hs⟩ := MainLoop_iter n d hne hf
        obtain ⟨l1, hl1⟩ := hs.handed
        rw [hstep] at h
        obtain ⟨l2, hl2⟩ := ih d1 r h
        exact ⟨l1 ++ l2, by rw [hl2, hl1, List.append_assoc]⟩
      · rw [MainLoop, if_neg hne] at h
        by_cases h2 : d.p.CurTok = 59
        · rw [if_pos h2] at h
          have h5 := ih { p := getNextToken d.p, handed := d.handed } r h
          exact h5
        · rw [if_neg h2] at h
          by_cases h3 : d.p.CurTok = TOK_DEF
          · rw [if_pos h3] at h
            cases hH : HandleDefinition n d with
            | none => rw [hH] at h; cases h
            | some d1 =>
              rw [hH, Option.some_bind] at h
              obtain ⟨l2, hl2⟩ := ih d1 r h
              unfold HandleDefinition at hH
              cases hA : ParseDefinition n d.p with
              | oof => rw [hA] at hH; cases hH
              | null s1 => rw [hA] at hH; cases hH; exact ⟨l2, hl2⟩
              | ok f s1 =>
                rw [hA] at hH; cases hH
                exact ⟨[.function f] ++ l2, by rw [hl2, List.append_assoc]⟩
          · rw [if_neg h3] at h
            by_cases h4 : d.p.CurTok = TOK_EXTERN
            · rw [if_pos h4] at h
              cases hH : HandleExtern n d with
              | none => rw [hH] at h; cases h
              | some d1 =>
                rw [hH, Option.some_bind] at h
                obtain ⟨l2, hl2⟩ := ih d1 r h
                unfold HandleExtern at hH
                cases hA : ParseExtern n d.p with
                | oof => rw [hA] at hH; cases hH
                | null s1 => rw [hA] at hH; cases hH; exact ⟨l2, hl2⟩
                | ok f s1 =>
                  rw [hA] at hH; cases hH
                  exact ⟨[.prototype f] ++ l2, by rw [hl2, List.append_assoc]⟩
            · rw [if_neg h4] at h
              cases hH : HandleTopLevelExpression n d with
              | none => rw [hH] at h; cases h
              | some d1 =>
                rw [hH, Option.some_bind] at h
                obtain ⟨l2, hl2⟩ := ih d1 r h
                unfold HandleTopLevelExpression at hH
                cases hA : ParseTopLevelExpr n d.p with
                | oof => rw [hA] at hH; cases hH
                | null s1 => rw [hA] at hH; cases hH; exact ⟨l2, hl2⟩
                | ok f s1 =>
                  rw [hA] at hH; cases hH
                  exact ⟨[.function f] ++ l2, by rw [hl2, List.append_assoc]⟩

end Toy

namespace Toy

theorem Sim_refl {a : PState} (h : -1 ≤ a.lex.LastChar) : Sim [] a a :=
  ⟨rfl, rfl, h, rfl, fun _ => rfl, fun _ => rfl, by simp⟩

theorem Sim_iterate_start (cs : List Char) (k : Nat) :
    Sim [] (getNextToken^[k] (start cs)) (getNextToken^[k] (start cs)) := by
  induction k with
  | zero =>
    exact getNextToken_sim
      (Sim_refl (a := { lex := LexState.init cs, CurTok := 0, errs := [] })
        (show (-1 : Int) ≤ 32 by decide))
  | succ k ih =>
    rw [Function.iterate_succ_apply']
    exact getNextToken_sim ih

/-- A construct that is well formed at state `a` is well formed, with the same node, at a
state that differs from `a` in stale variables and earlier messages only. -/
theorem ParsesAs.sim {e : List String} {a b s1 : PState} {node : TopNode}
    (hs : Sim e a b) (h : ParsesAs a node s1) : ∃ t, ParsesAs b node t ∧ Sim e s1 t := by
  have hcur : b.CurTok = a.CurTok := hs.2.2.2.1
  rcases h with ⟨hc, n, f, h, hn⟩ | ⟨hc, n, p, h, hn⟩ | ⟨hc1, hc2, n, f, h, hn⟩
  · have hsim := ParseDefinition_sim n hs
    rw [h] at hsim
    obtain ⟨t, ht, hst⟩ := ResSim_ok hsim
    exact ⟨t, Or.inl ⟨by rw [hcur]; exact hc, n, f, ht, hn⟩, hst⟩
  · have hsim := ParseExtern_sim n hs
    rw [h] at hsim
    obtain ⟨t, ht, hst⟩ := ResSim_ok hsim
    exact ⟨t, Or.inr (Or.inl ⟨by rw [hcur]; exact hc, n, p, ht, hn⟩), hst⟩
  · have hsim := ParseTopLevelExpr_sim n hs
    rw [h] at hsim
    obtain ⟨t, ht, hst⟩ := ResSim_ok hsim
    exact ⟨t, Or.inr (Or.inr ⟨by rw [hcur]; exact hc1, by rw [hcur]; exact hc2, n, f, ht, hn⟩),
      hst⟩

theorem ResConsumed.state {α : Type} {s s1 : PState} {r : Res α} (h : ResConsumed s r)
    (hr : r.state = some s1) : Consumed s s1 := by
  cases r with
  | oof => cases hr
  | null s2 => cases hr; exact h
  | ok v s2 => cases hr; exact h

theorem Consumed.not_past {s s1 : PState} (h : Consumed s s1) {t : Int}
    (ht : ¬ Consumable t) :
    ∃ (j : Nat) (e : List String),
      s1 = { getNextToken^[j] s with errs := s.errs ++ e } ∧
      ∀ i, i < j → (getNextToken^[i] s).CurTok ≠ t := by
  obtain ⟨j, e, h1, h2⟩ := Consumed.position h
  exact ⟨j, e, h1, fun i hi hti => ht (hti ▸ h2 i hi)⟩

theorem Consumed.not_past_keyword {s s1 : PState} (h : Consumed (getNextToken s) s1)
    (hk : s.CurTok = TOK_DEF ∨ s.CurTok = TOK_EXTERN) {t : Int}
    (ht : ¬ Consumable t) (h1 : t ≠ TOK_DEF) (h2 : t ≠ TOK_EXTERN) :
    ∃ (j : Nat) (e : List String),
      s1 = { getNextToken^[j] s with errs := s.errs ++ e } ∧
      ∀ i, i < j → (getNextToken^[i] s).CurTok ≠ t := by
  obtain ⟨j, e, _, hp, hpass⟩ := Consumed.position_succ (Or.inr hk) h
  exact ⟨j, e, hp, Passed.ne hpass ht h1 h2⟩

end Toy

namespace Toy

/-- C19: (1) no parse procedure advances past a `;`: the state in which it returns is the
state after some number of `getNextToken` calls (up to messages), none of them at a `;`
(`ParseDefinition` and `ParseExtern` entered at their keyword, as the driver does).
(2) In an iteration of the driver loop a `;` is passed only as the last token and with
nothing handed over, that is by the separator case or by the recovery after a failure.
(3) Hence for every input and every position `k` at which the token is `;`: when the
construct that starts at position `k + 1` is well formed with node `node`, the run
returns, an iteration of the loop starts at position `k + 1` with the nodes `pre` handed
over so far, and the run hands over `node` right after `pre`. -/
theorem C19_separator_resynchronizes :
    (∀ (n : Nat) (s s1 : PState),
      ((ParsePrimary n s).state = some s1 ∨ (ParseExpression n s).state = some s1 ∨
        (ParsePrototype n s).state = some s1 ∨ (ParseTopLevelExpr n s).state = some s1 ∨
        (s.CurTok = TOK_DEF ∧ (ParseDefinition n s).state = some s1) ∨
        (s.CurTok = TOK_EXTERN ∧ (ParseExtern n s).state = some s1)) →
      ∃ (j : Nat) (e : List String),
        s1 = { getNextToken^[j] s with errs := s.errs ++ e } ∧
        ∀ i, i < j → (getNextToken^[i] s).CurTok ≠ 59) ∧
    (∀ (n : Nat) (d : DState), d.p.CurTok ≠ TOK_EOF → 4 * remaining d.p + 3 ≤ n →
      ∃ (d2 : DState) (j : Nat) (e : List String),
        MainLoop (n + 1) d = MainLoop n d2 ∧ 1 ≤ j ∧
        d2.p = { getNextToken^[j] d.p with errs := d.p.errs ++ e } ∧
        ∀ i, i < j → (getNextToken^[i] d.p).CurTok = 59 →
          i + 1 = j ∧ d2.handed = d.handed) ∧
    (∀ (cs : List Char) (k : Nat) (node : TopNode) (s1 : PState),
      (getNextToken^[k] (start cs)).CurTok = 59 →
      ParsesAs (getNextToken^[k + 1] (start cs)) node s1 →
      ∃ (r : DState) (pre post : List TopNode),
        (∀ fuel, 5 * cs.length + 9 ≤ fuel → run fuel cs = some r) ∧
        r.handed = pre ++ node :: post ∧
        ∃ (m : Nat) (d2 : DState), run (5 * cs.length + 9) cs = MainLoop m d2 ∧
          d2.p.lex = (getNextToken^[k + 1] (start cs)).lex ∧
          d2.p.CurTok = (getNextToken^[k + 1] (start cs)).CurTok ∧
          d2.handed = pre) := by
  refine ⟨?_, ?_, ?_⟩
  · intro n s s1 h
    rcases h with h | h | h | h | ⟨hk, h⟩ | ⟨hk, h⟩
    · exact (ResConsumed.state ((parse_consumed n).1 s) h).not_past not_consumable_semicolon
    · exact (ResConsumed.state ((parse_consumed n).2.2.2.2.2 s) h).not_past
        not_consumable_semicolon
    · exact (ResConsumed.state (ParsePrototype_consumed n s) h).not_past
        not_consumable_semicolon
    · exact (ResConsumed.state (ParseTopLevelExpr_consumed n s) h).not_past
        not_consumable_semicolon
    · exact (ResConsumed.state (ParseDefinition_consumed n s) h).not_past_keyword
        (Or.inl hk) not_consumable_semicolon (by decide) (by decide)
    · exact (ResConsumed.state (ParseExtern_consumed n s) h).not_past_keyword
        (Or.inr hk) not_consumable_semicolon (by decide) (by decide)
  · intro n d hne hf
    obtain ⟨d2, hstep, _, hs⟩ := MainLoop_iter n d hne hf
    obtain ⟨j, e, hj, hp, hlast⟩ := hs.last not_consumable_semicolon (by decide) (by decide)
    exact ⟨d2, j, e, hstep, hj, hp, hlast⟩
  · intro cs k node s1 hk hpa
    obtain ⟨r, hr⟩ := run_total cs
    have hrem := remaining_start cs
    obtain ⟨m, d2, hm, _, hlex, htok, l, hl⟩ := MainLoop_reach (5 * cs.length + 9)
      { p := start cs, handed := [] } k hk
      (no_eof_before cs k (by rw [hk]; decide)) (by dsimp only; omega)
    have hrun : MainLoop m d2 = some r := by
      rw [← hm]; exact hr _ (Nat.le_refl _)
    have hsim0 := Sim_iterate_start cs (k + 1)
    have hsim : Sim d2.p.errs (getNextToken^[k + 1] (start cs)) d2.p := by
      refine ⟨by rw [hlex], by rw [hlex], hsim0.2.2.1, htok, fun _ => by rw [hlex],
        fun _ => by rw [hlex], ?_⟩
      rw [getNextToken_iterate_errs_eq]
      simp [start, getNextToken]
    obtain ⟨t, hpt, _⟩ := hpa.sim hsim
    obtain ⟨N, hN⟩ := MainLoop_construct hpt
    have hbig := MainLoop_mono (Nat.le_max_left m (N + 1)) d2 r hrun
    obtain ⟨q, hq⟩ : ∃ q, max m (N + 1) = q + 1 :=
      ⟨max m (N + 1) - 1, by have := Nat.le_max_right m (N + 1); omega⟩
    rw [hq] at hbig
    have hstep := hN q (by have := Nat.le_max_right m (N + 1); omega) d2.handed
    have hd2 : ({ p := d2.p, handed := d2.handed } : DState) = d2 := rfl
    rw [hd2, hbig] at hstep
    obtain ⟨post, hpost⟩ := MainLoop_handed q _ r hstep.symm
    refine ⟨r, d2.handed, post, hr, ?_, m, d2, hm, hlex, htok, rfl⟩
    rw [hpost]
    simp

end Toy

namespace Toy

/-- C19, witness: in `1 + ; def foo(x) x;` the expression `1 +` fails at the `;`, the
recovery skips the `;`, and the definition after it is parsed from its first token and
handed over. -/
theorem C19_separator_resynchronizes_witness :
    (getNextToken^[2] (start "1 + ; def foo(x) x;".toList)).CurTok = 59 ∧
    ParsesAs (getNextToken^[2 + 1] (start "1 + ; def foo(x) x;".toList))
      (.function ⟨⟨"foo".toList, [['x']]⟩, .Variable ['x']⟩)
      (getNextToken^[9] (start "1 + ; def foo(x) x;".toList)) ∧
    (∃ (r : DState) (pre post : List TopNode),
      (∀ fuel, 5 * "1 + ; def foo(x) x;".toList.length + 9 ≤ fuel →
        run fuel "1 + ; def foo(x) x;".toList = some r) ∧
      r.handed = pre ++ (.function ⟨⟨"foo".toList, [['x']]⟩, .Variable ['x']⟩) :: post ∧
      ∃ (m : Nat) (d2 : DState),
        run (5 * "1 + ; def foo(x) x;".toList.length + 9) "1 + ; def foo(x) x;".toList
          = MainLoop m d2 ∧
        d2.p.lex = (getNextToken^[2 + 1] (start "1 + ; def foo(x) x;".toList)).lex ∧
        d2.p.CurTok = (getNextToken^[2 + 1] (start "1 + ; def foo(x) x;".toList)).CurTok ∧
        d2.handed = pre) ∧
    (run 30 "1 + ; def foo(x) x;".toList).map (fun d => (d.handed, d.p.errs, d.p.CurTok))
      = some ([.function ⟨⟨"foo".toList, [['x']]⟩, .Variable ['x']⟩],
          ["unknown token when expecting an expression"], TOK_EOF) :=
  ⟨by rfl, Or.inl ⟨by rfl, 20, _, by rfl, rfl⟩,
   C19_separator_resynchronizes.2.2 "1 + ; def foo(x) x;".toList 2 _ _ (by rfl)
     (Or.inl ⟨by rfl, 20, _, by rfl, rfl⟩),
   by rfl⟩

/-- C18: (1) the driver returns on every input, with any fuel from `5 * length + 9` on;
(2) every parse procedure returns when the fuel is at least four times the measure
`remaining` of the state plus three (the measure bounds the number of tokens before the
end of input); (3) when `ParseBinOpRHS` does not return at once, its current token is not
the end of input, consuming it makes the measure smaller, and a right operand that is
parsed makes it smaller again, so the recursive calls start at a later token; (4) every
iteration of the driver loop that does not start at the end of input passes at least one
token and makes the measure smaller, whether a node is handed over or not; (5) once the
token is the end of input, further reads change nothing. -/
theorem C18_termination :
    (∀ cs : List Char, ∃ r, ∀ fuel, 5 * cs.length + 9 ≤ fuel → run fuel cs = some r) ∧
    (∀ (fuel : Nat) (s : PState), 4 * remaining s + 3 ≤ fuel →
      ParsePrimary fuel s ≠ .oof ∧ ParseExpression fuel s ≠ .oof ∧
      (∀ (P : Int) (L : ExprAST), 0 ≤ P → ParseBinOpRHS fuel P L s ≠ .oof) ∧
      ParsePrototype fuel s ≠ .oof ∧ ParseDefinition fuel s ≠ .oof ∧
      ParseExtern fuel s ≠ .oof ∧ ParseTopLevelExpr fuel s ≠ .oof) ∧
    (∀ (n : Nat) (P : Int) (s : PState), 0 ≤ P → ¬ GetTokPrecedence s < P →
      s.CurTok ≠ TOK_EOF ∧ remaining (getNextToken s) < remaining s ∧
      ∀ (RHS : ExprAST) (s1 : PState), ParsePrimary n (getNextToken s) = .ok RHS s1 →
        remaining s1 < remaining (getNextToken s)) ∧
    (∀ (n : Nat) (d : DState), d.p.CurTok ≠ TOK_EOF → 4 * remaining d.p + 3 ≤ n →
      ∃ d2, MainLoop (n + 1) d = MainLoop n d2 ∧ remaining d2.p < remaining d.p ∧
        IterStep d d2) ∧
    (∀ (cs : List Char) (k : Nat), (getNextToken^[k] (start cs)).CurTok = TOK_EOF →
      getNextToken^[k + 1] (start cs) = getNextToken^[k] (start cs)) := by
  refine ⟨run_total, ?_, ?_, MainLoop_iter, eof_sticky⟩
  · intro fuel s hf
    exact ⟨(parse_total fuel).1 s (by omega), (parse_total fuel).2.2.2.2.2 s hf,
      fun P L hP => (parse_total fuel).2.2.2.2.1 P L s hP (by omega),
      ParsePrototype_total_of_remaining s fuel (by omega), ParseDefinition_total s fuel hf,
      ParseExtern_total s fuel hf, ParseTopLevelExpr_total s fuel hf⟩
  · intro n P s hP hprec
    have hc := consumable_ne_eof (consumable_of_prec hP hprec)
    exact ⟨hc, getNextToken_remaining_lt s hc, fun RHS s1 h => ParsePrimary_ok_lt h⟩

/-- C18, witness: the run on `1 + ; def foo(x) x;` returns; its first iteration is a step
that makes the measure smaller (it is 19 at the start and 11 where the definition
starts); at the end of input reading changes nothing. -/
theorem C18_termination_witness :
    (∃ r, ∀ fuel, 5 * "1 + ; def foo(x) x;".toList.length + 9 ≤ fuel →
      run fuel "1 + ; def foo(x) x;".toList = some r) ∧
    (∃ d2, MainLoop (80 + 1) { p := start "1 + ; def foo(x) x;".toList, handed := [] }
        = MainLoop 80 d2 ∧
      remaining d2.p < remaining (start "1 + ; def foo(x) x;".toList) ∧
      IterStep { p := start "1 + ; def foo(x) x;".toList, handed := [] } d2) ∧
    remaining (start "1 + ; def foo(x) x;".toList) = 19 ∧
    remaining (getNextToken^[3] (start "1 + ; def foo(x) x;".toList)) = 11 ∧
    getNextToken^[10 + 1] (start "1 + ; def foo(x) x;".toList)
      = getNextToken^[10] (start "1 + ; def foo(x) x;".toList) :=
  ⟨C18_termination.1 "1 + ; def foo(x) x;".toList,
   C18_termination.2.2.2.1 80 { p := start "1 + ; def foo(x) x;".toList, handed := [] }
     (by decide) (by decide),
   by rfl, by rfl,
   C18_termination.2.2.2.2 "1 + ; def foo(x) x;".toList 10 (by rfl)⟩

end Toy

end Kaleidoscope
